import Mathlib

/-! Event queue, bus and cache of the simulator core.

A shallow embedding of `sim/eventq.cc` (`EventQueue::insert`, `remove`,
`serviceOne`), of `mem/bus.cc` (`Bus::findPort`, `recvTiming`, `recvRetry`,
`recvAtomic`, `recvFunctional`, `recvStatusChange`) and of
`mem/cache/base_cache.hh` (blocking, bus requests, responses, draining),
followed by the properties proved about them.

The intrusive singly linked list of the event queue (`head`, `Event::next`) is
represented by the list of the events reachable from `head`, head first.  An
event object is identified by its `id` (its address); a queue never holds the
same object twice.
-/

namespace EventQ

/-- Modelled from the spec: the `Event` class (declared in `sim/eventq.hh`, which
is not among the sources).  An event has a target tick `when`, an integer
`priority` and the mutable flags Squashed, Scheduled and AutoDelete; `id` stands
for the identity (address) of the object. -/
structure Event where
  /-- Identity of the object (pointer value). -/
  id : Nat
  /-- Target tick: `Event::when()`. -/
  when : Int
  /-- Tie-break priority: `Event::priority()`. -/
  priority : Int
  /-- Flag `Event::Squashed`. -/
  squashed : Bool
  /-- Flag `Event::Scheduled`. -/
  scheduled : Bool
  /-- Flag `Event::AutoDelete`. -/
  autoDelete : Bool
  deriving DecidableEq, Repr

/-- The loop of `EventQueue::insert` (lines 67-78), started at `curr`: walk until
the first `curr` with
`event->when() <= curr->when() && (event->when() < curr->when() ||
event->priority() <= curr->priority())` and link `event` in front of it (at the
end of the list when the loop runs off it). -/
def insertLoop (event : Event) : List Event → List Event
  | [] => [event]
  | curr :: rest =>
    if event.when ≤ curr.when ∧
        (event.when < curr.when ∨ event.priority ≤ curr.priority) then
      event :: curr :: rest
    else
      curr :: insertLoop event rest

/-- `EventQueue::insert`: the new event becomes the head when the queue is empty
or `event->when() < head->when() || (event->when() == head->when() &&
event->priority() <= head->priority())`; otherwise the loop places it behind the
head. -/
def insert (event : Event) : List Event → List Event
  | [] => [event]
  | head :: next =>
    if event.when < head.when ∨
        (event.when = head.when ∧ event.priority ≤ head.priority) then
      event :: head :: next
    else
      head :: insertLoop event next

/-- The loop of `EventQueue::remove` (lines 95-101), started at `curr`:
`while (curr && curr != event)` advances; when it stops on `event` that node is
unlinked. -/
def removeLoop (event : Event) : List Event → List Event
  | [] => []
  | curr :: rest =>
    if curr.id ≠ event.id then curr :: removeLoop event rest else rest

/-- `EventQueue::remove`: nothing for an empty queue, the head fast path, and
otherwise the linear scan.  Pointers are compared, that is, identities. -/
def remove (event : Event) : List Event → List Event
  | [] => []
  | head :: next =>
    if head.id = event.id then next else head :: removeLoop event next

/-- What one call of `EventQueue::serviceOne` did. -/
structure Serviced where
  /-- The queue when the call returns. -/
  queue : List Event
  /-- The serviced event as the call leaves it (before a possible delete). -/
  event : Event
  /-- The invocations of `process()`, each with the event as the action saw it. -/
  processed : List Event
  /-- Whether `delete event` was executed. -/
  destroyed : Bool

/-- `EventQueue::serviceOne`.  `process e q` is the virtual `event->process()`:
it receives the event and the queue as they are when the action starts and
returns them as the action leaves them.  On an empty queue the code dereferences
a null `head`; the embedding has no result there. -/
def serviceOne (process : Event → List Event → Event × List Event) :
    List Event → Option Serviced
  | [] => none
  | head :: next =>
    -- event->clearFlags(Event::Scheduled); head = event->next;
    let event : Event := { head with scheduled := false }
    if ¬ event.squashed then
      -- event->process();
      let after := process event next
      some { queue := after.2, event := after.1, processed := [event],
             destroyed := after.1.autoDelete }
    else
      -- event->clearFlags(Event::Squashed);
      let cleared : Event := { event with squashed := false }
      some { queue := next, event := cleared, processed := [],
             destroyed := cleared.autoDelete }

/-- Insert the events of `evs` one after the other, first to last, into `q`. -/
def insertAll (evs : List Event) (q : List Event) : List Event :=
  evs.foldl (fun acc e => insert e acc) q

/-- Repeated `serviceOne` calls, at most `fuel` of them, until the queue is
empty; the result lists the serviced events, in service order, as they stood at
the head of the queue. -/
def drain (process : Event → List Event → Event × List Event) :
    Nat → List Event → List Event
  | 0, _ => []
  | fuel + 1, q =>
    match q.head?, serviceOne process q with
    | some head, some r => head :: drain process fuel r.queue
    | _, _ => []

/-- Lexicographic order on the key (`when`, `priority`): strictly smaller. -/
def keyLt (a b : Event) : Prop :=
  a.when < b.when ∨ (a.when = b.when ∧ a.priority < b.priority)

/-- Lexicographic order on the key (`when`, `priority`): smaller or equal. -/
def keyLe (a b : Event) : Prop :=
  a.when < b.when ∨ (a.when = b.when ∧ a.priority ≤ b.priority)

instance (a b : Event) : Decidable (keyLt a b) := by unfold keyLt; infer_instance
instance (a b : Event) : Decidable (keyLe a b) := by unfold keyLe; infer_instance

/-- A queue is ordered when its list ascends by (`when`, `priority`). -/
def Ordered (q : List Event) : Prop := q.Pairwise keyLe

/-- In the insertion sequence `evs`, `a` was inserted before `b`. -/
def InsertedBefore (evs : List Event) (a b : Event) : Prop :=
  ∃ i j : Nat, i < j ∧ evs[i]? = some a ∧ evs[j]? = some b

/-- The service order required of a drained queue: `a` may be serviced before
`b` when `a` has the smaller `when`, or the same `when` and the smaller
`priority`, or the same key and was inserted after `b`. -/
def ServiceOrder (evs : List Event) (a b : Event) : Prop :=
  a.when < b.when ∨ (a.when = b.when ∧ a.priority < b.priority) ∨
    (a.when = b.when ∧ a.priority = b.priority ∧ InsertedBefore evs b a)

/-- An action that changes neither its event nor the queue. -/
def idle : Event → List Event → Event × List Event := fun e q => (e, q)

/-- Scenario event A: tick 100, priority 0. -/
def evA : Event := ⟨1, 100, 0, false, true, false⟩

/-- Scenario event B: tick 100, priority 0. -/
def evB : Event := ⟨2, 100, 0, false, true, false⟩

/-- Scenario event C: tick 90 (priority 5). -/
def evC : Event := ⟨3, 90, 5, false, true, false⟩

/-- A squashed, auto-deleting event at tick 95. -/
def evS : Event := ⟨4, 95, 0, true, true, true⟩

end EventQ

namespace Mem

/-- An inclusive address range `[start, stop]` (`Range<Addr>`, fields `start` and
`end`). -/
structure Range where
  /-- First address of the range. -/
  start : Nat
  /-- Last address of the range (the field `end`). -/
  stop : Nat
  deriving DecidableEq, Repr

/-- Modelled from the spec: the comparison `range == addr` used by
`Bus::findPort` (an operator of `base/range.hh`, which is not among the sources):
the address lies inside the range, both bounds included. -/
def Range.contains (r : Range) (addr : Nat) : Bool :=
  decide (r.start ≤ addr) && decide (addr ≤ r.stop)

/-- Two ranges overlap when some address lies inside both. -/
def Range.overlaps (r s : Range) : Bool :=
  decide (max r.start s.start ≤ min r.stop s.stop)

/-- An entry of the range table: `struct DevMap { int portId; Range<Addr> range; }`. -/
structure DevMap where
  /-- Identifier of the port that owns the range. -/
  portId : Int
  /-- The address range. -/
  range : Range
  deriving DecidableEq, Repr

/-- A port of the bus, as created by `Bus::getPort`: it carries the identifier it
was created with. -/
structure BusPort where
  /-- The identifier passed to the constructor. -/
  id : Int
  deriving DecidableEq, Repr

/-- The fields of a `Packet` that the bus reads. -/
structure Packet where
  /-- Target address: `getAddr()`. -/
  addr : Nat
  /-- Source port identifier: `getSrc()`. -/
  src : Int
  /-- Destination port identifier or `Packet.Broadcast`: `getDest()`. -/
  dest : Int
  deriving DecidableEq, Repr

/-- Modelled from the spec: the broadcast destination value `Packet::Broadcast`
(declared in `mem/packet.hh`, which is not among the sources), a destination that
is no port identifier; the value `-1` stands for it. -/
def Packet.Broadcast : Int := -1

/-- The state of a `Bus`. -/
structure Bus where
  /-- The attached ports: `std::vector<Port*> interfaces`. -/
  interfaces : List BusPort
  /-- The range table: `std::vector<DevMap> portList`. -/
  portList : List DevMap
  /-- The ports waiting for a retry: `std::list<Port*> retryList`. -/
  retryList : List BusPort
  deriving DecidableEq, Repr

/-- The ways in which a call on the bus does not return. -/
inductive Fault where
  /-- A call of `panic`. -/
  | panic
  /-- A failed `assert`. -/
  | assertion
  /-- An index outside a vector (undefined in the code). -/
  | outOfBounds
  deriving DecidableEq, Repr

/-- The peers behind the ports of the bus.  Each call receives the packet and the
bus as they are when the call is made and returns them as the callee leaves
them (a callee may call back into the bus and may change the packet). -/
structure Peers where
  /-- `Port::sendTiming`: whether the packet was accepted. -/
  sendTiming : BusPort → Packet → Bus → Bool × Packet × Bus
  /-- `Port::sendAtomic`: the tick cost. -/
  sendAtomic : BusPort → Packet → Bus → Nat × Packet × Bus
  /-- `Port::sendFunctional`. -/
  sendFunctional : BusPort → Packet → Bus → Packet × Bus
  /-- `Port::sendRetry`. -/
  sendRetry : BusPort → Bus → Bus

/-- `Bus::getPort`: a new port whose identifier is the number of ports attached
so far, appended to `interfaces`. -/
def Bus.getPort (bus : Bus) : Bus × BusPort :=
  let bp : BusPort := { id := (bus.interfaces.length : Int) }
  ({ bus with interfaces := bus.interfaces ++ [bp] }, bp)

/-- The element `interfaces[id]`; an identifier outside the vector has none. -/
def Bus.interfaceAt (bus : Bus) (id : Int) : Except Fault BusPort :=
  if 0 ≤ id then
    match bus.interfaces[id.toNat]? with
    | some port => .ok port
    | none => .error .outOfBounds
  else .error .outOfBounds

/-- The scan of `Bus::findPort` (lines 108-120): `dest_id` starts as `-1` and
takes the `portId` of the first entry whose range holds the address, where the
scan stops. -/
def findDest (addr : Nat) : List DevMap → Int
  | [] => -1
  | dm :: rest => if dm.range.contains addr then dm.portId else findDest addr rest

/-- `Bus::findPort`: panic when `dest_id` is still `-1`, assertion
`dest_id != id`, result `interfaces[dest_id]`. -/
def Bus.findPort (bus : Bus) (addr : Nat) (id : Int) : Except Fault BusPort :=
  let dest_id := findDest addr bus.portList
  if dest_id = -1 then .error .panic
  else if dest_id = id then .error .assertion
  else bus.interfaceAt dest_id

/-- The port selection of `Bus::recvTiming` (lines 67-74). -/
def Bus.selectPort (bus : Bus) (pkt : Packet) : Except Fault BusPort :=
  let dest := pkt.dest
  if dest = Packet.Broadcast then
    bus.findPort pkt.addr pkt.src
  else if ¬ (0 ≤ dest ∧ dest < (bus.interfaces.length : Int)) then .error .assertion
  else if dest = pkt.src then .error .assertion
  else bus.interfaceAt dest

/-- What a returning call of `Bus::recvTiming` did. -/
structure TimingResult where
  /-- The value returned. -/
  accepted : Bool
  /-- The port the packet was sent to. -/
  sentTo : BusPort
  /-- The packet when the call returns. -/
  pkt : Packet
  /-- The bus when the call returns. -/
  bus : Bus
  deriving DecidableEq, Repr

/-- `Bus::recvTiming`. -/
def Bus.recvTiming (peers : Peers) (bus : Bus) (pkt : Packet) :
    Except Fault TimingResult :=
  match bus.selectPort pkt with
  | .error f => .error f
  | .ok port =>
    let sent := peers.sendTiming port pkt bus
    if sent.1 then
      .ok { accepted := true, sentTo := port, pkt := sent.2.1, bus := sent.2.2 }
    else
      -- retryList.push_back(interfaces[pkt->getSrc()]);
      match sent.2.2.interfaceAt sent.2.1.src with
      | .error f => .error f
      | .ok origin =>
        .ok { accepted := false, sentTo := port, pkt := sent.2.1,
              bus := { sent.2.2 with retryList := sent.2.2.retryList ++ [origin] } }

/-- The loop of `Bus::recvRetry` with `n` iterations left: assertion that the
list is not empty, `front`, `pop_front`, `sendRetry`.  The second component lists
the ports whose `sendRetry` the loop called, in call order. -/
def recvRetryLoop (peers : Peers) : Nat → Bus → Except Fault (Bus × List BusPort)
  | 0, bus => .ok (bus, [])
  | n + 1, bus =>
    match bus.retryList with
    | [] => .error .assertion
    | p :: rest =>
      match recvRetryLoop peers n (peers.sendRetry p { bus with retryList := rest }) with
      | .error f => .error f
      | .ok (final, called) => .ok (final, p :: called)

/-- `Bus::recvRetry`: as many iterations as the list has entries at the call. -/
def Bus.recvRetry (peers : Peers) (bus : Bus) (_id : Int) :
    Except Fault (Bus × List BusPort) :=
  recvRetryLoop peers bus.retryList.length bus

/-- What a returning call of `Bus::recvAtomic` did. -/
structure AtomicResult where
  /-- The tick cost returned. -/
  ticks : Nat
  /-- The port the packet was sent to. -/
  sentTo : BusPort
  /-- The packet when the call returns. -/
  pkt : Packet
  /-- The bus when the call returns. -/
  bus : Bus
  deriving DecidableEq, Repr

/-- `Bus::recvAtomic`. -/
def Bus.recvAtomic (peers : Peers) (bus : Bus) (pkt : Packet) :
    Except Fault AtomicResult :=
  if pkt.dest ≠ Packet.Broadcast then .error .assertion
  else
    match bus.findPort pkt.addr pkt.src with
    | .error f => .error f
    | .ok port =>
      let sent := peers.sendAtomic port pkt bus
      .ok { ticks := sent.1, sentTo := port, pkt := sent.2.1, bus := sent.2.2 }

/-- What a returning call of `Bus::recvFunctional` did. -/
structure FunctionalResult where
  /-- The port the packet was sent to. -/
  sentTo : BusPort
  /-- The packet when the call returns. -/
  pkt : Packet
  /-- The bus when the call returns. -/
  bus : Bus
  deriving DecidableEq, Repr

/-- `Bus::recvFunctional`. -/
def Bus.recvFunctional (peers : Peers) (bus : Bus) (pkt : Packet) :
    Except Fault FunctionalResult :=
  if pkt.dest ≠ Packet.Broadcast then .error .assertion
  else
    match bus.findPort pkt.addr pkt.src with
    | .error f => .error f
    | .ok port =>
      let sent := peers.sendFunctional port pkt bus
      .ok { sentTo := port, pkt := sent.1, bus := sent.2 }

/-- The ports carry their position: `interfaces[i]` has identifier `i`, as
`Bus::getPort` creates them. -/
def Bus.Numbered (bus : Bus) : Prop :=
  ∀ (i : Nat) (p : BusPort), bus.interfaces[i]? = some p → p.id = (i : Int)

/-- A run of timing sends, one `Bus::recvTiming` after the other; the result is
the bus after the last one and the packets whose send was rejected, in order. -/
def recvTimingSeq (peers : Peers) : Bus → List Packet → Except Fault (Bus × List Packet)
  | bus, [] => .ok (bus, [])
  | bus, pkt :: rest =>
    match bus.recvTiming peers pkt with
    | .error f => .error f
    | .ok r =>
      match recvTimingSeq peers r.bus rest with
      | .error f => .error f
      | .ok (final, rejected) =>
        .ok (final, if r.accepted then rejected else pkt :: rejected)

/-- Peers that neither call back into the bus nor change the packet. -/
def Peers.Quiet (peers : Peers) : Prop :=
  (∀ p k b, (peers.sendTiming p k b).2 = (k, b)) ∧ (∀ p b, peers.sendRetry p b = b)

/-- Peers that leave packet and bus alone, answer every timing send with
`accept` and every atomic send with the cost `cost`. -/
def quietPeers (accept : Bool) (cost : Nat) : Peers where
  sendTiming := fun _ k b => (accept, k, b)
  sendAtomic := fun _ k b => (cost, k, b)
  sendFunctional := fun _ k b => (k, b)
  sendRetry := fun _ b => b

/-- Scenario bus: three ports, the ranges [0x0,0xFFF] of port 1 and
[0x1000,0x1FFF] of port 2, nothing waiting for a retry. -/
def scenarioBus : Bus where
  interfaces := [⟨0⟩, ⟨1⟩, ⟨2⟩]
  portList := [⟨1, ⟨0x0, 0xFFF⟩⟩, ⟨2, ⟨0x1000, 0x1FFF⟩⟩]
  retryList := []

end Mem

namespace Mem

/-- Modelled from the spec: the status notifications of a port (`Port::Status`,
declared in `mem/port.hh`, which is not among the sources).  `RangeChange` is
the notification that the reachable address ranges changed; `Other` stands for
every other status. -/
inductive Status where
  /-- The reachable address ranges of the sender changed. -/
  | RangeChange
  /-- Any other status. -/
  | Other
  deriving DecidableEq, Repr

/-- The peers of the bus as `Bus::recvStatusChange` uses them. -/
structure RangePeers where
  /-- `Port::getPeerAddressRanges(ranges, snoops)`: the two lists the peer of the
  port reports, asked while the bus is in the given state. -/
  getPeerAddressRanges : BusPort → Bus → List Range × List Range
  /-- `Port::sendStatusChange(Port::RangeChange)`: the bus as the notified peer
  leaves it (the peer may call back into the bus). -/
  sendStatusChange : BusPort → Bus → Bus

/-- The loop "clean out any previously existent ids" of `Bus::recvStatusChange`
(lines 170-175): an entry with `portId == id` is erased, any other is kept. -/
def purge (id : Int) : List DevMap → List DevMap
  | [] => []
  | dm :: rest => if dm.portId = id then purge id rest else dm :: purge id rest

/-- The loop of `Bus::recvStatusChange` that tells the peers (lines 194-196),
at index `x`: it runs while `x < interfaces.size()`, the size being read again in
every round, and calls `sendStatusChange` on `interfaces[x]` when `x != id`.  The
second component lists the ports called, in call order.  `fuel` bounds the
number of rounds; there is no result when it runs out. -/
def notifyLoop (rp : RangePeers) (id : Int) : Nat → Nat → Bus → Option (Bus × List BusPort)
  | 0, _, _ => none
  | fuel + 1, x, bus =>
    match bus.interfaces[x]? with
    | none => some (bus, [])
    | some port =>
      if (x : Int) ≠ id then
        match notifyLoop rp id fuel (x + 1) (rp.sendStatusChange port bus) with
        | none => none
        | some (final, called) => some (final, port :: called)
      else notifyLoop rp id fuel (x + 1) bus

/-- The range table as `Bus::recvStatusChange` rebuilds it (lines 170-189): the
entries of `id` are purged and one entry per reported range is appended. -/
def rebuildTable (id : Int) (ranges : List Range) (table : List DevMap) : List DevMap :=
  purge id table ++ ranges.map (fun r => { portId := id, range := r })

/-- `Bus::recvStatusChange`.  The result is the bus when the call returns and the
ports that were sent the notification, in order; `fuel` bounds the rounds of the
notification loop. -/
def Bus.recvStatusChange (rp : RangePeers) (fuel : Nat) (bus : Bus) (status : Status)
    (id : Int) : Option (Except Fault (Bus × List BusPort)) :=
  if status ≠ Status.RangeChange then some (.error .assertion)
  else if ¬ (id < (bus.interfaces.length : Int) ∧ 0 ≤ id) then some (.error .assertion)
  else
    match bus.interfaceAt id with
    | .error f => some (.error f)
    | .ok port =>
      let purged : Bus := { bus with portList := purge id bus.portList }
      let answer := rp.getPeerAddressRanges port purged
      -- assert(snoops.size() == 0);
      if answer.2.length ≠ 0 then some (.error .assertion)
      else
        let rebuilt : Bus := { bus with portList := rebuildTable id answer.1 bus.portList }
        match notifyLoop rp id fuel 0 rebuilt with
        | none => none
        | some out => some (.ok out)

/-- The ports of `l`, taken as `interfaces[x]`, `interfaces[x + 1]`, ..., whose
index differs from `id`, in order. -/
def others (id : Int) (x : Nat) (l : List BusPort) : List BusPort :=
  ((l.enumFrom x).filter (fun ip => decide ((ip.1 : Int) ≠ id))).map Prod.snd

/-- Peers whose `sendStatusChange` leaves the bus as it is. -/
def RangePeers.Quiet (rp : RangePeers) : Prop := ∀ p b, rp.sendStatusChange p b = b

/-- No two entries of a range table with different `portId` have overlapping
ranges. -/
def NoOverlap (table : List DevMap) : Prop :=
  ∀ a ∈ table, ∀ b ∈ table, a.portId ≠ b.portId → a.range.overlaps b.range = false

/-- The reading in which every `recvStatusChange` preserves `NoOverlap`: a call
on a bus whose table has no overlap either does not return or returns a bus
whose table has none. -/
def OverlapGuarded (rp : RangePeers) (fuel : Nat) (bus : Bus) (id : Int) : Prop :=
  NoOverlap bus.portList →
    ∀ final notified,
      bus.recvStatusChange rp fuel Status.RangeChange id = some (.ok (final, notified)) →
      NoOverlap final.portList

/-- The reading in which an atomic send is routed whenever the address of the
packet lies in a mapped range of a port other than its source. -/
def AtomicRouted (peers : Peers) (bus : Bus) (pkt : Packet) : Prop :=
  (∃ dm ∈ bus.portList, dm.range.contains pkt.addr = true ∧ dm.portId ≠ pkt.src) →
    ∃ r, bus.recvAtomic peers pkt = .ok r

/-- Peers that report the ranges `ranges` (and no snoop ranges) for every port
and leave the bus alone when notified. -/
def quietRangePeers (ranges : List Range) : RangePeers where
  getPeerAddressRanges := fun _ _ => (ranges, [])
  sendStatusChange := fun _ b => b

end Mem

namespace Cache

/-- The enumeration `BlockedCause` (without its count `NUM_BLOCKED_CAUSES`). -/
inductive BlockedCause where
  | Blocked_NoMSHRs
  | Blocked_NoTargets
  | Blocked_NoWBBuffers
  | Blocked_Coherence
  deriving DecidableEq, Repr

/-- The value of a `BlockedCause` enumerator. -/
def BlockedCause.toNat : BlockedCause → Nat
  | .Blocked_NoMSHRs => 0
  | .Blocked_NoTargets => 1
  | .Blocked_NoWBBuffers => 2
  | .Blocked_Coherence => 3

/-- The enumeration `RequestCause`. -/
inductive RequestCause where
  | Request_MSHR
  | Request_WB
  | Request_Coherence
  | Request_PF
  deriving DecidableEq, Repr

/-- The value of a `RequestCause` enumerator. -/
def RequestCause.toNat : RequestCause → Nat
  | .Request_MSHR => 0
  | .Request_WB => 1
  | .Request_Coherence => 2
  | .Request_PF => 3

/-- What the cache reads of a `Packet`: `needsResponse()`,
`cmd == Packet::UpgradeReq`, `cmdToIndex()`, `time` and
`req->isUncacheable()`; `id` stands for the identity of the object. -/
structure Packet where
  id : Nat
  needsResponse : Bool
  isUpgradeReq : Bool
  cmdIndex : Nat
  time : Int
  uncacheable : Bool
  deriving DecidableEq, Repr

/-- An entry of a transmit list: `std::pair<Tick,PacketPtr>`. -/
abbrev Entry := Int × Packet

/-- The fields of a `CachePort` that the cache reads. -/
structure CachePort where
  waitingOnRetry : Bool
  drainList : List Packet
  transmitList : List Entry
  deriving DecidableEq, Repr

/-- The two sides of the cache: `cpuSidePort` with `sendEvent`, `memSidePort`
with `memSendEvent`. -/
inductive Side where
  | cpu
  | mem
  deriving DecidableEq, Repr

/-- What a call on the cache does to the objects around it.  The methods of
`CachePort` and of the events are defined outside `base_cache.hh`; a call of
one of them is recorded, in order, in the `log` of the cache. -/
inductive Effect where
  /-- The call `setBlocked()` on the port of the side. -/
  | setBlocked (side : Side)
  /-- The call `clearBlocked()` on the port of the side. -/
  | clearBlocked (side : Side)
  /-- A bus request: `new CacheEvent(port, false)` scheduled at `time`. -/
  | requestEvent (side : Side) (time : Int)
  /-- The call `schedule(time)` on the send event of the side. -/
  | schedule (side : Side) (time : Int)
  /-- The call `reschedule(time)` on the send event of the side. -/
  | reschedule (side : Side) (time : Int)
  /-- The statements `delete pkt->req; delete pkt;`. -/
  | deletePacket (id : Nat)
  /-- The call `drainEvent->process()`. -/
  | drainProcess (event : Nat)
  /-- The call `changeState(SimObject::Drained)`. -/
  | drained
  deriving DecidableEq, Repr

/-- The ways in which a call on the cache does not return. -/
inductive CacheFault where
  /-- A port pointer that is still `NULL` is dereferenced. -/
  | nullPort
  /-- `assert(time >= curTick)` fails. -/
  | timeInPast
  /-- `assert(!sendEvent->scheduled())` (or the one on `memSendEvent`) fails. -/
  | eventScheduled
  /-- `assert(pkt->needsResponse())` fails. -/
  | noResponse
  deriving DecidableEq, Repr

/-- The state of a `BaseCache`.  The four bit vectors are `uint8_t`; a send
event is represented by the tick it is scheduled for, if it is scheduled. -/
structure BaseCache where
  cpuSidePort : Option CachePort
  memSidePort : Option CachePort
  sendEvent : Option Int
  memSendEvent : Option Int
  blocked : Nat
  blockedSnoop : Nat
  masterRequests : Nat
  slaveRequests : Nat
  blockedCycle : Int
  drainEvent : Option Nat
  missLatency : Nat → Int
  blocked_cycles : BlockedCause → Int
  blocked_causes : BlockedCause → Int
  log : List Effect

/-- The state the constructor `BaseCache::BaseCache` establishes: the four bit
vectors zero, no drain event, both port pointers `NULL`; statistics at zero and
the send events not scheduled. -/
def BaseCache.fresh : BaseCache where
  cpuSidePort := none
  memSidePort := none
  sendEvent := none
  memSendEvent := none
  blocked := 0
  blockedSnoop := 0
  masterRequests := 0
  slaveRequests := 0
  blockedCycle := 0
  drainEvent := none
  missLatency := fun _ => 0
  blocked_cycles := fun _ => 0
  blocked_causes := fun _ => 0
  log := []

/-- A constructed cache whose two ports have been created. -/
def BaseCache.wired (cpu mem : CachePort) : BaseCache :=
  { BaseCache.fresh with cpuSidePort := some cpu, memSidePort := some mem }

/-- `uint8_t flag = 1 << cause;` -/
def flagOf (cause : Nat) : Nat := (1 <<< cause) % 256

/-- The assignment `mask |= flag` on a `uint8_t`. -/
def setBits (mask flag : Nat) : Nat := (mask ||| flag) % 256

/-- The assignment `mask &= ~flag` on a `uint8_t`: `~flag` is taken on the
operand promoted to a 32-bit `int`, the result is cut back to eight bits. -/
def clearBits (mask flag : Nat) : Nat := (mask &&& (4294967295 ^^^ flag)) % 256

/-- `BaseCache::isBlocked`. -/
def BaseCache.isBlocked (s : BaseCache) : Bool := decide (s.blocked ≠ 0)

/-- `BaseCache::isBlockedForSnoop`. -/
def BaseCache.isBlockedForSnoop (s : BaseCache) : Bool := decide (s.blockedSnoop ≠ 0)

/-- A call of a method on a port through its pointer: the effect is recorded; a
`NULL` pointer has no result. -/
def callPort (port : Option CachePort) (effect : Effect) (s : BaseCache) :
    Except CacheFault BaseCache :=
  match port with
  | none => .error .nullPort
  | some _ => .ok { s with log := s.log ++ [effect] }

/-- `BaseCache::setBlocked`, called at tick `curTick`. -/
def BaseCache.setBlocked (s : BaseCache) (cause : BlockedCause) (curTick : Int) :
    Except CacheFault BaseCache :=
  let flag := flagOf cause.toNat
  let s1 : BaseCache :=
    if s.blocked = 0 then
      { s with
        blocked_causes := Function.update s.blocked_causes cause (s.blocked_causes cause + 1),
        blockedCycle := curTick }
    else s
  let old_state := s1.blocked
  if s1.blocked &&& flag = 0 then
    let s2 : BaseCache := { s1 with blocked := setBits s1.blocked flag }
    if old_state = 0 then callPort s2.cpuSidePort (.setBlocked .cpu) s2
    else .ok s2
  else .ok s1

/-- `BaseCache::setBlockedForSnoop`. -/
def BaseCache.setBlockedForSnoop (s : BaseCache) (cause : BlockedCause) :
    Except CacheFault BaseCache :=
  let flag := flagOf cause.toNat
  let old_state := s.blockedSnoop
  if s.blockedSnoop &&& flag = 0 then
    let s2 : BaseCache := { s with blockedSnoop := setBits s.blockedSnoop flag }
    if old_state = 0 then callPort s2.memSidePort (.setBlocked .mem) s2
    else .ok s2
  else .ok s

/-- The first half of `BaseCache::clearBlocked` (lines 399-407): the access
path. -/
def BaseCache.clearAccess (s : BaseCache) (cause : BlockedCause) (curTick : Int) :
    Except CacheFault BaseCache :=
  let flag := flagOf cause.toNat
  if s.blocked &&& flag ≠ 0 then
    let s1 : BaseCache := { s with blocked := clearBits s.blocked flag }
    if ¬ s1.isBlocked then
      let s2 : BaseCache :=
        { s1 with
          blocked_cycles :=
            Function.update s1.blocked_cycles cause
              (s1.blocked_cycles cause + (curTick - s1.blockedCycle)) }
      callPort s2.cpuSidePort (.clearBlocked .cpu) s2
    else .ok s1
  else .ok s

/-- The second half of `BaseCache::clearBlocked` (lines 408-414): the snoop
path. -/
def BaseCache.clearSnoop (s : BaseCache) (cause : BlockedCause) :
    Except CacheFault BaseCache :=
  let flag := flagOf cause.toNat
  if s.blockedSnoop &&& flag ≠ 0 then
    let s1 : BaseCache := { s with blockedSnoop := clearBits s.blockedSnoop flag }
    if ¬ s1.isBlockedForSnoop then callPort s1.memSidePort (.clearBlocked .mem) s1
    else .ok s1
  else .ok s

/-- `BaseCache::clearBlocked`, called at tick `curTick`. -/
def BaseCache.clearBlocked (s : BaseCache) (cause : BlockedCause) (curTick : Int) :
    Except CacheFault BaseCache :=
  match s.clearAccess cause curTick with
  | .error f => .error f
  | .ok s1 => s1.clearSnoop cause

/-- `BaseCache::doMasterRequest`. -/
def BaseCache.doMasterRequest (s : BaseCache) : Bool := decide (s.masterRequests ≠ 0)

/-- `BaseCache::doSlaveRequest`. -/
def BaseCache.doSlaveRequest (s : BaseCache) : Bool := decide (s.slaveRequests ≠ 0)

/-- `BaseCache::setMasterRequest`. -/
def BaseCache.setMasterRequest (s : BaseCache) (cause : RequestCause) (time : Int) :
    Except CacheFault BaseCache :=
  let flag := flagOf cause.toNat
  if ¬ s.doMasterRequest then
    match s.memSidePort with
    | none => .error .nullPort
    | some port =>
      if ¬ port.waitingOnRetry then
        .ok { s with log := s.log ++ [.requestEvent .mem time],
                     masterRequests := setBits s.masterRequests flag }
      else .ok { s with masterRequests := setBits s.masterRequests flag }
  else .ok { s with masterRequests := setBits s.masterRequests flag }

/-- `BaseCache::setSlaveRequest`. -/
def BaseCache.setSlaveRequest (s : BaseCache) (cause : RequestCause) (time : Int) :
    Except CacheFault BaseCache :=
  let flag := flagOf cause.toNat
  if ¬ s.doSlaveRequest then
    match s.cpuSidePort with
    | none => .error .nullPort
    | some port =>
      if ¬ port.waitingOnRetry then
        .ok { s with log := s.log ++ [.requestEvent .cpu time],
                     slaveRequests := setBits s.slaveRequests flag }
      else .ok { s with slaveRequests := setBits s.slaveRequests flag }
  else .ok { s with slaveRequests := setBits s.slaveRequests flag }

/-- `CachePort::canDrain`. -/
def CachePort.canDrain (port : CachePort) : Bool :=
  port.drainList.isEmpty && port.transmitList.isEmpty

/-- `BaseCache::canDrain`. -/
def BaseCache.canDrain (s : BaseCache) : Bool :=
  if s.doMasterRequest || s.doSlaveRequest then false
  else if (match s.memSidePort with | some port => !port.canDrain | none => false) then false
  else if (match s.cpuSidePort with | some port => !port.canDrain | none => false) then false
  else true

/-- `BaseCache::checkDrain`. -/
def BaseCache.checkDrain (s : BaseCache) : BaseCache :=
  match s.drainEvent with
  | some event =>
    if s.canDrain then
      { s with log := s.log ++ [.drainProcess event, .drained], drainEvent := none }
    else s
  | none => s

/-- `BaseCache::clearMasterRequest`. -/
def BaseCache.clearMasterRequest (s : BaseCache) (cause : RequestCause) : BaseCache :=
  let flag := flagOf cause.toNat
  BaseCache.checkDrain { s with masterRequests := clearBits s.masterRequests flag }

/-- `BaseCache::clearSlaveRequest`. -/
def BaseCache.clearSlaveRequest (s : BaseCache) (cause : RequestCause) : BaseCache :=
  let flag := flagOf cause.toNat
  BaseCache.checkDrain { s with slaveRequests := clearBits s.slaveRequests flag }

/-- The port of a side. -/
def BaseCache.port (s : BaseCache) : Side → Option CachePort
  | .cpu => s.cpuSidePort
  | .mem => s.memSidePort

/-- The send event of a side: `sendEvent` for the cpu side, `memSendEvent` for
the memory side. -/
def BaseCache.event (s : BaseCache) : Side → Option Int
  | .cpu => s.sendEvent
  | .mem => s.memSendEvent

/-- The cache with the port and the send event of a side replaced and the
effects recorded. -/
def BaseCache.update (s : BaseCache) (side : Side) (port : CachePort) (event : Option Int)
    (effects : List Effect) : BaseCache :=
  match side with
  | .cpu => { s with cpuSidePort := some port, sendEvent := event, log := s.log ++ effects }
  | .mem => { s with memSidePort := some port, memSendEvent := event, log := s.log ++ effects }

/-- The search loop of `respond` (lines 524-535), at the iterator `i`: the entry
is inserted in front of the first `i` with `time < i->first`; the flag tells
whether `i` still is `begin()`, and the second component whether
`reschedule(time)` was called.  When the loop runs off the list nothing is
inserted. -/
def placeLoop (time : Int) (pkt : Packet) : Bool → List Entry → List Entry × Bool
  | _, [] => ([], false)
  | atBegin, e :: rest =>
    if time < e.1 then ((time, pkt) :: e :: rest, atBegin)
    else ((e :: (placeLoop time pkt false rest).1), (placeLoop time pkt false rest).2)

/-- The queueing of a response on a side: lines 503-535 of `respond`, which
`respondToMiss` repeats in lines 562-594 and `respondToSnoop`, on `memSidePort`
and `memSendEvent`, in lines 616-647. -/
def BaseCache.transmit (s : BaseCache) (side : Side) (pkt : Packet) (time : Int) :
    Except CacheFault BaseCache :=
  match s.port side with
  | none => .error .nullPort
  | some port =>
    match port.transmitList with
    | [] =>
      -- assert(!sendEvent->scheduled()); sendEvent->schedule(time); push_back
      if (s.event side).isSome then .error .eventScheduled
      else
        .ok (s.update side { port with transmitList := [(time, pkt)] } (some time)
          [.schedule side time])
    | first :: rest =>
      -- something is on the list and this belongs at the end
      if time ≥ ((first :: rest).getLast (List.cons_ne_nil first rest)).1 then
        .ok (s.update side { port with transmitList := first :: rest ++ [(time, pkt)] }
          (s.event side) [])
      else
        -- something is on the list and this belongs somewhere else
        .ok (s.update side
          { port with transmitList := (placeLoop time pkt true (first :: rest)).1 }
          (if (placeLoop time pkt true (first :: rest)).2 then some time else s.event side)
          (if (placeLoop time pkt true (first :: rest)).2 then [.reschedule side time]
            else []))

/-- The branch of `respond` for a packet that needs no response (lines
537-543). -/
def BaseCache.discard (s : BaseCache) (pkt : Packet) : BaseCache :=
  if ¬ pkt.isUpgradeReq then { s with log := s.log ++ [.deletePacket pkt.id] } else s

/-- `BaseCache::respond`, called at tick `curTick`. -/
def BaseCache.respond (s : BaseCache) (pkt : Packet) (time curTick : Int) :
    Except CacheFault BaseCache :=
  if time < curTick then .error .timeInPast
  else if pkt.needsResponse then s.transmit .cpu pkt time
  else .ok (s.discard pkt)

/-- `BaseCache::respondToMiss`, called at tick `curTick`. -/
def BaseCache.respondToMiss (s : BaseCache) (pkt : Packet) (time curTick : Int) :
    Except CacheFault BaseCache :=
  if time < curTick then .error .timeInPast
  else
    let s1 : BaseCache :=
      if ¬ pkt.uncacheable then
        { s with
          missLatency :=
            Function.update s.missLatency pkt.cmdIndex
              (s.missLatency pkt.cmdIndex + (time - pkt.time)) }
      else s
    if pkt.needsResponse then s1.transmit .cpu pkt time
    else .ok (s1.discard pkt)

/-- `BaseCache::respondToSnoop`, called at tick `curTick`. -/
def BaseCache.respondToSnoop (s : BaseCache) (pkt : Packet) (time curTick : Int) :
    Except CacheFault BaseCache :=
  if time < curTick then .error .timeInPast
  else if ¬ pkt.needsResponse then .error .noResponse
  else s.transmit .mem pkt time

/-- The transmit list of a side (empty when the port does not exist). -/
def BaseCache.transmitList (s : BaseCache) (side : Side) : List Entry :=
  match s.port side with
  | some port => port.transmitList
  | none => []

/-- A transmit list in non-decreasing tick order. -/
def TickSorted (l : List Entry) : Prop := l.Pairwise (fun a b => a.1 ≤ b.1)

/-- The send event follows the front of the transmit list: it is not scheduled
when the list is empty and scheduled for the tick of the first entry
otherwise. -/
def TracksFront (event : Option Int) (l : List Entry) : Prop :=
  event = l.head?.map Prod.fst

/-- A call of `setBlocked` or of `clearBlocked`, with the tick at which it is
made. -/
inductive BlockCall where
  | set (cause : BlockedCause) (curTick : Int)
  | clear (cause : BlockedCause) (curTick : Int)
  deriving DecidableEq, Repr

/-- The cache after one call. -/
def applyCall (s : BaseCache) : BlockCall → Except CacheFault BaseCache
  | .set cause curTick => s.setBlocked cause curTick
  | .clear cause curTick => s.clearBlocked cause curTick

/-- The cache after a sequence of calls, first to last. -/
def runCalls : BaseCache → List BlockCall → Except CacheFault BaseCache
  | s, [] => .ok s
  | s, call :: rest =>
    match applyCall s call with
    | .error f => .error f
    | .ok s1 => runCalls s1 rest

/-- Whether, after the calls, the cause is set and not cleared since: the most
recent call that names it is a `setBlocked` (`start` when no call names it). -/
def activeAfter (cause : BlockedCause) : Bool → List BlockCall → Bool
  | start, [] => start
  | start, .set c _ :: rest => activeAfter cause (if c = cause then true else start) rest
  | start, .clear c _ :: rest => activeAfter cause (if c = cause then false else start) rest

/-- The cache after a run of `setMasterRequest` calls, first to last. -/
def runMasterSets : BaseCache → List (RequestCause × Int) → Except CacheFault BaseCache
  | s, [] => .ok s
  | s, call :: rest =>
    match s.setMasterRequest call.1 call.2 with
    | .error f => .error f
    | .ok s1 => runMasterSets s1 rest

/-- The cache after a run of `setSlaveRequest` calls, first to last. -/
def runSlaveSets : BaseCache → List (RequestCause × Int) → Except CacheFault BaseCache
  | s, [] => .ok s
  | s, call :: rest =>
    match s.setSlaveRequest call.1 call.2 with
    | .error f => .error f
    | .ok s1 => runSlaveSets s1 rest

/-- The bus requests of a side among the effects. -/
def requestsOf (side : Side) (log : List Effect) : List Effect :=
  log.filter (fun e => match e with
    | .requestEvent sd _ => decide (sd = side)
    | _ => false)

/-- A port with nothing queued that is not waiting for a retry. -/
def idlePort : CachePort where
  waitingOnRetry := false
  drainList := []
  transmitList := []

/-- A packet that needs a response. -/
def response (id : Nat) : Packet where
  id := id
  needsResponse := true
  isUpgradeReq := false
  cmdIndex := 0
  time := 0
  uncacheable := false

end Cache

namespace Cache

/-- A call of `setMasterRequest` / `setSlaveRequest` (with its tick) or of
`clearMasterRequest` / `clearSlaveRequest`. -/
inductive RequestCall where
  | set (cause : RequestCause) (time : Int)
  | clear (cause : RequestCause)
  deriving DecidableEq, Repr

/-- The cache after a sequence of `setMasterRequest` / `clearMasterRequest`
calls, first to last; no scheduled event fires in between. -/
def runMasterCalls : BaseCache → List RequestCall → Except CacheFault BaseCache
  | s, [] => .ok s
  | s, .set cause time :: rest =>
    match s.setMasterRequest cause time with
    | .error f => .error f
    | .ok s1 => runMasterCalls s1 rest
  | s, .clear cause :: rest => runMasterCalls (s.clearMasterRequest cause) rest

/-- The cache after a sequence of `setSlaveRequest` / `clearSlaveRequest` calls,
first to last; no scheduled event fires in between. -/
def runSlaveCalls : BaseCache → List RequestCall → Except CacheFault BaseCache
  | s, [] => .ok s
  | s, .set cause time :: rest =>
    match s.setSlaveRequest cause time with
    | .error f => .error f
    | .ok s1 => runSlaveCalls s1 rest
  | s, .clear cause :: rest => runSlaveCalls (s.clearSlaveRequest cause) rest

/-- The number of clear calls in a sequence. -/
def clearsIn : List RequestCall → Nat
  | [] => 0
  | .set _ _ :: rest => clearsIn rest
  | .clear _ :: rest => clearsIn rest + 1

/-- The reading in which at most one bus request of the master direction is
scheduled, and none fired, after the calls. -/
def AtMostOneRequest (s : BaseCache) (calls : List RequestCall) : Prop :=
  ∀ s1, runMasterCalls s calls = .ok s1 → (requestsOf Side.mem s1.log).length ≤ 1

/-- The reading in which `respond` destroys every packet that needs no
response: the cpu-side list and the send event are as before and the packet was
deleted during the call. -/
def DestroysUnneeded (s : BaseCache) (pkt : Packet) (time curTick : Int) : Prop :=
  pkt.needsResponse = false →
    ∀ s1, s.respond pkt time curTick = .ok s1 →
      s1.transmitList Side.cpu = s.transmitList Side.cpu ∧ s1.sendEvent = s.sendEvent ∧
      Effect.deletePacket pkt.id ∈ s1.log.drop s.log.length

/-- The statistic that `respondToMiss` accrues: for a request that is not
uncacheable, `time - pkt.time` is added to the miss latency of the packet's
command. -/
def BaseCache.accrue (s : BaseCache) (pkt : Packet) (time : Int) : BaseCache :=
  if pkt.uncacheable then s
  else
    { s with
      missLatency :=
        Function.update s.missLatency pkt.cmdIndex
          (s.missLatency pkt.cmdIndex + (time - pkt.time)) }

/-- Following the spec: `respondToMiss` is `respond` with, in addition, the
statistic accrued (nothing is accrued when the call does not return). -/
def respondToMissSpec (s : BaseCache) (pkt : Packet) (time curTick : Int) :
    Except CacheFault BaseCache :=
  match s.respond pkt time curTick with
  | .error f => .error f
  | .ok s1 => .ok (s1.accrue pkt time)

/-- A call that may complete a drain: `checkDrain` itself or one of the two
clear calls that end in it. -/
inductive DrainCall where
  | check
  | clearMaster (cause : RequestCause)
  | clearSlave (cause : RequestCause)
  deriving DecidableEq, Repr

/-- The cache after one such call. -/
def applyDrainCall (s : BaseCache) : DrainCall → BaseCache
  | .check => s.checkDrain
  | .clearMaster cause => s.clearMasterRequest cause
  | .clearSlave cause => s.clearSlaveRequest cause

/-- The cache after a sequence of such calls, first to last. -/
def runDrainCalls (s : BaseCache) (calls : List DrainCall) : BaseCache :=
  calls.foldl applyDrainCall s

/-- The invocations of a drain event's `process()` among the effects. -/
def drainFirings (log : List Effect) : List Effect :=
  log.filter (fun e => match e with
    | .drainProcess _ => true
    | _ => false)

/-- The reading in which the two blocking masks are independent: `setBlocked`
and `clearBlocked` leave the snoop-path mask as it is and `setBlockedForSnoop`
leaves the access-path mask as it is. -/
def MasksIndependent (s : BaseCache) (cause : BlockedCause) (curTick : Int) : Prop :=
  (∀ s1, s.setBlocked cause curTick = .ok s1 → s1.blockedSnoop = s.blockedSnoop) ∧
  (∀ s1, s.clearBlocked cause curTick = .ok s1 → s1.blockedSnoop = s.blockedSnoop) ∧
  (∀ s1, s.setBlockedForSnoop cause = .ok s1 → s1.blocked = s.blocked)

/-- The three functions that queue a response. -/
inductive ResponseKind where
  | respond
  | respondToMiss
  | respondToSnoop
  deriving DecidableEq, Repr

/-- The side on whose list the function queues. -/
def ResponseKind.side : ResponseKind → Side
  | .respond => .cpu
  | .respondToMiss => .cpu
  | .respondToSnoop => .mem

/-- A call of one of the three functions: the function, the packet, `time` and
the current tick. -/
structure ResponseCall where
  kind : ResponseKind
  pkt : Packet
  time : Int
  curTick : Int
  deriving DecidableEq, Repr

/-- The cache after one such call. -/
def applyResponse (s : BaseCache) (call : ResponseCall) : Except CacheFault BaseCache :=
  match call.kind with
  | .respond => s.respond call.pkt call.time call.curTick
  | .respondToMiss => s.respondToMiss call.pkt call.time call.curTick
  | .respondToSnoop => s.respondToSnoop call.pkt call.time call.curTick

/-- The cache after a sequence of such calls, first to last. -/
def runResponses : BaseCache → List ResponseCall → Except CacheFault BaseCache
  | s, [] => .ok s
  | s, call :: rest =>
    match applyResponse s call with
    | .error f => .error f
    | .ok s1 => runResponses s1 rest

/-- The entries that a sequence of calls queues on a side, in call order: those
of the calls that queue on this side with a packet that needs a response. -/
def entriesFor (side : Side) (calls : List ResponseCall) : List Entry :=
  (calls.filter (fun call => decide (call.kind.side = side) && call.pkt.needsResponse)).map
    (fun call => (call.time, call.pkt))

/-- The stable sort by tick of a sequence of entries: entries are in
non-decreasing tick order and entries of equal tick keep the order in which
they stand in the sequence. -/
def stableSortByTick (entries : List Entry) : List Entry :=
  entries.insertionSort (fun a b => a.1 ≤ b.1)

/-- The list with an entry put in behind all entries that are not later than it
and in front of the first later one. -/
def placeBehindEqual (entry : Entry) (l : List Entry) : List Entry :=
  l.orderedInsert (fun a b => a.1 < b.1) entry

/-- An upgrade request: it needs no response and its command is
`Packet::UpgradeReq`. -/
def upgradeReq (id : Nat) : Packet where
  id := id
  needsResponse := false
  isUpgradeReq := true
  cmdIndex := 1
  time := 0
  uncacheable := false

/-- A packet that needs no response and is no upgrade request. -/
def writeback (id : Nat) : Packet where
  id := id
  needsResponse := false
  isUpgradeReq := false
  cmdIndex := 2
  time := 0
  uncacheable := false

end Cache

namespace Mem

/-- The entries by which the callbacks of a retry pass of `n` rounds make the
retry list longer, round after round: for each round, what stands on the list
after `sendRetry` behind the entries that were there before it. -/
def retryPassExtras (peers : Peers) : Nat → Bus → List BusPort
  | 0, _ => []
  | n + 1, bus =>
    match bus.retryList with
    | [] => []
    | p :: rest =>
      ((peers.sendRetry p { bus with retryList := rest }).retryList.drop rest.length) ++
        retryPassExtras peers n (peers.sendRetry p { bus with retryList := rest })

/-- Peers whose `sendRetry` only appends to the retry list of the bus (as a send
that is rejected again does). -/
def Peers.Appending (peers : Peers) : Prop :=
  ∀ p b, ∃ extra, (peers.sendRetry p b).retryList = b.retryList ++ extra

/-- Peers that answer a retry by sending a broadcast packet for `addr` into the
bus again; every timing send is rejected. -/
def resendingPeers (addr : Nat) : Peers where
  sendTiming := fun _ k b => (false, k, b)
  sendAtomic := fun _ k b => (0, k, b)
  sendFunctional := fun _ k b => (k, b)
  sendRetry := fun p b =>
    match b.recvTiming (quietPeers false 0) { addr := addr, src := p.id, dest := -1 } with
    | .ok r => r.bus
    | .error _ => b

/-- Peers whose `sendTiming` neither calls back into the bus nor changes the
packet. -/
def Peers.QuietSends (peers : Peers) : Prop :=
  ∀ p k b, (peers.sendTiming p k b).2 = (k, b)

/-- Peers of which the port `busy` rejects every timing send and every other
port accepts it, and that answer a retry by sending a broadcast packet for
`addr` into the bus again, which is rejected. -/
def busyPeers (busy : Int) (addr : Nat) : Peers where
  sendTiming := fun p k b => (decide (p.id ≠ busy), k, b)
  sendAtomic := fun _ k b => (0, k, b)
  sendFunctional := fun _ k b => (k, b)
  sendRetry := fun p b =>
    match b.recvTiming (quietPeers false 0) { addr := addr, src := p.id, dest := -1 } with
    | .ok r => r.bus
    | .error _ => b

/-- Peers that report the ranges `ranges` (and no snoop ranges) for every port
and answer a range-change notification by sending a broadcast packet for `addr`
into the bus, which is rejected. -/
def sendingRangePeers (ranges : List Range) (addr : Nat) : RangePeers where
  getPeerAddressRanges := fun _ _ => (ranges, [])
  sendStatusChange := fun p b =>
    match b.recvTiming (quietPeers false 0) { addr := addr, src := p.id, dest := -1 } with
    | .ok r => r.bus
    | .error _ => b

end Mem

namespace EventQ

/-! ## Order lemmas for the key (`when`, `priority`) -/

theorem not_keyLe_iff (a b : Event) : ¬ keyLe a b ↔ keyLt b a := by
  unfold keyLe keyLt; omega

theorem keyLt_keyLe (a b : Event) (h : keyLt a b) : keyLe a b := by
  unfold keyLe keyLt at *; omega

theorem keyLe_trans (a b c : Event) (h1 : keyLe a b) (h2 : keyLe b c) : keyLe a c := by
  unfold keyLe at *; omega

theorem keyLt_of_lt_of_le (a b c : Event) (h1 : keyLt a b) (h2 : keyLe b c) :
    keyLt a c := by
  unfold keyLe keyLt at *; omega

theorem loop_test_iff (e c : Event) :
    (e.when ≤ c.when ∧ (e.when < c.when ∨ e.priority ≤ c.priority)) ↔ keyLe e c := by
  unfold keyLe; omega

/-- The head test and the loop test of `insert` are the same comparison, so the
whole function is the scan started at the head. -/
theorem insert_eq_insertLoop (e : Event) (q : List Event) : insert e q = insertLoop e q := by
  cases q with
  | nil => rfl
  | cons h t =>
    simp only [insert, insertLoop]
    by_cases hc : keyLe e h
    · have h1 : e.when < h.when ∨ (e.when = h.when ∧ e.priority ≤ h.priority) := hc
      rw [if_pos h1, if_pos ((loop_test_iff e h).2 hc)]
    · have h1 : ¬ (e.when < h.when ∨ (e.when = h.when ∧ e.priority ≤ h.priority)) := hc
      rw [if_neg h1, if_neg (fun hx => hc ((loop_test_iff e h).1 hx))]

/-- Where the scan puts the event: behind a prefix of strictly smaller keys and
in front of the first event whose key is not smaller. -/
theorem insertLoop_split (e : Event) (q : List Event) :
    ∃ l1 l2, q = l1 ++ l2 ∧ insertLoop e q = l1 ++ e :: l2 ∧
      (∀ x ∈ l1, keyLt x e) ∧ (∀ y, l2.head? = some y → keyLe e y) := by
  induction q with
  | nil => exact ⟨[], [], rfl, rfl, by simp, by simp⟩
  | cons c rest ih =>
    by_cases hc : keyLe e c
    · refine ⟨[], c :: rest, rfl, ?_, by simp, ?_⟩
      · simp only [insertLoop, if_pos ((loop_test_iff e c).2 hc), List.nil_append]
      · intro y hy
        simp only [List.head?_cons, Option.some.injEq] at hy
        exact hy ▸ hc
    · obtain ⟨l1, l2, hq, hins, hlt, hge⟩ := ih
      refine ⟨c :: l1, l2, by rw [hq, List.cons_append], ?_, ?_, hge⟩
      · simp only [insertLoop, if_neg (fun hx => hc ((loop_test_iff e c).1 hx)), hins,
          List.cons_append]
      · intro x hx
        rcases List.mem_cons.1 hx with rfl | hx
        · exact (not_keyLe_iff e x).1 hc
        · exact hlt x hx

/-- In an ordered list every element is at least the head. -/
theorem ordered_head_le (l : List Event) (h : Ordered l) (y : Event)
    (hy : l.head? = some y) : ∀ x ∈ l, keyLe y x := by
  cases l with
  | nil => simp
  | cons a t =>
    simp only [List.head?_cons, Option.some.injEq] at hy
    subst hy
    intro x hx
    rcases List.mem_cons.1 hx with rfl | hx
    · unfold keyLe; omega
    · exact List.rel_of_pairwise_cons h hx

/-- The position of a newly inserted event in an ordered queue. -/
theorem insert_split (e : Event) (q : List Event) (hs : Ordered q) :
    ∃ l1 l2, q = l1 ++ l2 ∧ insert e q = l1 ++ e :: l2 ∧
      (∀ x ∈ l1, keyLt x e) ∧ (∀ x ∈ l2, keyLe e x) := by
  obtain ⟨l1, l2, hq, hins, hlt, hge⟩ := insertLoop_split e q
  refine ⟨l1, l2, hq, by rw [insert_eq_insertLoop, hins], hlt, ?_⟩
  have hs2 : Ordered l2 := by
    have h := hs
    rw [hq] at h
    exact (List.pairwise_append.1 h).2.1
  intro x hx
  cases hl : l2.head? with
  | none =>
    rw [List.head?_eq_none_iff] at hl
    rw [hl] at hx
    simp at hx
  | some y => exact keyLe_trans e y x (hge y hl) (ordered_head_le l2 hs2 y hl x hx)

/-- An insertion into an ordered queue leaves the queue ordered. -/
theorem insert_ordered (e : Event) (q : List Event) (hs : Ordered q) :
    Ordered (insert e q) := by
  obtain ⟨l1, l2, hq, hins, hlt, hge⟩ := insert_split e q hs
  have h := hs
  rw [hq] at h
  obtain ⟨h1, h2, h12⟩ := List.pairwise_append.1 h
  rw [hins]
  unfold Ordered
  refine List.pairwise_append.2 ⟨h1, List.pairwise_cons.2 ⟨hge, h2⟩, ?_⟩
  intro x hx y hy
  rcases List.mem_cons.1 hy with rfl | hy
  · exact keyLt_keyLe x y (hlt x hx)
  · exact h12 x hx y hy

end EventQ

namespace EventQ

/-! ## Insertion sequences and draining -/

theorem serviceOrder_keyLe (evs : List Event) (a b : Event) (h : ServiceOrder evs a b) :
    keyLe a b := by
  unfold ServiceOrder at h
  unfold keyLe
  omega

theorem insertedBefore_append (evs : List Event) (e a b : Event)
    (h : InsertedBefore evs a b) : InsertedBefore (evs ++ [e]) a b := by
  obtain ⟨i, j, hij, hi, hj⟩ := h
  have hi2 : i < evs.length := by
    by_contra hc
    rw [List.getElem?_eq_none (by omega)] at hi
    cases hi
  have hj2 : j < evs.length := by
    by_contra hc
    rw [List.getElem?_eq_none (by omega)] at hj
    cases hj
  exact ⟨i, j, hij, by rw [List.getElem?_append_left hi2]; exact hi,
    by rw [List.getElem?_append_left hj2]; exact hj⟩

theorem insertedBefore_last (evs : List Event) (e a : Event) (h : a ∈ evs) :
    InsertedBefore (evs ++ [e]) a e := by
  obtain ⟨i, hi, hget⟩ := List.getElem_of_mem h
  refine ⟨i, evs.length, hi, ?_, ?_⟩
  · rw [List.getElem?_append_left hi, List.getElem?_eq_getElem hi, hget]
  · rw [List.getElem?_append_right (le_refl _)]
    simp

theorem serviceOrder_append (evs : List Event) (e a b : Event)
    (h : ServiceOrder evs a b) : ServiceOrder (evs ++ [e]) a b := by
  rcases h with h | h | ⟨h1, h2, h3⟩
  · exact Or.inl h
  · exact Or.inr (Or.inl h)
  · exact Or.inr (Or.inr ⟨h1, h2, insertedBefore_append evs e b a h3⟩)

/-- One insertion keeps the queue a permutation of the events inserted so far,
arranged in service order. -/
theorem insert_step (pre q : List Event) (e : Event) (hperm : q.Perm pre)
    (hord : q.Pairwise (ServiceOrder pre)) :
    (insert e q).Perm (pre ++ [e]) ∧ (insert e q).Pairwise (ServiceOrder (pre ++ [e])) := by
  have hs : Ordered q := hord.imp (fun {a b} h => serviceOrder_keyLe pre a b h)
  obtain ⟨l1, l2, hq, hins, hlt, hge⟩ := insert_split e q hs
  have hord2 : (l1 ++ l2).Pairwise (ServiceOrder (pre ++ [e])) := by
    rw [← hq]
    exact hord.imp (fun {a b} h => serviceOrder_append pre e a b h)
  obtain ⟨h1, h2, h12⟩ := List.pairwise_append.1 hord2
  constructor
  · rw [hins]
    have hp1 : (l1 ++ e :: l2).Perm (e :: (l1 ++ l2)) := List.perm_middle
    have hp2 : (e :: (l1 ++ l2)).Perm (e :: pre) := List.Perm.cons e (hq ▸ hperm)
    have hp3 : (e :: pre).Perm (pre ++ [e]) := (List.perm_append_singleton e pre).symm
    exact hp1.trans (hp2.trans hp3)
  · rw [hins]
    refine List.pairwise_append.2 ⟨h1, List.pairwise_cons.2 ⟨?_, h2⟩, ?_⟩
    · intro y hy
      have hmem : y ∈ pre := hperm.subset (by rw [hq]; exact List.mem_append_right l1 hy)
      have hle := hge y hy
      unfold keyLe at hle
      rcases hle with hw | ⟨hw, hp⟩
      · exact Or.inl hw
      · rcases lt_or_eq_of_le hp with hp | hp
        · exact Or.inr (Or.inl ⟨hw, hp⟩)
        · exact Or.inr (Or.inr ⟨hw, hp, insertedBefore_last pre e y hmem⟩)
    · intro x hx y hy
      rcases List.mem_cons.1 hy with rfl | hy
      · have hxy := hlt x hx
        unfold keyLt at hxy
        rcases hxy with hw | hw
        · exact Or.inl hw
        · exact Or.inr (Or.inl hw)
      · exact h12 x hx y hy

theorem insertAll_invariant (evs pre q : List Event) (hperm : q.Perm pre)
    (hord : q.Pairwise (ServiceOrder pre)) :
    (insertAll evs q).Perm (pre ++ evs) ∧
      (insertAll evs q).Pairwise (ServiceOrder (pre ++ evs)) := by
  induction evs generalizing pre q with
  | nil => simpa [insertAll] using And.intro hperm hord
  | cons e rest ih =>
    obtain ⟨hp, ho⟩ := insert_step pre q e hperm hord
    have h := ih (pre ++ [e]) (insert e q) hp ho
    simpa [insertAll, List.append_assoc] using h

/-- When the actions leave the queue alone, draining with enough fuel services
the queue from head to tail. -/
theorem drain_eq (process : Event → List Event → Event × List Event)
    (hproc : ∀ e q, (process e q).2 = q) (fuel : Nat) (q : List Event)
    (hfuel : q.length ≤ fuel) : drain process fuel q = q := by
  induction fuel generalizing q with
  | zero =>
    have : q = [] := List.length_eq_zero.1 (Nat.le_zero.1 hfuel)
    subst this
    rfl
  | succ n ih =>
    cases q with
    | nil => rfl
    | cons head next =>
      have hlen : next.length ≤ n := by simpa using hfuel
      by_cases hsq : head.squashed = true
      · simp [drain, serviceOne, hsq, ih next hlen]
      · simp [drain, serviceOne, hsq, hproc, ih next hlen]

/-! ## Removal -/

theorem remove_eq_removeLoop (e : Event) (q : List Event) : remove e q = removeLoop e q := by
  cases q with
  | nil => rfl
  | cons h t =>
    simp only [remove, removeLoop]
    by_cases hc : h.id = e.id
    · rw [if_pos hc, if_neg (by simpa using hc)]
    · rw [if_neg hc, if_pos hc]

theorem removeLoop_absent (e : Event) (q : List Event) (h : e.id ∉ q.map Event.id) :
    removeLoop e q = q := by
  induction q with
  | nil => rfl
  | cons c rest ih =>
    simp only [List.map_cons, List.mem_cons, not_or] at h
    simp only [removeLoop]
    rw [if_pos (fun hc => h.1 hc.symm), ih h.2]

theorem removeLoop_split (e : Event) (q : List Event) (h : e.id ∈ q.map Event.id) :
    ∃ l1 x l2, q = l1 ++ x :: l2 ∧ x.id = e.id ∧ removeLoop e q = l1 ++ l2 ∧
      e.id ∉ l1.map Event.id := by
  induction q with
  | nil => simp at h
  | cons c rest ih =>
    by_cases hc : c.id = e.id
    · refine ⟨[], c, rest, rfl, hc, ?_, by simp⟩
      simp only [removeLoop]
      rw [if_neg (by simpa using hc)]
      rfl
    · have hrest : e.id ∈ rest.map Event.id := by
        simp only [List.map_cons, List.mem_cons] at h
        rcases h with h | h
        · exact absurd h.symm hc
        · exact h
      obtain ⟨l1, x, l2, hq, hx, hrem, hnot⟩ := ih hrest
      refine ⟨c :: l1, x, l2, by rw [hq, List.cons_append], hx, ?_, ?_⟩
      · simp only [removeLoop]
        rw [if_pos hc, hrem, List.cons_append]
      · simp only [List.map_cons, List.mem_cons, not_or]
        exact ⟨fun h => hc h.symm, hnot⟩

end EventQ

namespace EventQ

/-! ## The event queue claims -/

/-- C1: starting from an empty queue, events (distinct objects) inserted with
`insert` and then drained by repeated `serviceOne` calls whose actions do not
touch the queue are all serviced, each once, in non-decreasing `when`, for equal
`when` in non-decreasing `priority`, and for equal (`when`, `priority`) in
reverse order of insertion. -/
theorem service_order (process : Event → List Event → Event × List Event)
    (evs : List Event) (k : Nat) (hproc : ∀ e q, (process e q).2 = q)
    (hdistinct : (evs.map Event.id).Nodup) :
    (drain process (evs.length + k) (insertAll evs [])).Perm evs ∧
      (drain process (evs.length + k) (insertAll evs [])).Pairwise (ServiceOrder evs) ∧
      ((drain process (evs.length + k) (insertAll evs [])).map Event.id).Nodup := by
  obtain ⟨hp, ho⟩ := insertAll_invariant evs [] [] (List.Perm.refl _) List.Pairwise.nil
  simp only [List.nil_append] at hp ho
  have hlen : (insertAll evs []).length ≤ evs.length + k := by
    rw [hp.length_eq]
    exact Nat.le_add_right _ _
  rw [drain_eq process hproc _ _ hlen]
  exact ⟨hp, ho, ((hp.map Event.id).nodup_iff).2 hdistinct⟩

/-- C1, scenario: A(100,0), then B(100,0), then C(90,5) is serviced as C, B, A. -/
theorem service_order_witness :
    drain idle 3 (insertAll [evA, evB, evC] []) = [evC, evB, evA] ∧
      ((drain idle ([evA, evB, evC].length + 0) (insertAll [evA, evB, evC] [])).Perm
          [evA, evB, evC] ∧
        (drain idle ([evA, evB, evC].length + 0) (insertAll [evA, evB, evC] [])).Pairwise
          (ServiceOrder [evA, evB, evC]) ∧
        ((drain idle ([evA, evB, evC].length + 0) (insertAll [evA, evB, evC] [])).map
          Event.id).Nodup) :=
  ⟨by decide, service_order idle [evA, evB, evC] 0 (fun _ _ => rfl) (by decide)⟩

/-- C2: `insert` preserves sortedness.  For a queue ordered ascending by
(`when`, `priority`) and an event not yet in it, the queue after `insert` is
ordered again and is the old queue with the new event put in at one place:
nothing is lost, the others keep their order, and the new event occurs once. -/
theorem insert_preserves_sortedness (e : Event) (q : List Event) (hs : Ordered q)
    (hnew : e.id ∉ q.map Event.id) :
    Ordered (insert e q) ∧
      (∃ l1 l2, q = l1 ++ l2 ∧ insert e q = l1 ++ e :: l2) ∧
      ((insert e q).map Event.id).count e.id = 1 := by
  obtain ⟨l1, l2, hq, hins, _, _⟩ := insert_split e q hs
  refine ⟨insert_ordered e q hs, ⟨l1, l2, hq, hins⟩, ?_⟩
  have h0 : (q.map Event.id).count e.id = 0 := List.count_eq_zero_of_not_mem hnew
  rw [hq] at h0
  rw [hins]
  simp only [List.map_append, List.map_cons, List.count_append, List.count_cons_self] at h0 ⊢
  omega

/-- C2 at a concrete queue: C(90,5) into the ordered queue B, A. -/
theorem insert_preserves_sortedness_witness :
    insert evC [evB, evA] = [evC, evB, evA] ∧
      (Ordered (insert evC [evB, evA]) ∧
        (∃ l1 l2, [evB, evA] = l1 ++ l2 ∧ insert evC [evB, evA] = l1 ++ evC :: l2) ∧
        ((insert evC [evB, evA]).map Event.id).count evC.id = 1) :=
  ⟨by decide,
    insert_preserves_sortedness evC [evB, evA]
      (by unfold Ordered keyLe; decide) (by decide)⟩

/-- C3: tie-break position of `insert`.  In an ordered queue the new event `e`
is placed behind exactly the events whose key (`when`, `priority`) is strictly
smaller than its own and in front of exactly those whose key is equal or
greater, hence before all earlier events with the same key. -/
theorem insert_tie_break (e : Event) (q : List Event) (hs : Ordered q) :
    ∃ l1 l2, q = l1 ++ l2 ∧ insert e q = l1 ++ e :: l2 ∧
      (∀ x ∈ l1, keyLt x e) ∧ (∀ x ∈ l2, keyLe e x) ∧
      l1 = q.filter (fun x => decide (keyLt x e)) ∧
      l2 = q.filter (fun x => decide (keyLe e x)) := by
  obtain ⟨l1, l2, hq, hins, hlt, hge⟩ := insert_split e q hs
  refine ⟨l1, l2, hq, hins, hlt, hge, ?_, ?_⟩
  · rw [hq, List.filter_append]
    have h1 : l1.filter (fun x => decide (keyLt x e)) = l1 :=
      List.filter_eq_self.2 (fun x hx => decide_eq_true (hlt x hx))
    have h2 : l2.filter (fun x => decide (keyLt x e)) = [] :=
      List.filter_eq_nil_iff.2 (fun x hx => by
        have := (not_keyLe_iff e x).not.1 (not_not.2 (hge x hx))
        simpa using this)
    rw [h1, h2, List.append_nil]
  · rw [hq, List.filter_append]
    have h1 : l1.filter (fun x => decide (keyLe e x)) = [] :=
      List.filter_eq_nil_iff.2 (fun x hx => by
        have := (not_keyLe_iff e x).2 (hlt x hx)
        simpa using this)
    have h2 : l2.filter (fun x => decide (keyLe e x)) = l2 :=
      List.filter_eq_self.2 (fun x hx => decide_eq_true (hge x hx))
    rw [h1, h2, List.nil_append]

/-- C3 at a concrete queue: B(100,0) goes in front of the earlier A(100,0) and
behind C(90,5). -/
theorem insert_tie_break_witness :
    insert evB [evC, evA] = [evC, evB, evA] ∧
      (∃ l1 l2, [evC, evA] = l1 ++ l2 ∧ insert evB [evC, evA] = l1 ++ evB :: l2 ∧
        (∀ x ∈ l1, keyLt x evB) ∧ (∀ x ∈ l2, keyLe evB x) ∧
        l1 = [evC, evA].filter (fun x => decide (keyLt x evB)) ∧
        l2 = [evC, evA].filter (fun x => decide (keyLe evB x))) :=
  ⟨by decide, insert_tie_break evB [evC, evA] (by unfold Ordered keyLe; decide)⟩

end EventQ

namespace EventQ

/-- The result of `serviceOne` for a squashed head. -/
theorem serviceOne_of_squashed (process : Event → List Event → Event × List Event)
    (head : Event) (next : List Event) (hsq : head.squashed = true) :
    serviceOne process (head :: next) =
      some { queue := next, event := { head with scheduled := false, squashed := false },
             processed := [],
             destroyed := head.autoDelete } := by
  simp only [serviceOne, hsq]
  rfl

/-- The result of `serviceOne` for a head that is not squashed. -/
theorem serviceOne_of_live (process : Event → List Event → Event × List Event)
    (head : Event) (next : List Event) (hsq : head.squashed = false) :
    serviceOne process (head :: next) =
      some { queue := (process { head with scheduled := false } next).2,
             event := (process { head with scheduled := false } next).1,
             processed := [{ head with scheduled := false }],
             destroyed := (process { head with scheduled := false } next).1.autoDelete } := by
  simp only [serviceOne, hsq]
  rfl

/-- C4: squash is a lazy cancel in `serviceOne`.  A head with the Squashed flag
is still removed from the queue, its `process()` is not invoked and the flag is
cleared afterwards; for a head without the flag `process()` is invoked exactly
once (on that event), and the call leaves the event and the queue as that
invocation leaves them. -/
theorem serviceOne_squash (process : Event → List Event → Event × List Event)
    (head : Event) (next : List Event) :
    (head.squashed = true →
      ∃ r, serviceOne process (head :: next) = some r ∧ r.queue = next ∧
        r.processed = [] ∧ r.event.squashed = false ∧ r.event.id = head.id) ∧
    (head.squashed = false →
      ∃ r, serviceOne process (head :: next) = some r ∧
        r.processed.length = 1 ∧ (∀ e ∈ r.processed, e.id = head.id) ∧
        r.event = (process { head with scheduled := false } next).1 ∧
        r.queue = (process { head with scheduled := false } next).2) := by
  constructor
  · intro hsq
    exact ⟨_, serviceOne_of_squashed process head next hsq, rfl, rfl, rfl, rfl⟩
  · intro hsq
    refine ⟨_, serviceOne_of_live process head next hsq, rfl, ?_, rfl, rfl⟩
    intro e he
    simp only [List.mem_singleton] at he
    rw [he]

/-- C4 at concrete queues: the squashed head S is removed without its action
running and comes out unsquashed; the head C has its action run once, and an
action that squashes its own event leaves it squashed. -/
theorem serviceOne_squash_witness :
    (∃ r, serviceOne idle [evS, evA] = some r ∧ r.queue = [evA] ∧
        r.processed = [] ∧ r.event.squashed = false ∧ r.event.id = evS.id) ∧
    (∃ r, serviceOne idle [evC, evA] = some r ∧
        r.processed.length = 1 ∧ (∀ e ∈ r.processed, e.id = evC.id) ∧
        r.event = (idle { evC with scheduled := false } [evA]).1 ∧
        r.queue = (idle { evC with scheduled := false } [evA]).2) ∧
    (serviceOne (fun e q => ({ e with squashed := true }, q)) [evC, evA]).map
        (fun r => (r.event.squashed, r.queue)) = some (true, [evA]) :=
  ⟨(serviceOne_squash idle evS [evA]).1 rfl, (serviceOne_squash idle evC [evA]).2 rfl,
    by rfl⟩

/-- C5: on a non-empty queue `serviceOne` removes exactly the head.  The action
is handed the old list without its first element and the call returns the queue
as the action leaves it, so the new queue is that tail whenever the action does
not touch the queue (and always for a squashed head); the event reaches its
action with the Scheduled flag cleared; the event that the call leaves is the
one its action returns (for a squashed head: the head with Scheduled and
Squashed cleared); and it is destroyed exactly when the AutoDelete flag of that
event is set, squashed or not: for a squashed head, and for every action that
leaves the flag alone, exactly when the head has AutoDelete set. -/
theorem serviceOne_pops_head (process : Event → List Event → Event × List Event)
    (head : Event) (next : List Event) :
    ∃ r, serviceOne process (head :: next) = some r ∧
      r.queue = (if head.squashed then next
        else (process { head with scheduled := false } next).2) ∧
      ((∀ e q, (process e q).2 = q) → r.queue = next) ∧
      r.processed = (if head.squashed then [] else [{ head with scheduled := false }]) ∧
      (∀ e ∈ r.processed, e.scheduled = false) ∧
      r.event = (if head.squashed then { head with scheduled := false, squashed := false }
        else (process { head with scheduled := false } next).1) ∧
      r.destroyed = (if head.squashed then head.autoDelete
        else (process { head with scheduled := false } next).1.autoDelete) ∧
      (r.destroyed = true ↔ r.event.autoDelete = true) ∧
      (head.squashed = true → r.destroyed = head.autoDelete) ∧
      ((∀ e q, (process e q).1.autoDelete = e.autoDelete) →
        r.destroyed = head.autoDelete) := by
  by_cases hsq : head.squashed = true
  · refine ⟨_, serviceOne_of_squashed process head next hsq, ?_, ?_, ?_, ?_, ?_, ?_, ?_, ?_, ?_⟩
    · simp [hsq]
    · intro _; rfl
    · simp [hsq]
    · simp
    · simp [hsq]
    · simp [hsq]
    · exact Iff.rfl
    · intro _; rfl
    · intro _; rfl
  · have hsq2 : head.squashed = false := by simpa using hsq
    refine ⟨_, serviceOne_of_live process head next hsq2, ?_, ?_, ?_, ?_, ?_, ?_, ?_, ?_, ?_⟩
    · simp [hsq2]
    · intro hproc; exact hproc _ _
    · simp [hsq2]
    · simp
    · simp [hsq2]
    · simp [hsq2]
    · exact Iff.rfl
    · intro h; exact absurd h hsq
    · intro hproc; exact hproc _ _

/-- C5 at concrete queues: servicing C, B, A with an idle action leaves B, A;
C is not destroyed (no AutoDelete); the squashed auto-deleting S is destroyed,
and so is a live auto-deleting head after its action has run. -/
theorem serviceOne_pops_head_witness :
    (serviceOne idle [evC, evB, evA]).map Serviced.queue = some [evB, evA] ∧
      (serviceOne idle [evC, evB, evA]).map Serviced.destroyed = some false ∧
      (serviceOne idle [evS, evA]).map Serviced.destroyed = some true ∧
      (serviceOne idle [⟨5, 80, 0, false, true, true⟩, evC]).map
          (fun r => (r.destroyed, r.processed, r.event, r.queue))
        = some (true, [⟨5, 80, 0, false, false, true⟩], ⟨5, 80, 0, false, false, true⟩,
            [evC]) ∧
      (serviceOne (fun e q => ({ e with autoDelete := true }, q)) [evC, evA]).map
          (fun r => (r.destroyed, r.event.autoDelete)) = some (true, true) ∧
      (∃ r, serviceOne idle [evC, evB, evA] = some r ∧
        r.queue = (if evC.squashed then [evB, evA]
          else (idle { evC with scheduled := false } [evB, evA]).2) ∧
        ((∀ e q, (idle e q).2 = q) → r.queue = [evB, evA]) ∧
        r.processed = (if evC.squashed then [] else [{ evC with scheduled := false }]) ∧
        (∀ e ∈ r.processed, e.scheduled = false) ∧
        r.event = (if evC.squashed then { evC with scheduled := false, squashed := false }
          else (idle { evC with scheduled := false } [evB, evA]).1) ∧
        r.destroyed = (if evC.squashed then evC.autoDelete
          else (idle { evC with scheduled := false } [evB, evA]).1.autoDelete) ∧
        (r.destroyed = true ↔ r.event.autoDelete = true) ∧
        (evC.squashed = true → r.destroyed = evC.autoDelete) ∧
        ((∀ e q, (idle e q).1.autoDelete = e.autoDelete) →
          r.destroyed = evC.autoDelete)) :=
  ⟨by decide, by decide, by decide, by rfl, by rfl,
    serviceOne_pops_head idle evC [evB, evA]⟩

/-- C6: `remove(e)` erases `e`.  In a queue (no object twice) that contains `e`,
at the head or later, the queue after `remove` is the old one with that single
node taken out: `e` is gone, the others remain in their order, and an ordered
queue stays ordered.  A queue that is empty or does not contain `e` is left
unchanged. -/
theorem remove_erases (e : Event) (q : List Event) (hq : (q.map Event.id).Nodup) :
    (e.id ∈ q.map Event.id →
      ∃ l1 x l2, q = l1 ++ x :: l2 ∧ x.id = e.id ∧ remove e q = l1 ++ l2 ∧
        e.id ∉ (remove e q).map Event.id ∧ (Ordered q → Ordered (remove e q))) ∧
    (e.id ∉ q.map Event.id → remove e q = q) ∧
    remove e [] = [] := by
  refine ⟨?_, ?_, rfl⟩
  · intro hmem
    obtain ⟨l1, x, l2, hsplit, hx, hrem, hnot1⟩ := removeLoop_split e q hmem
    have hrem2 : remove e q = l1 ++ l2 := by rw [remove_eq_removeLoop, hrem]
    refine ⟨l1, x, l2, hsplit, hx, hrem2, ?_, ?_⟩
    · rw [hrem2]
      rw [hsplit] at hq
      simp only [List.map_append, List.map_cons] at hq
      have hnd := (List.nodup_append.1 hq).2.1
      have hnot2 : x.id ∉ l2.map Event.id := (List.nodup_cons.1 hnd).1
      simp only [List.map_append, List.mem_append, not_or]
      exact ⟨hnot1, hx ▸ hnot2⟩
    · intro hord
      rw [hrem2]
      unfold Ordered at hord ⊢
      rw [hsplit] at hord
      exact hord.sublist (List.Sublist.append_left (List.sublist_cons_self x l2) l1)
  · intro hnot
    rw [remove_eq_removeLoop, removeLoop_absent e q hnot]

/-- C6 at concrete queues: removing B from C, B, A leaves C, A; removing the head
C leaves B, A; removing S, which is not in the queue, changes nothing. -/
theorem remove_erases_witness :
    remove evB [evC, evB, evA] = [evC, evA] ∧ remove evC [evC, evB, evA] = [evB, evA] ∧
      remove evS [evC, evB, evA] = [evC, evB, evA] ∧
      ((evB.id ∈ [evC, evB, evA].map Event.id →
        ∃ l1 x l2, [evC, evB, evA] = l1 ++ x :: l2 ∧ x.id = evB.id ∧
          remove evB [evC, evB, evA] = l1 ++ l2 ∧
          evB.id ∉ (remove evB [evC, evB, evA]).map Event.id ∧
          (Ordered [evC, evB, evA] → Ordered (remove evB [evC, evB, evA]))) ∧
      (evB.id ∉ [evC, evB, evA].map Event.id →
        remove evB [evC, evB, evA] = [evC, evB, evA]) ∧
      remove evB [] = []) :=
  ⟨by decide, by decide, by decide, remove_erases evB [evC, evB, evA] (by decide)⟩

end EventQ

namespace Mem

/-! ## Routing lemmas -/

theorem contains_overlaps (r s : Range) (a : Nat) (hr : r.contains a = true)
    (hs : s.contains a = true) : r.overlaps s = true := by
  simp only [Range.contains, Bool.and_eq_true, decide_eq_true_eq] at hr hs
  simp only [Range.overlaps, decide_eq_true_eq]
  omega

theorem findDest_miss (a : Nat) (l : List DevMap)
    (h : ∀ dm ∈ l, dm.range.contains a = false) : findDest a l = -1 := by
  induction l with
  | nil => rfl
  | cons c rest ih =>
    have hc : c.range.contains a = false := h c (List.mem_cons_self c rest)
    simp only [findDest, hc]
    exact ih (fun dm hdm => h dm (List.mem_cons_of_mem c hdm))

theorem findDest_hit (a : Nat) (l : List DevMap)
    (hdisj : l.Pairwise (fun x y => x.range.overlaps y.range = false))
    (dm : DevMap) (hmem : dm ∈ l) (hin : dm.range.contains a = true) :
    findDest a l = dm.portId := by
  induction l with
  | nil => simp at hmem
  | cons c rest ih =>
    obtain ⟨hc, hrest⟩ := List.pairwise_cons.1 hdisj
    rcases List.mem_cons.1 hmem with rfl | hm
    · simp only [findDest, hin, if_true]
    · cases hcc : c.range.contains a with
      | true =>
        have := contains_overlaps c.range dm.range a hcc hin
        rw [hc dm hm] at this
        cases this
      | false =>
        simp only [findDest, hcc]
        exact ih hrest hm

theorem interfaceAt_id (bus : Bus) (hnum : bus.Numbered) (d : Int) (p : BusPort)
    (h : bus.interfaceAt d = .ok p) : p.id = d := by
  unfold Bus.interfaceAt at h
  by_cases hd : 0 ≤ d
  · rw [if_pos hd] at h
    cases hget : bus.interfaces[d.toNat]? with
    | none => rw [hget] at h; cases h
    | some q =>
      rw [hget] at h
      have hq : q = p := by cases h; rfl
      rw [← hq, hnum d.toNat q hget]
      exact Int.toNat_of_nonneg hd
  · rw [if_neg hd] at h
    cases h

theorem findPort_sound (bus : Bus) (a : Nat) (id : Int) (p : BusPort)
    (h : bus.findPort a id = .ok p) : ∃ d, d ≠ id ∧ bus.interfaceAt d = .ok p := by
  simp only [Bus.findPort] at h
  split at h
  · cases h
  · split at h
    · cases h
    · next h2 => exact ⟨_, h2, h⟩

theorem selectPort_sound (bus : Bus) (pkt : Packet) (p : BusPort)
    (h : bus.selectPort pkt = .ok p) : ∃ d, d ≠ pkt.src ∧ bus.interfaceAt d = .ok p := by
  simp only [Bus.selectPort] at h
  split at h
  · exact findPort_sound bus pkt.addr pkt.src p h
  · split at h
    · cases h
    · split at h
      · cases h
      · next h2 => exact ⟨_, h2, h⟩

theorem recvTiming_sentTo (peers : Peers) (bus : Bus) (pkt : Packet) (r : TimingResult)
    (h : bus.recvTiming peers pkt = .ok r) : bus.selectPort pkt = .ok r.sentTo := by
  unfold Bus.recvTiming at h
  cases hsel : bus.selectPort pkt with
  | error f => rw [hsel] at h; cases h
  | ok port =>
    rw [hsel] at h
    simp only at h
    split at h
    · cases h; rfl
    · split at h
      · cases h
      · cases h; rfl

theorem scenarioBus_numbered : scenarioBus.Numbered := by
  intro i p h
  match i, h with
  | 0, h => simp [scenarioBus] at h; rw [← h]; rfl
  | 1, h => simp [scenarioBus] at h; rw [← h]; rfl
  | 2, h => simp [scenarioBus] at h; rw [← h]; rfl
  | n + 3, h => simp [scenarioBus] at h

/-- The numbering of the ports is what `Bus::getPort` produces. -/
theorem getPort_numbered (bus : Bus) (hnum : bus.Numbered) : bus.getPort.1.Numbered := by
  intro i p h
  simp only [Bus.getPort] at h
  by_cases hi : i < bus.interfaces.length
  · rw [List.getElem?_append_left hi] at h
    exact hnum i p h
  · rw [List.getElem?_append_right (by omega)] at h
    by_cases h0 : i - bus.interfaces.length = 0
    · rw [h0] at h
      simp only [List.getElem?_cons_zero, Option.some.injEq] at h
      rw [← h]
      simp only
      omega
    · obtain ⟨m, hm⟩ := Nat.exists_eq_succ_of_ne_zero h0
      rw [hm] at h
      simp at h

/-! ## The bus claims -/

/-- C7: `findPort` routes by address range.  In a range table whose entries have
pairwise non-overlapping ranges, an address inside the range of an entry is
routed to the interface with that entry's `portId` (provided the identifier
differs from the source and names an attached interface), and an address inside
no entry's range makes `findPort` panic. -/
theorem findPort_routes (bus : Bus) (a : Nat) (id : Int)
    (hdisj : bus.portList.Pairwise (fun x y => x.range.overlaps y.range = false)) :
    (∀ dm ∈ bus.portList, dm.range.contains a = true → dm.portId ≠ id →
        ∀ port, bus.interfaceAt dm.portId = .ok port → bus.findPort a id = .ok port) ∧
      ((∀ dm ∈ bus.portList, dm.range.contains a = false) →
        bus.findPort a id = .error .panic) := by
  constructor
  · intro dm hmem hin hne port hport
    have hd := findDest_hit a bus.portList hdisj dm hmem hin
    have hne1 : dm.portId ≠ -1 := by
      intro hneg
      rw [hneg] at hport
      simp [Bus.interfaceAt] at hport
    simp only [Bus.findPort, hd, if_neg hne1, if_neg hne]
    exact hport
  · intro hnone
    simp only [Bus.findPort, findDest_miss a bus.portList hnone, if_true]

/-- C7, scenario: with [0x0,0xFFF] on port 1 and [0x1000,0x1FFF] on port 2,
address 0x1500 resolves to port 2 and address 0x2000 aborts. -/
theorem findPort_routes_witness :
    scenarioBus.findPort 0x1500 0 = .ok ⟨2⟩ ∧
      scenarioBus.findPort 0x2000 0 = .error .panic :=
  ⟨(findPort_routes scenarioBus 0x1500 0 (by decide)).1 ⟨2, ⟨0x1000, 0x1FFF⟩⟩
      (by decide) (by decide) (by decide) ⟨2⟩ rfl,
    (findPort_routes scenarioBus 0x2000 0 (by decide)).2 (by decide)⟩

/-- C8: self-loop guard.  Whenever `recvTiming`, `recvAtomic` or
`recvFunctional` forwards a packet to a port, that is, returns, the identifier
of that port differs from the packet's source identifier, for broadcast packets
resolved through `findPort` and for timing packets with an explicit
destination alike. -/
theorem no_self_loop (peers : Peers) (bus : Bus) (pkt : Packet) (hnum : bus.Numbered) :
    (∀ r, bus.recvTiming peers pkt = .ok r → r.sentTo.id ≠ pkt.src) ∧
      (∀ r, bus.recvAtomic peers pkt = .ok r → r.sentTo.id ≠ pkt.src) ∧
      (∀ r, bus.recvFunctional peers pkt = .ok r → r.sentTo.id ≠ pkt.src) := by
  refine ⟨?_, ?_, ?_⟩
  · intro r h
    obtain ⟨d, hd, hat⟩ := selectPort_sound bus pkt r.sentTo (recvTiming_sentTo peers bus pkt r h)
    rw [interfaceAt_id bus hnum d r.sentTo hat]
    exact hd
  · intro r h
    simp only [Bus.recvAtomic] at h
    split at h
    · cases h
    · split at h
      · cases h
      · next port hfind =>
        obtain ⟨d, hd, hat⟩ := findPort_sound bus pkt.addr pkt.src port hfind
        cases h
        simp only
        rw [interfaceAt_id bus hnum d port hat]
        exact hd
  · intro r h
    simp only [Bus.recvFunctional] at h
    split at h
    · cases h
    · split at h
      · cases h
      · next port hfind =>
        obtain ⟨d, hd, hat⟩ := findPort_sound bus pkt.addr pkt.src port hfind
        cases h
        simp only
        rw [interfaceAt_id bus hnum d port hat]
        exact hd

/-- C8, scenario: a broadcast packet from port 0 for 0x1500 and a packet from
port 0 with the explicit destination 1 are forwarded to ports 2 and 1; the same
packets coming from port 2, respectively port 1, abort on the assertion. -/
theorem no_self_loop_witness :
    (scenarioBus.recvTiming (quietPeers true 0) ⟨0x1500, 0, -1⟩).map TimingResult.sentTo
        = .ok ⟨2⟩ ∧
      (scenarioBus.recvTiming (quietPeers true 0) ⟨0x1500, 0, 1⟩).map TimingResult.sentTo
        = .ok ⟨1⟩ ∧
      scenarioBus.recvTiming (quietPeers true 0) ⟨0x1500, 2, -1⟩ = .error .assertion ∧
      scenarioBus.recvTiming (quietPeers true 0) ⟨0x1500, 1, 1⟩ = .error .assertion ∧
      ((∀ r, scenarioBus.recvTiming (quietPeers true 0) ⟨0x1500, 0, -1⟩ = .ok r →
          r.sentTo.id ≠ (0 : Int)) ∧
        (∀ r, scenarioBus.recvAtomic (quietPeers true 0) ⟨0x1500, 0, -1⟩ = .ok r →
          r.sentTo.id ≠ (0 : Int)) ∧
        (∀ r, scenarioBus.recvFunctional (quietPeers true 0) ⟨0x1500, 0, -1⟩ = .ok r →
          r.sentTo.id ≠ (0 : Int))) :=
  ⟨rfl, rfl, rfl, rfl,
    no_self_loop (quietPeers true 0) scenarioBus ⟨0x1500, 0, -1⟩ scenarioBus_numbered⟩

/-! ## Rejected sends and the retry pass -/

theorem interfaceAt_congr (b1 b2 : Bus) (h : b1.interfaces = b2.interfaces) (d : Int) :
    b1.interfaceAt d = b2.interfaceAt d := by
  simp only [Bus.interfaceAt, h]

/-- What a returning `recvTiming` did, in terms of the state the send left. -/
theorem recvTiming_cases (peers : Peers) (bus : Bus) (pkt : Packet) (port : BusPort)
    (hsel : bus.selectPort pkt = .ok port) (r : TimingResult)
    (h : bus.recvTiming peers pkt = .ok r) :
    r.sentTo = port ∧ r.accepted = (peers.sendTiming port pkt bus).1 ∧
      r.pkt = (peers.sendTiming port pkt bus).2.1 ∧
      (r.accepted = true → r.bus = (peers.sendTiming port pkt bus).2.2) ∧
      (r.accepted = false → ∃ origin,
        (peers.sendTiming port pkt bus).2.2.interfaceAt (peers.sendTiming port pkt bus).2.1.src
          = .ok origin ∧
        r.bus = { (peers.sendTiming port pkt bus).2.2 with
          retryList := (peers.sendTiming port pkt bus).2.2.retryList ++ [origin] }) := by
  simp only [Bus.recvTiming, hsel] at h
  split at h
  · next hacc =>
    cases h
    exact ⟨rfl, hacc.symm, rfl, fun _ => rfl, fun hc => Bool.noConfusion hc⟩
  · next hrej =>
    have hrej2 : (peers.sendTiming port pkt bus).1 = false := by simpa using hrej
    split at h
    · cases h
    · next origin horigin =>
      cases h
      exact ⟨rfl, hrej2.symm, rfl, fun hc => Bool.noConfusion hc,
        fun _ => ⟨origin, horigin, rfl⟩⟩

theorem recvTiming_quiet (peers : Peers) (hq : peers.Quiet) (bus : Bus) (pkt : Packet)
    (r : TimingResult) (h : bus.recvTiming peers pkt = .ok r) :
    r.bus.interfaces = bus.interfaces ∧
      ((r.accepted = true ∧ r.bus.retryList = bus.retryList) ∨
        (r.accepted = false ∧ ∃ origin, bus.interfaceAt pkt.src = .ok origin ∧
          r.bus.retryList = bus.retryList ++ [origin])) := by
  have hsel := recvTiming_sentTo peers bus pkt r h
  obtain ⟨_, _, _, hacc, hrej⟩ := recvTiming_cases peers bus pkt r.sentTo hsel r h
  have hsent := hq.1 r.sentTo pkt bus
  have h1 : (peers.sendTiming r.sentTo pkt bus).2.1 = pkt := by rw [hsent]
  have h2 : (peers.sendTiming r.sentTo pkt bus).2.2 = bus := by rw [hsent]
  rw [h1, h2] at hrej
  rw [h2] at hacc
  cases hr : r.accepted with
  | true =>
    have hb := hacc hr
    exact ⟨by rw [hb], Or.inl ⟨rfl, by rw [hb]⟩⟩
  | false =>
    obtain ⟨origin, horigin, hb⟩ := hrej hr
    exact ⟨by rw [hb], Or.inr ⟨rfl, origin, horigin, by rw [hb]⟩⟩

theorem recvRetryLoop_quiet (peers : Peers) (hq : peers.Quiet) (n : Nat) (bus : Bus)
    (hn : n ≤ bus.retryList.length) :
    recvRetryLoop peers n bus =
      .ok ({ bus with retryList := bus.retryList.drop n }, bus.retryList.take n) := by
  induction n generalizing bus with
  | zero => simp [recvRetryLoop]
  | succ m ih =>
    cases hl : bus.retryList with
    | nil => rw [hl] at hn; simp at hn
    | cons p rest =>
      rw [hl] at hn
      have hm : m ≤ rest.length := by simpa using hn
      simp only [recvRetryLoop, hl, hq.2]
      rw [ih { bus with retryList := rest } hm]
      simp

/-- C9: `recvTiming` returns exactly the boolean returned by the selected port's
`sendTiming`.  When the send is rejected, the interface indexed by the packet's
source identifier (not the destination port) is appended at the back of the
retry list; when it is accepted the retry list is left as it is.  (The lists are
those of the bus as the send leaves it; for a send that does not touch bus and
packet they are those at the call.) -/
theorem recvTiming_retry (peers : Peers) (bus : Bus) (pkt : Packet) (port : BusPort)
    (hsel : bus.selectPort pkt = .ok port) :
    (∀ r, bus.recvTiming peers pkt = .ok r →
      r.sentTo = port ∧ r.accepted = (peers.sendTiming port pkt bus).1 ∧
      (r.accepted = true →
        r.bus.retryList = (peers.sendTiming port pkt bus).2.2.retryList) ∧
      (r.accepted = false → ∃ origin,
        (peers.sendTiming port pkt bus).2.2.interfaceAt
          (peers.sendTiming port pkt bus).2.1.src = .ok origin ∧
        r.bus.retryList = (peers.sendTiming port pkt bus).2.2.retryList ++ [origin])) ∧
    ((peers.sendTiming port pkt bus).1 = true →
      ∃ r, bus.recvTiming peers pkt = .ok r ∧ r.accepted = true) ∧
    ((peers.sendTiming port pkt bus).1 = false → ∀ origin,
      (peers.sendTiming port pkt bus).2.2.interfaceAt
        (peers.sendTiming port pkt bus).2.1.src = .ok origin →
      ∃ r, bus.recvTiming peers pkt = .ok r ∧ r.accepted = false) ∧
    ((peers.sendTiming port pkt bus).2 = (pkt, bus) →
      ∀ r, bus.recvTiming peers pkt = .ok r →
        (r.accepted = true → r.bus.retryList = bus.retryList) ∧
        (r.accepted = false → ∃ origin, bus.interfaceAt pkt.src = .ok origin ∧
          r.bus.retryList = bus.retryList ++ [origin] ∧
          (bus.Numbered → origin ≠ port))) := by
  refine ⟨?_, ?_, ?_, ?_⟩
  · intro r h
    obtain ⟨h1, h2, _, h4, h5⟩ := recvTiming_cases peers bus pkt port hsel r h
    refine ⟨h1, h2, fun ha => by rw [h4 ha], fun hr => ?_⟩
    obtain ⟨origin, ho, hb⟩ := h5 hr
    exact ⟨origin, ho, by rw [hb]⟩
  · intro hacc
    simp only [Bus.recvTiming, hsel, hacc, if_true]
    exact ⟨_, rfl, rfl⟩
  · intro hrej origin ho
    simp only [Bus.recvTiming, hsel, hrej, ho, Bool.false_eq_true, if_false]
    exact ⟨_, rfl, rfl⟩
  · intro hquiet r h
    obtain ⟨_, _, _, h4, h5⟩ := recvTiming_cases peers bus pkt port hsel r h
    have e1 : (peers.sendTiming port pkt bus).2.1 = pkt := by rw [hquiet]
    have e2 : (peers.sendTiming port pkt bus).2.2 = bus := by rw [hquiet]
    rw [e1, e2] at h5
    rw [e2] at h4
    refine ⟨fun ha => by rw [h4 ha], fun hr => ?_⟩
    obtain ⟨origin, ho, hb⟩ := h5 hr
    refine ⟨origin, ho, by rw [hb], fun hnum heq => ?_⟩
    obtain ⟨d, hd, hat⟩ := selectPort_sound bus pkt port hsel
    have hid1 := interfaceAt_id bus hnum pkt.src origin ho
    have hid2 := interfaceAt_id bus hnum d port hat
    rw [heq, hid2] at hid1
    exact hd hid1

/-- C9, scenario: a broadcast packet from port 0 for 0x1500 goes to port 2; when
port 2 rejects it the call returns false and port 0 is appended to the retry
list, when port 2 accepts it the call returns true and the list stays empty. -/
theorem recvTiming_retry_witness :
    scenarioBus.recvTiming (quietPeers false 0) ⟨0x1500, 0, -1⟩ =
        .ok { accepted := false, sentTo := ⟨2⟩, pkt := ⟨0x1500, 0, -1⟩,
              bus := { scenarioBus with retryList := [⟨0⟩] } } ∧
      scenarioBus.recvTiming (quietPeers true 0) ⟨0x1500, 0, -1⟩ =
        .ok { accepted := true, sentTo := ⟨2⟩, pkt := ⟨0x1500, 0, -1⟩,
              bus := scenarioBus } ∧
      (∃ r, scenarioBus.recvTiming (quietPeers false 0) ⟨0x1500, 0, -1⟩ = .ok r ∧
        r.accepted = false) :=
  ⟨rfl, rfl,
    (recvTiming_retry (quietPeers false 0) scenarioBus ⟨0x1500, 0, -1⟩ ⟨2⟩ (by rfl)).2.2.1
      (by rfl) ⟨0⟩ (by rfl)⟩

end Mem

namespace Mem

/-! ## Explicit destinations and range changes -/

/-- C11: explicit-destination routing in `recvTiming`.  A timing packet whose
destination `d` is not the broadcast value is sent to `interfaces[d]`, whatever
the range table holds (also an empty one), if and only if `0 <= d`, `d` is less
than the number of interfaces and `d` differs from the packet's source;
otherwise the call aborts on an assertion. -/
theorem explicit_destination (peers : Peers) (bus : Bus) (pkt : Packet)
    (hd : pkt.dest ≠ Packet.Broadcast) :
    ((0 ≤ pkt.dest ∧ pkt.dest < (bus.interfaces.length : Int) ∧ pkt.dest ≠ pkt.src) →
      ∃ port, bus.interfaces[pkt.dest.toNat]? = some port ∧
        ∀ table, ({ bus with portList := table } : Bus).selectPort pkt = .ok port) ∧
    (¬ (0 ≤ pkt.dest ∧ pkt.dest < (bus.interfaces.length : Int) ∧ pkt.dest ≠ pkt.src) →
      ∀ table, ({ bus with portList := table } : Bus).recvTiming peers pkt
        = .error .assertion) ∧
    (∀ table r, ({ bus with portList := table } : Bus).recvTiming peers pkt = .ok r →
      (0 ≤ pkt.dest ∧ pkt.dest < (bus.interfaces.length : Int) ∧ pkt.dest ≠ pkt.src) ∧
      bus.interfaces[pkt.dest.toNat]? = some r.sentTo) := by
  have hsel : ∀ table,
      (0 ≤ pkt.dest ∧ pkt.dest < (bus.interfaces.length : Int) ∧ pkt.dest ≠ pkt.src) →
      ∃ port, bus.interfaces[pkt.dest.toNat]? = some port ∧
        ({ bus with portList := table } : Bus).selectPort pkt = .ok port := by
    intro table ⟨h0, h1, h2⟩
    have hlt : pkt.dest.toNat < bus.interfaces.length := by omega
    refine ⟨bus.interfaces[pkt.dest.toNat], List.getElem?_eq_getElem hlt, ?_⟩
    simp only [Bus.selectPort, if_neg hd, h0, h1, and_self, not_true_eq_false, if_false,
      if_neg h2, Bus.interfaceAt, if_true, List.getElem?_eq_getElem hlt]
  have hfail : ∀ table,
      ¬ (0 ≤ pkt.dest ∧ pkt.dest < (bus.interfaces.length : Int) ∧ pkt.dest ≠ pkt.src) →
      ({ bus with portList := table } : Bus).selectPort pkt = .error .assertion := by
    intro table hc
    simp only [Bus.selectPort, if_neg hd]
    by_cases hr : 0 ≤ pkt.dest ∧ pkt.dest < (bus.interfaces.length : Int)
    · have h2 : pkt.dest = pkt.src := by
        by_contra hne
        exact hc ⟨hr.1, hr.2, hne⟩
      rw [if_neg (not_not.2 hr), if_pos h2]
    · rw [if_pos hr]
  refine ⟨?_, ?_, ?_⟩
  · intro hc
    obtain ⟨port, hp, _⟩ := hsel bus.portList hc
    refine ⟨port, hp, fun table => ?_⟩
    obtain ⟨port2, hp2, hs2⟩ := hsel table hc
    rw [hp] at hp2
    cases hp2
    exact hs2
  · intro hc table
    simp only [Bus.recvTiming, hfail table hc]
  · intro table r hr
    have hs := recvTiming_sentTo peers _ pkt r hr
    by_cases hc : 0 ≤ pkt.dest ∧ pkt.dest < (bus.interfaces.length : Int) ∧ pkt.dest ≠ pkt.src
    · obtain ⟨port, hp, hs2⟩ := hsel table hc
      rw [hs2] at hs
      cases hs
      exact ⟨hc, hp⟩
    · rw [hfail table hc] at hs
      cases hs

/-- C11, scenario: a packet from port 0 with destination 1 goes to port 1 on the
scenario bus and on the same bus without any range entry; with destination 3
(no such interface), 0 (its source) or -2 the call aborts on an assertion. -/
theorem explicit_destination_witness :
    (scenarioBus.recvTiming (quietPeers true 0) ⟨0x2000, 0, 1⟩).map TimingResult.sentTo
        = .ok ⟨1⟩ ∧
      (∃ port, scenarioBus.interfaces[(1 : Int).toNat]? = some port ∧
        ∀ table, ({ scenarioBus with portList := table } : Bus).selectPort ⟨0x2000, 0, 1⟩
          = .ok port) ∧
      (∀ table, ({ scenarioBus with portList := table } : Bus).recvTiming
        (quietPeers true 0) ⟨0x2000, 0, 3⟩ = .error .assertion) ∧
      (∀ table, ({ scenarioBus with portList := table } : Bus).recvTiming
        (quietPeers true 0) ⟨0x2000, 0, 0⟩ = .error .assertion) ∧
      (∀ table, ({ scenarioBus with portList := table } : Bus).recvTiming
        (quietPeers true 0) ⟨0x2000, 0, -2⟩ = .error .assertion) :=
  ⟨by rfl,
    (explicit_destination (quietPeers true 0) scenarioBus ⟨0x2000, 0, 1⟩ (by decide)).1
      (by decide),
    (explicit_destination (quietPeers true 0) scenarioBus ⟨0x2000, 0, 3⟩ (by decide)).2.1
      (by decide),
    (explicit_destination (quietPeers true 0) scenarioBus ⟨0x2000, 0, 0⟩ (by decide)).2.1
      (by decide),
    (explicit_destination (quietPeers true 0) scenarioBus ⟨0x2000, 0, -2⟩ (by decide)).2.1
      (by decide)⟩

/-- The interfaces with an index other than `id`, in order, counted from the
index `x`. -/
theorem notifyLoop_spec (rp : RangePeers) (id : Int)
    (hpres : ∀ p b, (rp.sendStatusChange p b).interfaces = b.interfaces)
    (l : List BusPort) (x fuel : Nat) (bus : Bus) (hl : bus.interfaces.drop x = l)
    (hfuel : l.length < fuel) :
    ∃ final, notifyLoop rp id fuel x bus =
        some (final, ((l.enumFrom x).filter (fun ip => decide ((ip.1 : Int) ≠ id))).map
          Prod.snd) ∧
      final.interfaces = bus.interfaces := by
  induction l generalizing x fuel bus with
  | nil =>
    obtain ⟨n, rfl⟩ := Nat.exists_eq_succ_of_ne_zero (Nat.ne_of_gt hfuel)
    have hx : bus.interfaces[x]? = none := by
      have h0 := congrArg (fun t => t[0]?) hl
      simpa [List.getElem?_drop] using h0
    exact ⟨bus, by simp [notifyLoop, hx], rfl⟩
  | cons p rest ih =>
    obtain ⟨n, rfl⟩ := Nat.exists_eq_succ_of_ne_zero
      (Nat.ne_of_gt (Nat.lt_of_le_of_lt (Nat.zero_le _) hfuel))
    have hx : bus.interfaces[x]? = some p := by
      have h0 := congrArg (fun t => t[0]?) hl
      simpa [List.getElem?_drop] using h0
    have hrest : bus.interfaces.drop (x + 1) = rest := by
      have h1 := congrArg (fun t => t.drop 1) hl
      simpa [List.drop_drop, Nat.add_comm] using h1
    have hn : rest.length < n := by
      simp only [List.length_cons] at hfuel
      omega
    by_cases hne : (x : Int) ≠ id
    · have hrest2 : (rp.sendStatusChange p bus).interfaces.drop (x + 1) = rest := by
        rw [hpres]; exact hrest
      obtain ⟨final, hloop, hif⟩ := ih (x + 1) n (rp.sendStatusChange p bus) hrest2 hn
      refine ⟨final, ?_, by rw [hif, hpres]⟩
      simp only [notifyLoop, hx, if_pos hne, hloop, List.enumFrom_cons]
      rw [List.filter_cons_of_pos (by simpa using hne)]
      rfl
    · obtain ⟨final, hloop, hif⟩ := ih (x + 1) n bus hrest hn
      refine ⟨final, ?_, hif⟩
      simp only [notifyLoop, hx, if_neg hne, hloop, List.enumFrom_cons]
      rw [List.filter_cons_of_neg (by simpa using hne)]

theorem notifyLoop_quiet (rp : RangePeers) (id : Int) (hq : rp.Quiet) (fuel x : Nat)
    (bus final : Bus) (called : List BusPort)
    (h : notifyLoop rp id fuel x bus = some (final, called)) : final = bus := by
  induction fuel generalizing x bus called with
  | zero => simp [notifyLoop] at h
  | succ n ih =>
    simp only [notifyLoop] at h
    split at h
    · cases h; rfl
    · split at h
      · rw [hq] at h
        split at h
        · cases h
        · next f c hloop =>
          cases h
          exact ih _ _ _ hloop
      · exact ih _ _ _ h

theorem mem_purge (id : Int) (table : List DevMap) (dm : DevMap) :
    dm ∈ purge id table ↔ dm ∈ table ∧ dm.portId ≠ id := by
  induction table with
  | nil => simp [purge]
  | cons c rest ih =>
    by_cases hc : c.portId = id
    · simp only [purge, if_pos hc, ih, List.mem_cons]
      constructor
      · rintro ⟨h1, h2⟩; exact ⟨Or.inr h1, h2⟩
      · rintro ⟨h1 | h1, h2⟩
        · rw [h1] at h2; exact absurd hc h2
        · exact ⟨h1, h2⟩
    · simp only [purge, if_neg hc, List.mem_cons, ih]
      constructor
      · rintro (h1 | ⟨h1, h2⟩)
        · exact ⟨Or.inl h1, by rw [h1]; exact hc⟩
        · exact ⟨Or.inr h1, h2⟩
      · rintro ⟨h1 | h1, h2⟩
        · exact Or.inl h1
        · exact Or.inr ⟨h1, h2⟩

theorem purge_eq_filter (id : Int) (table : List DevMap) :
    purge id table = table.filter (fun dm => decide (dm.portId ≠ id)) := by
  induction table with
  | nil => rfl
  | cons c rest ih =>
    by_cases hc : c.portId = id
    · simp only [purge, if_pos hc, ih]
      rw [List.filter_cons_of_neg (by simpa using hc)]
    · simp only [purge, if_neg hc, ih]
      rw [List.filter_cons_of_pos (by simpa using hc)]

/-- The two halves of a rebuilt table: the entries of `id` are the reported
ranges, the entries of the other ports are the old ones. -/
theorem rebuildTable_parts (id : Int) (ranges : List Range) (table : List DevMap) :
    ((rebuildTable id ranges table).filter (fun dm => decide (dm.portId = id))).map
        DevMap.range = ranges ∧
      (rebuildTable id ranges table).filter (fun dm => decide (dm.portId ≠ id)) =
        table.filter (fun dm => decide (dm.portId ≠ id)) := by
  have hnew1 : (ranges.map (fun r => ({ portId := id, range := r } : DevMap))).filter
      (fun dm => decide (dm.portId = id)) =
      ranges.map (fun r => ({ portId := id, range := r } : DevMap)) :=
    List.filter_eq_self.2 (fun dm hdm => by
      obtain ⟨r, _, rfl⟩ := List.mem_map.1 hdm
      simp)
  have hnew2 : (ranges.map (fun r => ({ portId := id, range := r } : DevMap))).filter
      (fun dm => decide (dm.portId ≠ id)) = [] :=
    List.filter_eq_nil_iff.2 (fun dm hdm => by
      obtain ⟨r, _, rfl⟩ := List.mem_map.1 hdm
      simp)
  have hold1 : (purge id table).filter (fun dm => decide (dm.portId = id)) = [] :=
    List.filter_eq_nil_iff.2 (fun dm hdm => by
      have := ((mem_purge id table dm).1 hdm).2
      simpa using this)
  have hold2 : (purge id table).filter (fun dm => decide (dm.portId ≠ id)) =
      table.filter (fun dm => decide (dm.portId ≠ id)) := by
    rw [purge_eq_filter, List.filter_filter]
    simp
  constructor
  · rw [rebuildTable, List.filter_append, hnew1, hold1, List.nil_append, List.map_map]
    simp [Function.comp_def]
  · rw [rebuildTable, List.filter_append, hnew2, hold2, List.append_nil]

/-- What a returning `recvStatusChange` went through. -/
theorem recvStatusChange_ok (rp : RangePeers) (fuel : Nat) (bus : Bus) (id : Int)
    (final : Bus) (notified : List BusPort)
    (h : bus.recvStatusChange rp fuel Status.RangeChange id = some (.ok (final, notified))) :
    ∃ port, bus.interfaceAt id = .ok port ∧
      (0 ≤ id ∧ id < (bus.interfaces.length : Int)) ∧
      (rp.getPeerAddressRanges port { bus with portList := purge id bus.portList }).2 = [] ∧
      notifyLoop rp id fuel 0
        { bus with portList := (rebuildTable id
            (rp.getPeerAddressRanges port { bus with portList := purge id bus.portList }).1
            bus.portList) } = some (final, notified) := by
  simp only [Bus.recvStatusChange, ne_eq, not_true_eq_false, if_false] at h
  split at h
  · cases h
  · next hid =>
    have hid2 : id < (bus.interfaces.length : Int) ∧ 0 ≤ id := not_not.1 hid
    split at h
    · cases h
    · next port hport =>
      split at h
      · cases h
      · next hsn =>
        split at h
        · cases h
        · next out hloop =>
          have hout : out = (final, notified) := by
            simp only [Option.some.injEq, Except.ok.injEq] at h
            exact h
          rw [hout] at hloop
          exact ⟨port, hport, ⟨hid2.2, hid2.1⟩, List.length_eq_zero.1 (not_not.1 hsn),
            hloop⟩

/-- When `recvStatusChange` returns. -/
theorem recvStatusChange_returns (rp : RangePeers) (fuel : Nat) (bus : Bus) (id : Int)
    (port : BusPort) (hport : bus.interfaceAt id = .ok port)
    (hid : 0 ≤ id ∧ id < (bus.interfaces.length : Int))
    (hsn : (rp.getPeerAddressRanges port { bus with portList := purge id bus.portList }).2
      = [])
    (out : Bus × List BusPort)
    (hloop : notifyLoop rp id fuel 0
        { bus with portList := (rebuildTable id
            (rp.getPeerAddressRanges port { bus with portList := purge id bus.portList }).1
            bus.portList) } = some out) :
    bus.recvStatusChange rp fuel Status.RangeChange id = some (.ok out) := by
  have hid2 : id < (bus.interfaces.length : Int) ∧ 0 ≤ id := ⟨hid.2, hid.1⟩
  simp only [Bus.recvStatusChange, ne_eq, not_true_eq_false, if_false, hid2, and_self,
    hport, hsn, List.length_nil, hloop]

theorem interfaceAt_range (bus : Bus) (id : Int) (port : BusPort)
    (h : bus.interfaceAt id = .ok port) : 0 ≤ id ∧ id < (bus.interfaces.length : Int) := by
  unfold Bus.interfaceAt at h
  by_cases hd : 0 ≤ id
  · rw [if_pos hd] at h
    cases hget : bus.interfaces[id.toNat]? with
    | none => rw [hget] at h; cases h
    | some q =>
      obtain ⟨hlt, _⟩ := List.getElem?_eq_some_iff.1 hget
      exact ⟨hd, by omega⟩
  · rw [if_neg hd] at h
    cases h

/-- A returning notification loop called exactly the ports from index `x` on
whose index differs from `id`, provided the notified peers attach and detach no
port. -/
theorem notifyLoop_sound (rp : RangePeers) (id : Int)
    (hpres : ∀ p b, (rp.sendStatusChange p b).interfaces = b.interfaces)
    (fuel x : Nat) (bus final : Bus) (called : List BusPort)
    (h : notifyLoop rp id fuel x bus = some (final, called)) :
    called = others id x (bus.interfaces.drop x) ∧ final.interfaces = bus.interfaces := by
  induction fuel generalizing x bus called with
  | zero => simp [notifyLoop] at h
  | succ n ih =>
    simp only [notifyLoop] at h
    split at h
    · next hx =>
      simp only [Option.some.injEq, Prod.mk.injEq] at h
      have hnil : bus.interfaces.drop x = [] :=
        List.drop_eq_nil_of_le (List.getElem?_eq_none_iff.1 hx)
      rw [hnil, ← h.1, ← h.2]
      exact ⟨rfl, rfl⟩
    · next port hx =>
      obtain ⟨hlt, hget⟩ := List.getElem?_eq_some_iff.1 hx
      have hdrop : bus.interfaces.drop x = port :: bus.interfaces.drop (x + 1) := by
        rw [List.drop_eq_getElem_cons hlt, hget]
      split at h
      · next hne =>
        split at h
        · cases h
        · next f c hloop =>
          simp only [Option.some.injEq, Prod.mk.injEq] at h
          obtain ⟨hfinal, hcalled⟩ := h
          rw [hfinal] at hloop
          obtain ⟨hc, hf⟩ := ih (x + 1) _ c hloop
          rw [hpres] at hc hf
          rw [hdrop, ← hcalled, hc]
          refine ⟨?_, hf⟩
          simp only [others, List.enumFrom_cons]
          rw [List.filter_cons_of_pos (by simpa using hne)]
          rfl
      · next hne =>
        obtain ⟨hc, hf⟩ := ih (x + 1) _ called h
        rw [hdrop, hc]
        refine ⟨?_, hf⟩
        simp only [others, List.enumFrom_cons]
        rw [List.filter_cons_of_neg (by simpa using hne)]

theorem mem_others (id : Int) (x : Nat) (l : List BusPort) (p : BusPort)
    (h : p ∈ others id x l) : p ∈ l := by
  simp only [others, List.mem_map, List.mem_filter] at h
  obtain ⟨ip, ⟨hmem, _⟩, rfl⟩ := h
  exact List.snd_mem_of_mem_enumFrom hmem

/-- With ports that carry their index, every port is among `others` once, except
the port `id`, which is not among them. -/
theorem count_others (id : Int) (x : Nat) (l : List BusPort)
    (hnum : ∀ (i : Nat) (p : BusPort), l[i]? = some p → p.id = ((x + i : Nat) : Int))
    (p : BusPort) (hp : p ∈ l) :
    (others id x l).count p = if p.id = id then 0 else 1 := by
  induction l generalizing x with
  | nil => simp at hp
  | cons q rest ih =>
    have hq : q.id = ((x : Nat) : Int) := by
      have := hnum 0 q (by simp)
      simpa using this
    have hrest : ∀ (i : Nat) (r : BusPort), rest[i]? = some r →
        r.id = ((x + 1 + i : Nat) : Int) := by
      intro i r hr
      have := hnum (i + 1) r (by simpa using hr)
      rw [this]
      congr 1
      omega
    by_cases hpq : p = q
    · subst hpq
      have hnot : p ∉ others id (x + 1) rest := by
        intro hmem
        obtain ⟨i, hi, hget⟩ := List.getElem_of_mem (mem_others id (x + 1) rest p hmem)
        have := hrest i p (by rw [List.getElem?_eq_getElem hi, hget])
        rw [hq] at this
        omega
      have hzero : (others id (x + 1) rest).count p = 0 := List.count_eq_zero_of_not_mem hnot
      by_cases hx : (x : Int) = id
      · have hfil : others id x (p :: rest) = others id (x + 1) rest := by
          simp only [others, List.enumFrom_cons]
          rw [List.filter_cons_of_neg (by simpa using hx)]
        rw [hfil, hzero, if_pos (by rw [hq]; exact hx)]
      · have hfil : others id x (p :: rest) = p :: others id (x + 1) rest := by
          simp only [others, List.enumFrom_cons]
          rw [List.filter_cons_of_pos (by simpa using hx)]
          rfl
        rw [hfil, List.count_cons_self, hzero, if_neg (by rw [hq]; exact hx)]
    · have hmem : p ∈ rest := by
        rcases List.mem_cons.1 hp with h | h
        · exact absurd h hpq
        · exact h
      have hrec := ih (x + 1) hrest hmem
      by_cases hx : (x : Int) = id
      · have hfil : others id x (q :: rest) = others id (x + 1) rest := by
          simp only [others, List.enumFrom_cons]
          rw [List.filter_cons_of_neg (by simpa using hx)]
        rw [hfil, hrec]
      · have hfil : others id x (q :: rest) = q :: others id (x + 1) rest := by
          simp only [others, List.enumFrom_cons]
          rw [List.filter_cons_of_pos (by simpa using hx)]
          rfl
        rw [hfil, List.count_cons_of_ne hpq, hrec]

theorem overlaps_comm (r s : Range) : r.overlaps s = s.overlaps r := by
  simp only [Range.overlaps, Nat.max_comm r.start s.start, Nat.min_comm r.stop s.stop]

/-- C12: range-table rebuild in `recvStatusChange(RangeChange, id)`.  When the
call returns, the table it rebuilt before telling the peers holds, for `id`,
exactly the ranges that the port's peer reported (one entry per range, in the
reported order, no old entry of `id`), and for every other port the old entries
in their old order; this is the table after the call when the notified peers
leave the bus alone.  The call returns for every valid `id` whose peer reports
no snoop ranges. -/
theorem recvStatusChange_rebuild (rp : RangePeers) (fuel : Nat) (bus : Bus) (id : Int) :
    (∀ final notified,
      bus.recvStatusChange rp fuel Status.RangeChange id = some (.ok (final, notified)) →
      ∃ port ranges, bus.interfaceAt id = .ok port ∧
        ranges =
          (rp.getPeerAddressRanges port { bus with portList := purge id bus.portList }).1 ∧
        ((rebuildTable id ranges bus.portList).filter
          (fun dm => decide (dm.portId = id))).map DevMap.range = ranges ∧
        (rebuildTable id ranges bus.portList).filter (fun dm => decide (dm.portId ≠ id)) =
          bus.portList.filter (fun dm => decide (dm.portId ≠ id)) ∧
        notifyLoop rp id fuel 0 { bus with portList := rebuildTable id ranges bus.portList }
          = some (final, notified) ∧
        (rp.Quiet →
          (final.portList.filter (fun dm => decide (dm.portId = id))).map DevMap.range
            = ranges ∧
          final.portList.filter (fun dm => decide (dm.portId ≠ id)) =
            bus.portList.filter (fun dm => decide (dm.portId ≠ id)))) ∧
    (∀ port, bus.interfaceAt id = .ok port →
      (rp.getPeerAddressRanges port { bus with portList := purge id bus.portList }).2 = [] →
      rp.Quiet → bus.interfaces.length < fuel →
      ∃ final notified,
        bus.recvStatusChange rp fuel Status.RangeChange id = some (.ok (final, notified))) := by
  constructor
  · intro final notified h
    obtain ⟨port, hport, _, _, hloop⟩ := recvStatusChange_ok rp fuel bus id final notified h
    obtain ⟨h1, h2⟩ := rebuildTable_parts id
      (rp.getPeerAddressRanges port { bus with portList := purge id bus.portList }).1
      bus.portList
    refine ⟨port, _, hport, rfl, h1, h2, hloop, fun hq => ?_⟩
    have hfinal := notifyLoop_quiet rp id hq fuel 0 _ final notified hloop
    rw [hfinal]
    exact ⟨h1, h2⟩
  · intro port hport hsn hq hfuel
    have hpres : ∀ p b, (rp.sendStatusChange p b).interfaces = b.interfaces :=
      fun p b => by rw [hq p b]
    obtain ⟨final, hloop, _⟩ := notifyLoop_spec rp id hpres bus.interfaces 0 fuel
      { bus with portList := (rebuildTable id
          (rp.getPeerAddressRanges port { bus with portList := purge id bus.portList }).1
          bus.portList) } rfl hfuel
    exact ⟨final, _, recvStatusChange_returns rp fuel bus id port hport
      (interfaceAt_range bus id port hport) hsn _ hloop⟩

/-- C12, scenario: port 2 of the scenario bus announces the ranges
[0x2000,0x2FFF] and [0x4000,0x4FFF]; its old entry is gone, its two new entries
follow the untouched entry of port 1. -/
theorem recvStatusChange_rebuild_witness :
    scenarioBus.recvStatusChange (quietRangePeers [⟨0x2000, 0x2FFF⟩, ⟨0x4000, 0x4FFF⟩]) 4
        Status.RangeChange 2 =
      some (.ok ({ scenarioBus with
          portList := [⟨1, ⟨0x0, 0xFFF⟩⟩, ⟨2, ⟨0x2000, 0x2FFF⟩⟩, ⟨2, ⟨0x4000, 0x4FFF⟩⟩] },
        [⟨0⟩, ⟨1⟩])) ∧
    (∃ final notified,
      scenarioBus.recvStatusChange (quietRangePeers [⟨0x2000, 0x2FFF⟩, ⟨0x4000, 0x4FFF⟩]) 4
        Status.RangeChange 2 = some (.ok (final, notified))) :=
  ⟨by rfl,
    (recvStatusChange_rebuild (quietRangePeers [⟨0x2000, 0x2FFF⟩, ⟨0x4000, 0x4FFF⟩]) 4
      scenarioBus 2).2 ⟨2⟩ (by rfl) (by rfl) (fun _ _ => rfl) (by decide)⟩

/-- The bus that a returning notification loop leaves is the one that the
`sendStatusChange` calls on the ports it lists, made one after the other, leave. -/
theorem notifyLoop_fold (rp : RangePeers) (id : Int) (fuel x : Nat) (bus final : Bus)
    (called : List BusPort) (h : notifyLoop rp id fuel x bus = some (final, called)) :
    final = called.foldl (fun b p => rp.sendStatusChange p b) bus := by
  induction fuel generalizing x bus called with
  | zero => simp [notifyLoop] at h
  | succ n ih =>
    simp only [notifyLoop] at h
    split at h
    · simp only [Option.some.injEq, Prod.mk.injEq] at h
      rw [← h.1, ← h.2]
      rfl
    · split at h
      · split at h
        · cases h
        · next f c hloop =>
          simp only [Option.some.injEq, Prod.mk.injEq] at h
          obtain ⟨hfinal, hcalled⟩ := h
          rw [hfinal] at hloop
          rw [← hcalled, List.foldl_cons]
          exact ih _ _ c hloop
      · exact ih _ _ called h

/-- A peer that answers a notification with a timing send attaches and detaches
no port. -/
theorem sendingRangePeers_interfaces (ranges : List Range) (addr : Nat) (p : BusPort)
    (b : Bus) : ((sendingRangePeers ranges addr).sendStatusChange p b).interfaces
      = b.interfaces := by
  show (match b.recvTiming (quietPeers false 0) { addr := addr, src := p.id, dest := -1 } with
      | .ok r => r.bus
      | .error _ => b).interfaces = b.interfaces
  cases h : b.recvTiming (quietPeers false 0) { addr := addr, src := p.id, dest := -1 } with
  | error f => rfl
  | ok r =>
    exact (recvTiming_quiet (quietPeers false 0) ⟨fun _ _ _ => rfl, fun _ _ => rfl⟩ b _ r h).1

/-- C13: range-change propagation in `recvStatusChange(RangeChange, id)`.  A
returning call has sent the notification to the interfaces with an index other
than `id`, in index order, and to nothing else: with ports that carry their
index, every attached interface other than `id` is notified exactly once and
interface `id` not at all.  The bus it returns is the one that these
`sendStatusChange` calls, made one after the other on the bus with the rebuilt
table, leave.  The call returns for every valid `id` whose peer reports no snoop
ranges.  (The notified peers attach and detach no port.) -/
theorem recvStatusChange_notifies (rp : RangePeers) (fuel : Nat) (bus : Bus) (id : Int)
    (hpres : ∀ p b, (rp.sendStatusChange p b).interfaces = b.interfaces) :
    (∀ final notified,
      bus.recvStatusChange rp fuel Status.RangeChange id = some (.ok (final, notified)) →
      notified = others id 0 bus.interfaces ∧
      (bus.Numbered → ∀ p ∈ bus.interfaces,
        notified.count p = if p.id = id then 0 else 1) ∧
      (∀ p ∈ notified, p ∈ bus.interfaces) ∧
      ∃ port, bus.interfaceAt id = .ok port ∧
        final = notified.foldl (fun b p => rp.sendStatusChange p b)
          { bus with portList := (rebuildTable id
              (rp.getPeerAddressRanges port { bus with portList := purge id bus.portList }).1
              bus.portList) }) ∧
    (∀ port, bus.interfaceAt id = .ok port →
      (rp.getPeerAddressRanges port { bus with portList := purge id bus.portList }).2 = [] →
      bus.interfaces.length < fuel →
      bus.recvStatusChange rp fuel Status.RangeChange id =
        some (.ok ((others id 0 bus.interfaces).foldl (fun b p => rp.sendStatusChange p b)
          { bus with portList := (rebuildTable id
              (rp.getPeerAddressRanges port { bus with portList := purge id bus.portList }).1
              bus.portList) },
          others id 0 bus.interfaces))) := by
  constructor
  · intro final notified h
    obtain ⟨port, hport, _, _, hloop⟩ := recvStatusChange_ok rp fuel bus id final notified h
    obtain ⟨hcalled, _⟩ := notifyLoop_sound rp id hpres fuel 0 _ final notified hloop
    simp only [List.drop_zero] at hcalled
    refine ⟨hcalled, fun hnum p hp => ?_, fun p hp => ?_,
      port, hport, notifyLoop_fold rp id fuel 0 _ final notified hloop⟩
    · rw [hcalled]
      exact count_others id 0 bus.interfaces
        (fun i q hq => by rw [hnum i q hq, Nat.zero_add]) p hp
    · rw [hcalled] at hp
      exact mem_others id 0 bus.interfaces p hp
  · intro port hport hsn hfuel
    obtain ⟨final, hloop, _⟩ := notifyLoop_spec rp id hpres bus.interfaces 0 fuel
      { bus with portList := (rebuildTable id
          (rp.getPeerAddressRanges port { bus with portList := purge id bus.portList }).1
          bus.portList) } rfl hfuel
    have hfold := notifyLoop_fold rp id fuel 0 _ final _ hloop
    rw [hfold] at hloop
    exact recvStatusChange_returns rp fuel bus id port hport
      (interfaceAt_range bus id port hport) hsn _ hloop

/-- C13, scenario: a range change announced by port 1 of the scenario bus is
passed on to port 0 and port 2, once each, and not to port 1.  Ports 0 and 2
each answer with a send for an address of port 1 that is rejected, so the bus
comes back with port 0 and then port 2 on its retry list and with the table
rebuilt for port 1. -/
theorem recvStatusChange_notifies_witness :
    (∀ final notified,
      scenarioBus.recvStatusChange (sendingRangePeers [⟨0x0, 0xFFF⟩] 0x100) 4
        Status.RangeChange 1 = some (.ok (final, notified)) →
      notified = others 1 0 scenarioBus.interfaces ∧
      (scenarioBus.Numbered → ∀ p ∈ scenarioBus.interfaces,
        notified.count p = if p.id = 1 then 0 else 1) ∧
      (∀ p ∈ notified, p ∈ scenarioBus.interfaces) ∧
      ∃ port, scenarioBus.interfaceAt 1 = .ok port ∧
        final = notified.foldl
          (fun b p => (sendingRangePeers [⟨0x0, 0xFFF⟩] 0x100).sendStatusChange p b)
          { scenarioBus with portList := (rebuildTable 1
              ((sendingRangePeers [⟨0x0, 0xFFF⟩] 0x100).getPeerAddressRanges port
                { scenarioBus with portList := purge 1 scenarioBus.portList }).1
              scenarioBus.portList) }) ∧
    others 1 0 scenarioBus.interfaces = [⟨0⟩, ⟨2⟩] ∧
    scenarioBus.recvStatusChange (sendingRangePeers [⟨0x0, 0xFFF⟩] 0x100) 4
        Status.RangeChange 1 =
      some (.ok ({ scenarioBus with
          portList := [⟨2, ⟨0x1000, 0x1FFF⟩⟩, ⟨1, ⟨0x0, 0xFFF⟩⟩],
          retryList := [⟨0⟩, ⟨2⟩] }, [⟨0⟩, ⟨2⟩])) ∧
    scenarioBus.recvStatusChange (sendingRangePeers [⟨0x0, 0xFFF⟩] 0x100) 4
        Status.RangeChange 1 =
      some (.ok ((others 1 0 scenarioBus.interfaces).foldl
          (fun b p => (sendingRangePeers [⟨0x0, 0xFFF⟩] 0x100).sendStatusChange p b)
          { scenarioBus with portList := (rebuildTable 1
              ((sendingRangePeers [⟨0x0, 0xFFF⟩] 0x100).getPeerAddressRanges ⟨1⟩
                { scenarioBus with portList := purge 1 scenarioBus.portList }).1
              scenarioBus.portList) },
          others 1 0 scenarioBus.interfaces)) :=
  ⟨(recvStatusChange_notifies (sendingRangePeers [⟨0x0, 0xFFF⟩] 0x100) 4 scenarioBus 1
      (sendingRangePeers_interfaces [⟨0x0, 0xFFF⟩] 0x100)).1,
    by decide, by rfl,
    (recvStatusChange_notifies (sendingRangePeers [⟨0x0, 0xFFF⟩] 0x100) 4 scenarioBus 1
      (sendingRangePeers_interfaces [⟨0x0, 0xFFF⟩] 0x100)).2 ⟨1⟩ (by rfl) (by rfl)
      (by decide)⟩

/-- C14, as stated, fails: `recvStatusChange` checks no overlap.  Port 2 of the
scenario bus announces [0x800,0x17FF], which overlaps the range [0x0,0xFFF] held
for port 1; the call returns and the table holds both. -/
theorem overlapGuarded_counterexample :
    ¬ OverlapGuarded (quietRangePeers [⟨0x800, 0x17FF⟩]) 4 scenarioBus 2 := by
  intro h
  have hbad := h (by unfold NoOverlap; decide)
    { scenarioBus with portList := [⟨1, ⟨0x0, 0xFFF⟩⟩, ⟨2, ⟨0x800, 0x17FF⟩⟩] }
    [⟨0⟩, ⟨1⟩] (by rfl)
  revert hbad
  unfold NoOverlap
  decide

/-- The scan of `findPort` takes the first entry, in table order, whose range
holds the address. -/
theorem findDest_first (a : Nat) (l1 l2 : List DevMap) (dm : DevMap)
    (h1 : ∀ e ∈ l1, e.range.contains a = false) (h2 : dm.range.contains a = true) :
    findDest a (l1 ++ dm :: l2) = dm.portId := by
  induction l1 with
  | nil => simp only [List.nil_append, findDest, h2, if_true]
  | cons c rest ih =>
    have hc : c.range.contains a = false := h1 c (List.mem_cons_self c rest)
    simp only [List.cons_append, findDest, hc]
    exact ih (fun e he => h1 e (List.mem_cons_of_mem c he))

/-- C14, amended: the empty table has no two entries with different `portId`
and overlapping ranges.  `recvStatusChange` compares no ranges and does not
abort on an overlap: for every valid `id` whose peer reports no snoop ranges the
call (whose notified peers leave the bus alone) returns, with the entries of
`id` replaced by the reported ranges and all other entries kept.  On a table
without overlapping entries of different ports it therefore returns a table
without them exactly when no range that the announcing port supplies overlaps a
range held for another port.  When entries overlap, `findPort` on the returned
table takes the first entry, in table order, whose range holds the address. -/
theorem noOverlap_rebuild (rp : RangePeers) (fuel : Nat) (bus : Bus) (id : Int)
    (port : BusPort) (hq : rp.Quiet) (hinv : NoOverlap bus.portList)
    (hport : bus.interfaceAt id = .ok port)
    (hsn : (rp.getPeerAddressRanges port { bus with portList := purge id bus.portList }).2
      = [])
    (hfuel : bus.interfaces.length < fuel) :
    NoOverlap ([] : List DevMap) ∧
      ∃ final notified,
        bus.recvStatusChange rp fuel Status.RangeChange id = some (.ok (final, notified)) ∧
        final = { bus with portList := (rebuildTable id
          (rp.getPeerAddressRanges port { bus with portList := purge id bus.portList }).1
          bus.portList) } ∧
        (NoOverlap final.portList ↔
          ∀ r ∈ (rp.getPeerAddressRanges port
              { bus with portList := purge id bus.portList }).1,
            ∀ e ∈ bus.portList, e.portId ≠ id → r.overlaps e.range = false) ∧
        (∀ (addr : Nat) (src : Int) (l1 l2 : List DevMap) (dm : DevMap),
          final.portList = l1 ++ dm :: l2 →
          (∀ e ∈ l1, e.range.contains addr = false) → dm.range.contains addr = true →
          final.findPort addr src =
            (if dm.portId = -1 then .error .panic
              else if dm.portId = src then .error .assertion
              else final.interfaceAt dm.portId)) := by
  refine ⟨fun a ha => by simp at ha, ?_⟩
  have hpres : ∀ p b, (rp.sendStatusChange p b).interfaces = b.interfaces :=
    fun p b => by rw [hq p b]
  obtain ⟨final, hloop, _⟩ := notifyLoop_spec rp id hpres bus.interfaces 0 fuel
    { bus with portList := (rebuildTable id
        (rp.getPeerAddressRanges port { bus with portList := purge id bus.portList }).1
        bus.portList) } rfl hfuel
  have hfinal := notifyLoop_quiet rp id hq fuel 0 _ final _ hloop
  refine ⟨final, _, recvStatusChange_returns rp fuel bus id port hport
    (interfaceAt_range bus id port hport) hsn _ hloop, hfinal, ?_, ?_⟩
  · rw [hfinal]
    simp only [rebuildTable]
    constructor
    · intro hno r hr e he hne
      have h1 : ({ portId := id, range := r } : DevMap) ∈
          purge id bus.portList ++
            (rp.getPeerAddressRanges port { bus with portList := purge id bus.portList }).1.map
              (fun r => ({ portId := id, range := r } : DevMap)) :=
        List.mem_append_right _ (List.mem_map.2 ⟨r, hr, rfl⟩)
      have h2 : e ∈ purge id bus.portList ++
            (rp.getPeerAddressRanges port { bus with portList := purge id bus.portList }).1.map
              (fun r => ({ portId := id, range := r } : DevMap)) :=
        List.mem_append_left _ ((mem_purge id bus.portList e).2 ⟨he, hne⟩)
      exact hno _ h1 e h2 (fun hc => hne hc.symm)
    · intro hcond a ha b hb hab
      rcases List.mem_append.1 ha with ha | ha
      · obtain ⟨ha1, ha2⟩ := (mem_purge id bus.portList a).1 ha
        rcases List.mem_append.1 hb with hb | hb
        · exact hinv a ha1 b ((mem_purge id bus.portList b).1 hb).1 hab
        · obtain ⟨r, hr, rfl⟩ := List.mem_map.1 hb
          rw [overlaps_comm]
          exact hcond r hr a ha1 ha2
      · obtain ⟨r, hr, rfl⟩ := List.mem_map.1 ha
        rcases List.mem_append.1 hb with hb | hb
        · obtain ⟨hb1, hb2⟩ := (mem_purge id bus.portList b).1 hb
          exact hcond r hr b hb1 hb2
        · obtain ⟨r2, _, rfl⟩ := List.mem_map.1 hb
          exact absurd rfl hab
  · intro addr src l1 l2 dm hsplit hmiss hhit
    simp only [Bus.findPort, hsplit, findDest_first addr l1 l2 dm hmiss hhit]

/-- C14, amended, scenario: port 2 of the scenario bus announces
[0x800,0x17FF], which overlaps the range [0x0,0xFFF] held for port 1.  The call
returns with both entries in the table; the address 0x900, which lies in both,
is routed to port 1, whose entry comes first, and 0x1200 to port 2. -/
theorem noOverlap_rebuild_witness :
    (NoOverlap ([] : List DevMap) ∧
      ∃ final notified,
        scenarioBus.recvStatusChange (quietRangePeers [⟨0x800, 0x17FF⟩]) 4
          Status.RangeChange 2 = some (.ok (final, notified)) ∧
        final = { scenarioBus with portList := (rebuildTable 2
          ((quietRangePeers [⟨0x800, 0x17FF⟩]).getPeerAddressRanges ⟨2⟩
            { scenarioBus with portList := purge 2 scenarioBus.portList }).1
          scenarioBus.portList) } ∧
        (NoOverlap final.portList ↔
          ∀ r ∈ ((quietRangePeers [⟨0x800, 0x17FF⟩]).getPeerAddressRanges ⟨2⟩
              { scenarioBus with portList := purge 2 scenarioBus.portList }).1,
            ∀ e ∈ scenarioBus.portList, e.portId ≠ 2 → r.overlaps e.range = false) ∧
        (∀ (addr : Nat) (src : Int) (l1 l2 : List DevMap) (dm : DevMap),
          final.portList = l1 ++ dm :: l2 →
          (∀ e ∈ l1, e.range.contains addr = false) → dm.range.contains addr = true →
          final.findPort addr src =
            (if dm.portId = -1 then .error .panic
              else if dm.portId = src then .error .assertion
              else final.interfaceAt dm.portId))) ∧
    scenarioBus.recvStatusChange (quietRangePeers [⟨0x800, 0x17FF⟩]) 4
        Status.RangeChange 2 =
      some (.ok ({ scenarioBus with
          portList := [⟨1, ⟨0x0, 0xFFF⟩⟩, ⟨2, ⟨0x800, 0x17FF⟩⟩] }, [⟨0⟩, ⟨1⟩])) ∧
    ¬ NoOverlap [⟨1, ⟨0x0, 0xFFF⟩⟩, ⟨2, ⟨0x800, 0x17FF⟩⟩] ∧
    Bus.findPort { scenarioBus with
        portList := [⟨1, ⟨0x0, 0xFFF⟩⟩, ⟨2, ⟨0x800, 0x17FF⟩⟩] } 0x900 0 = .ok ⟨1⟩ ∧
    Bus.findPort { scenarioBus with
        portList := [⟨1, ⟨0x0, 0xFFF⟩⟩, ⟨2, ⟨0x800, 0x17FF⟩⟩] } 0x1200 0 = .ok ⟨2⟩ :=
  ⟨noOverlap_rebuild (quietRangePeers [⟨0x800, 0x17FF⟩]) 4 scenarioBus 2 ⟨2⟩
      (fun _ _ => rfl) (by unfold NoOverlap; decide) (by rfl) (by rfl) (by decide),
    by rfl, by unfold NoOverlap; decide, by rfl, by rfl⟩

/-- C15, as stated, fails: a packet from port 0 for 0x1500, an address in the
range of port 2, with the explicit destination 2 is not forwarded; `recvAtomic`
aborts on `assert(pkt->getDest() == Packet::Broadcast)`. -/
theorem atomicRouted_counterexample :
    ¬ AtomicRouted (quietPeers true 7) scenarioBus ⟨0x1500, 0, 2⟩ := by
  intro h
  obtain ⟨r, hr⟩ := h ⟨⟨2, ⟨0x1000, 0x1FFF⟩⟩, by decide, by decide, by decide⟩
  have habort : scenarioBus.recvAtomic (quietPeers true 7) ⟨0x1500, 0, 2⟩
      = .error .assertion := by rfl
  rw [habort] at hr
  cases hr

/-- C15, amended: a packet with the broadcast destination for which `findPort`
selects a port is forwarded to that port by `recvAtomic` and by
`recvFunctional`; `recvAtomic` returns the tick cost of that port's
`sendAtomic` unchanged; the bus, its retry list included, is returned as the
callee leaves it, so the retry list is not modified.  A packet with an explicit
destination is not forwarded: both functions abort on their assertion. -/
theorem atomic_functional_routed (peers : Peers) (bus : Bus) (pkt : Packet)
    (port : BusPort) (hb : pkt.dest = Packet.Broadcast)
    (hfind : bus.findPort pkt.addr pkt.src = .ok port) :
    bus.recvAtomic peers pkt =
        .ok { ticks := (peers.sendAtomic port pkt bus).1, sentTo := port,
              pkt := (peers.sendAtomic port pkt bus).2.1,
              bus := (peers.sendAtomic port pkt bus).2.2 } ∧
      bus.recvFunctional peers pkt =
        .ok { sentTo := port, pkt := (peers.sendFunctional port pkt bus).1,
              bus := (peers.sendFunctional port pkt bus).2 } ∧
      ((peers.sendAtomic port pkt bus).2.2 = bus →
        ∀ r, bus.recvAtomic peers pkt = .ok r → r.bus.retryList = bus.retryList) ∧
      ((peers.sendFunctional port pkt bus).2 = bus →
        ∀ r, bus.recvFunctional peers pkt = .ok r → r.bus.retryList = bus.retryList) ∧
      (∀ other : Packet, other.dest ≠ Packet.Broadcast →
        bus.recvAtomic peers other = .error .assertion ∧
        bus.recvFunctional peers other = .error .assertion) := by
  have ha : bus.recvAtomic peers pkt =
      .ok { ticks := (peers.sendAtomic port pkt bus).1, sentTo := port,
            pkt := (peers.sendAtomic port pkt bus).2.1,
            bus := (peers.sendAtomic port pkt bus).2.2 } := by
    simp only [Bus.recvAtomic, hb, ne_eq, not_true_eq_false, if_false, hfind]
  have hf : bus.recvFunctional peers pkt =
      .ok { sentTo := port, pkt := (peers.sendFunctional port pkt bus).1,
            bus := (peers.sendFunctional port pkt bus).2 } := by
    simp only [Bus.recvFunctional, hb, ne_eq, not_true_eq_false, if_false, hfind]
  refine ⟨ha, hf, ?_, ?_, ?_⟩
  · intro hquiet r hr
    rw [ha] at hr
    cases hr
    simp only [hquiet]
  · intro hquiet r hr
    rw [hf] at hr
    cases hr
    simp only [hquiet]
  · intro other hne
    exact ⟨by simp only [Bus.recvAtomic, hne, ne_eq, not_false_eq_true, if_true],
      by simp only [Bus.recvFunctional, hne, ne_eq, not_false_eq_true, if_true]⟩

/-- C15, amended, scenario: a broadcast packet from port 0 for 0x1500 is
forwarded to port 2 by both calls; `recvAtomic` returns the cost 7 of the
callee and the retry list stays empty. -/
theorem atomic_functional_routed_witness :
    scenarioBus.recvAtomic (quietPeers true 7) ⟨0x1500, 0, -1⟩ =
        .ok { ticks := 7, sentTo := ⟨2⟩, pkt := ⟨0x1500, 0, -1⟩, bus := scenarioBus } ∧
      scenarioBus.recvFunctional (quietPeers true 7) ⟨0x1500, 0, -1⟩ =
        .ok { sentTo := ⟨2⟩, pkt := ⟨0x1500, 0, -1⟩, bus := scenarioBus } :=
  ⟨(atomic_functional_routed (quietPeers true 7) scenarioBus ⟨0x1500, 0, -1⟩ ⟨2⟩
      (by rfl) (by rfl)).1,
    (atomic_functional_routed (quietPeers true 7) scenarioBus ⟨0x1500, 0, -1⟩ ⟨2⟩
      (by rfl) (by rfl)).2.1⟩

end Mem

namespace Cache

/-! ## Bit vectors of causes -/

theorem flagOf_testBit (c i : Nat) (hc : c < 8) : (flagOf c).testBit i = decide (c = i) := by
  have hlt : 2 ^ c < 256 := by
    have : c ≤ 7 := by omega
    calc 2 ^ c ≤ 2 ^ 7 := Nat.pow_le_pow_right (by decide) this
      _ < 256 := by decide
  rw [flagOf, Nat.one_shiftLeft, Nat.mod_eq_of_lt hlt, Nat.testBit_two_pow]

theorem setBits_testBit (m f i : Nat) :
    (setBits m f).testBit i = (decide (i < 8) && (m.testBit i || f.testBit i)) := by
  have h : (256 : Nat) = 2 ^ 8 := by decide
  rw [setBits, h, Nat.testBit_mod_two_pow, Nat.testBit_or]

theorem clearBits_testBit (m f i : Nat) :
    (clearBits m f).testBit i = (decide (i < 8) && (m.testBit i && !f.testBit i)) := by
  have h : (256 : Nat) = 2 ^ 8 := by decide
  have h32 : (4294967295 : Nat) = 2 ^ 32 - 1 := by decide
  rw [clearBits, h, Nat.testBit_mod_two_pow, Nat.testBit_and, Nat.testBit_xor, h32,
    Nat.testBit_two_pow_sub_one]
  by_cases hi : i < 8
  · have hi32 : i < 32 := by omega
    simp [hi, hi32]
  · simp [hi]

theorem flagOf_lt (c : Nat) : flagOf c < 256 := Nat.mod_lt _ (by decide)

theorem land_flag_eq_zero (m c : Nat) (hc : c < 8) :
    m &&& flagOf c = 0 ↔ m.testBit c = false := by
  constructor
  · intro h
    have := congrArg (fun x => x.testBit c) h
    simpa [Nat.testBit_and, flagOf_testBit c c hc] using this
  · intro h
    apply Nat.eq_of_testBit_eq
    intro i
    rw [Nat.testBit_and, flagOf_testBit c i hc, Nat.zero_testBit]
    by_cases hci : c = i
    · subst hci; simp [h]
    · simp [hci]

theorem blockedCause_lt (c : BlockedCause) : c.toNat < 4 := by
  cases c <;> decide

theorem requestCause_lt (c : RequestCause) : c.toNat < 4 := by
  cases c <;> decide

theorem blockedCause_inj (a b : BlockedCause) (h : a.toNat = b.toNat) : a = b := by
  cases a <;> cases b <;> first | rfl | (exact absurd h (by decide))

theorem requestCause_inj (a b : RequestCause) (h : a.toNat = b.toNat) : a = b := by
  cases a <;> cases b <;> first | rfl | (exact absurd h (by decide))

theorem blockedCause_of_lt (i : Nat) (hi : i < 4) : ∃ c : BlockedCause, c.toNat = i := by
  match i, hi with
  | 0, _ => exact ⟨.Blocked_NoMSHRs, rfl⟩
  | 1, _ => exact ⟨.Blocked_NoTargets, rfl⟩
  | 2, _ => exact ⟨.Blocked_NoWBBuffers, rfl⟩
  | 3, _ => exact ⟨.Blocked_Coherence, rfl⟩

/-! ## Blocking -/

theorem callPort_ok (port : Option CachePort) (effect : Effect) (s s1 : BaseCache)
    (h : callPort port effect s = .ok s1) :
    port.isSome = true ∧ s1 = { s with log := s.log ++ [effect] } := by
  cases port with
  | none => simp [callPort] at h
  | some p =>
    simp only [callPort, Except.ok.injEq] at h
    exact ⟨rfl, h.symm⟩

/-- What a returning `setBlocked` did to masks, ports and log. -/
theorem setBlocked_spec (s s1 : BaseCache) (c : BlockedCause) (t : Int)
    (h : s.setBlocked c t = .ok s1) :
    s1.blocked = (if s.blocked.testBit c.toNat then s.blocked
      else setBits s.blocked (flagOf c.toNat)) ∧
    s1.blockedSnoop = s.blockedSnoop ∧
    s1.cpuSidePort = s.cpuSidePort ∧ s1.memSidePort = s.memSidePort ∧
    s1.log = s.log ++ (if s.blocked = 0 then [Effect.setBlocked Side.cpu] else []) := by
  have hc : c.toNat < 8 := Nat.lt_of_lt_of_le (blockedCause_lt c) (by decide)
  have hflag := land_flag_eq_zero s.blocked c.toNat hc
  by_cases h0 : s.blocked = 0
  · have hbit : s.blocked.testBit c.toNat = false := by rw [h0]; exact Nat.zero_testBit _
    simp only [BaseCache.setBlocked, h0, if_true, Nat.zero_and] at h
    obtain ⟨_, hs1⟩ := callPort_ok _ _ _ _ h
    rw [hs1]
    simp [hbit, h0]
  · by_cases hbit : s.blocked.testBit c.toNat = true
    · have hne : ¬ (s.blocked &&& flagOf c.toNat = 0) := by
        rw [hflag, hbit]; exact Bool.noConfusion
      simp only [BaseCache.setBlocked, h0, if_false, hne, Except.ok.injEq] at h
      rw [← h]
      simp [hbit, h0]
    · have hbit2 : s.blocked.testBit c.toNat = false := by simpa using hbit
      have heq : s.blocked &&& flagOf c.toNat = 0 := hflag.2 hbit2
      simp only [BaseCache.setBlocked, h0, if_false, heq, if_true, Except.ok.injEq] at h
      rw [← h]
      simp [hbit2, h0]

theorem setBlocked_returns (s : BaseCache) (c : BlockedCause) (t : Int) (p : CachePort)
    (hp : s.cpuSidePort = some p) : ∃ s1, s.setBlocked c t = .ok s1 := by
  by_cases h0 : s.blocked = 0
  · simp only [BaseCache.setBlocked, h0, if_true, Nat.zero_and, callPort, hp]
    exact ⟨_, rfl⟩
  · by_cases hb : s.blocked &&& flagOf c.toNat = 0
    · simp only [BaseCache.setBlocked, h0, if_false, hb, if_true]
      exact ⟨_, rfl⟩
    · simp only [BaseCache.setBlocked, h0, if_false, hb]
      exact ⟨_, rfl⟩

/-- What a returning `setBlockedForSnoop` did to masks, ports and log. -/
theorem setBlockedForSnoop_spec (s s1 : BaseCache) (c : BlockedCause)
    (h : s.setBlockedForSnoop c = .ok s1) :
    s1.blockedSnoop = (if s.blockedSnoop.testBit c.toNat then s.blockedSnoop
      else setBits s.blockedSnoop (flagOf c.toNat)) ∧
    s1.blocked = s.blocked ∧
    s1.cpuSidePort = s.cpuSidePort ∧ s1.memSidePort = s.memSidePort ∧
    s1.log = s.log ++ (if s.blockedSnoop = 0 then [Effect.setBlocked Side.mem] else []) := by
  have hc : c.toNat < 8 := Nat.lt_of_lt_of_le (blockedCause_lt c) (by decide)
  have hflag := land_flag_eq_zero s.blockedSnoop c.toNat hc
  by_cases h0 : s.blockedSnoop = 0
  · have hbit : s.blockedSnoop.testBit c.toNat = false := by rw [h0]; exact Nat.zero_testBit _
    simp only [BaseCache.setBlockedForSnoop, h0, if_true, Nat.zero_and] at h
    obtain ⟨_, hs1⟩ := callPort_ok _ _ _ _ h
    rw [hs1]
    simp [hbit, h0]
  · by_cases hbit : s.blockedSnoop.testBit c.toNat = true
    · have hne : ¬ (s.blockedSnoop &&& flagOf c.toNat = 0) := by
        rw [hflag, hbit]; exact Bool.noConfusion
      simp only [BaseCache.setBlockedForSnoop, hne, if_false, Except.ok.injEq] at h
      rw [← h]
      simp [hbit, h0]
    · have hbit2 : s.blockedSnoop.testBit c.toNat = false := by simpa using hbit
      have heq : s.blockedSnoop &&& flagOf c.toNat = 0 := hflag.2 hbit2
      simp only [BaseCache.setBlockedForSnoop, heq, if_true, h0, if_false,
        Except.ok.injEq] at h
      rw [← h]
      simp [hbit2, h0]

theorem setBlockedForSnoop_returns (s : BaseCache) (c : BlockedCause) (p : CachePort)
    (hp : s.memSidePort = some p) : ∃ s1, s.setBlockedForSnoop c = .ok s1 := by
  by_cases h0 : s.blockedSnoop = 0
  · simp only [BaseCache.setBlockedForSnoop, h0, Nat.zero_and, if_true, callPort, hp]
    exact ⟨_, rfl⟩
  · by_cases hb : s.blockedSnoop &&& flagOf c.toNat = 0
    · simp only [BaseCache.setBlockedForSnoop, hb, if_true, h0, if_false]
      exact ⟨_, rfl⟩
    · simp only [BaseCache.setBlockedForSnoop, hb, if_false]
      exact ⟨_, rfl⟩

/-- What a returning first half of `clearBlocked` did. -/
theorem clearAccess_spec (s s1 : BaseCache) (c : BlockedCause) (t : Int)
    (h : s.clearAccess c t = .ok s1) :
    s1.blocked = (if s.blocked.testBit c.toNat then clearBits s.blocked (flagOf c.toNat)
      else s.blocked) ∧
    s1.blockedSnoop = s.blockedSnoop ∧
    s1.cpuSidePort = s.cpuSidePort ∧ s1.memSidePort = s.memSidePort ∧
    s1.log = s.log ++ (if s.blocked.testBit c.toNat = true ∧ s1.blocked = 0
      then [Effect.clearBlocked Side.cpu] else []) := by
  have hc : c.toNat < 8 := Nat.lt_of_lt_of_le (blockedCause_lt c) (by decide)
  have hflag := land_flag_eq_zero s.blocked c.toNat hc
  by_cases hbit : s.blocked.testBit c.toNat = true
  · have hne : s.blocked &&& flagOf c.toNat ≠ 0 := by
      rw [ne_eq, hflag, hbit]; exact Bool.noConfusion
    by_cases hz : clearBits s.blocked (flagOf c.toNat) = 0
    · simp only [BaseCache.clearAccess, hne, ne_eq, not_false_eq_true, if_true,
        BaseCache.isBlocked, hz, not_true_eq_false, decide_False, Bool.false_eq_true] at h
      obtain ⟨_, hs1⟩ := callPort_ok _ _ _ _ h
      rw [hs1]
      simp [hbit, hz]
    · simp only [BaseCache.clearAccess, hne, ne_eq, not_false_eq_true, if_true,
        BaseCache.isBlocked, hz, decide_True, not_true_eq_false, if_false,
        Except.ok.injEq] at h
      rw [← h]
      simp [hbit, hz]
  · have hbit2 : s.blocked.testBit c.toNat = false := by simpa using hbit
    have heq : s.blocked &&& flagOf c.toNat = 0 := hflag.2 hbit2
    simp only [BaseCache.clearAccess, heq, ne_eq, not_true_eq_false, if_false,
      Except.ok.injEq] at h
    rw [← h]
    simp [hbit2]

/-- What a returning second half of `clearBlocked` did. -/
theorem clearSnoop_spec (s s1 : BaseCache) (c : BlockedCause)
    (h : s.clearSnoop c = .ok s1) :
    s1.blockedSnoop = (if s.blockedSnoop.testBit c.toNat
      then clearBits s.blockedSnoop (flagOf c.toNat) else s.blockedSnoop) ∧
    s1.blocked = s.blocked ∧
    s1.cpuSidePort = s.cpuSidePort ∧ s1.memSidePort = s.memSidePort ∧
    s1.log = s.log ++ (if s.blockedSnoop.testBit c.toNat = true ∧ s1.blockedSnoop = 0
      then [Effect.clearBlocked Side.mem] else []) := by
  have hc : c.toNat < 8 := Nat.lt_of_lt_of_le (blockedCause_lt c) (by decide)
  have hflag := land_flag_eq_zero s.blockedSnoop c.toNat hc
  by_cases hbit : s.blockedSnoop.testBit c.toNat = true
  · have hne : s.blockedSnoop &&& flagOf c.toNat ≠ 0 := by
      rw [ne_eq, hflag, hbit]; exact Bool.noConfusion
    by_cases hz : clearBits s.blockedSnoop (flagOf c.toNat) = 0
    · simp only [BaseCache.clearSnoop, hne, ne_eq, not_false_eq_true, if_true,
        BaseCache.isBlockedForSnoop, hz, not_true_eq_false, decide_False,
        Bool.false_eq_true] at h
      obtain ⟨_, hs1⟩ := callPort_ok _ _ _ _ h
      rw [hs1]
      simp [hbit, hz]
    · simp only [BaseCache.clearSnoop, hne, ne_eq, not_false_eq_true, if_true,
        BaseCache.isBlockedForSnoop, hz, decide_True, not_true_eq_false, if_false,
        Except.ok.injEq] at h
      rw [← h]
      simp [hbit, hz]
  · have hbit2 : s.blockedSnoop.testBit c.toNat = false := by simpa using hbit
    have heq : s.blockedSnoop &&& flagOf c.toNat = 0 := hflag.2 hbit2
    simp only [BaseCache.clearSnoop, heq, ne_eq, not_true_eq_false, if_false,
      Except.ok.injEq] at h
    rw [← h]
    simp [hbit2]

theorem clearAccess_returns (s : BaseCache) (c : BlockedCause) (t : Int) (p : CachePort)
    (hp : s.cpuSidePort = some p) : ∃ s1, s.clearAccess c t = .ok s1 := by
  by_cases hb : s.blocked &&& flagOf c.toNat ≠ 0
  · by_cases hz : clearBits s.blocked (flagOf c.toNat) = 0
    · simp only [BaseCache.clearAccess, hb, if_true, BaseCache.isBlocked, hz, ne_eq,
        not_true_eq_false, decide_False, Bool.false_eq_true, not_false_eq_true, callPort, hp]
      exact ⟨_, rfl⟩
    · simp only [BaseCache.clearAccess, hb, if_true, BaseCache.isBlocked, hz, ne_eq,
        not_false_eq_true, decide_True, not_true_eq_false, if_false]
      exact ⟨_, rfl⟩
  · simp only [BaseCache.clearAccess, hb, if_false]
    exact ⟨_, rfl⟩

theorem clearSnoop_returns (s : BaseCache) (c : BlockedCause) (p : CachePort)
    (hp : s.memSidePort = some p) : ∃ s1, s.clearSnoop c = .ok s1 := by
  by_cases hb : s.blockedSnoop &&& flagOf c.toNat ≠ 0
  · by_cases hz : clearBits s.blockedSnoop (flagOf c.toNat) = 0
    · simp only [BaseCache.clearSnoop, hb, if_true, BaseCache.isBlockedForSnoop, hz, ne_eq,
        not_true_eq_false, decide_False, Bool.false_eq_true, not_false_eq_true, callPort, hp]
      exact ⟨_, rfl⟩
    · simp only [BaseCache.clearSnoop, hb, if_true, BaseCache.isBlockedForSnoop, hz, ne_eq,
        not_false_eq_true, decide_True, not_true_eq_false, if_false]
      exact ⟨_, rfl⟩
  · simp only [BaseCache.clearSnoop, hb, if_false]
    exact ⟨_, rfl⟩

/-- What a returning `clearBlocked` did to masks, ports and log. -/
theorem clearBlocked_spec (s s2 : BaseCache) (c : BlockedCause) (t : Int)
    (h : s.clearBlocked c t = .ok s2) :
    s2.blocked = (if s.blocked.testBit c.toNat then clearBits s.blocked (flagOf c.toNat)
      else s.blocked) ∧
    s2.blockedSnoop = (if s.blockedSnoop.testBit c.toNat
      then clearBits s.blockedSnoop (flagOf c.toNat) else s.blockedSnoop) ∧
    s2.cpuSidePort = s.cpuSidePort ∧ s2.memSidePort = s.memSidePort ∧
    s2.log = s.log ++
      (if s.blocked.testBit c.toNat = true ∧ s2.blocked = 0
        then [Effect.clearBlocked Side.cpu] else []) ++
      (if s.blockedSnoop.testBit c.toNat = true ∧ s2.blockedSnoop = 0
        then [Effect.clearBlocked Side.mem] else []) := by
  simp only [BaseCache.clearBlocked] at h
  split at h
  · cases h
  · next s1 h1 =>
    obtain ⟨a1, a2, a3, a4, a5⟩ := clearAccess_spec s s1 c t h1
    obtain ⟨b1, b2, b3, b4, b5⟩ := clearSnoop_spec s1 s2 c h
    refine ⟨by rw [b2, a1], by rw [b1, a2], by rw [b3, a3], by rw [b4, a4], ?_⟩
    rw [b5, a5, a2, b2]

theorem clearBlocked_returns (s : BaseCache) (c : BlockedCause) (t : Int)
    (p q : CachePort) (hp : s.cpuSidePort = some p) (hq : s.memSidePort = some q) :
    ∃ s2, s.clearBlocked c t = .ok s2 := by
  obtain ⟨s1, h1⟩ := clearAccess_returns s c t p hp
  obtain ⟨_, _, _, a4, _⟩ := clearAccess_spec s s1 c t h1
  obtain ⟨s2, h2⟩ := clearSnoop_returns s1 c q (by rw [a4, hq])
  exact ⟨s2, by simp only [BaseCache.clearBlocked, h1, h2]⟩

/-- The bit of every position after a `setBlocked`, for a mask of eight bits. -/
theorem setBlocked_bits (s s1 : BaseCache) (c : BlockedCause) (t : Int)
    (hw : ∀ i, 8 ≤ i → s.blocked.testBit i = false)
    (h : s.setBlocked c t = .ok s1) (i : Nat) :
    s1.blocked.testBit i = (s.blocked.testBit i || decide (c.toNat = i)) := by
  have hc : c.toNat < 8 := Nat.lt_of_lt_of_le (blockedCause_lt c) (by decide)
  obtain ⟨hb, _⟩ := setBlocked_spec s s1 c t h
  rw [hb]
  by_cases hbit : s.blocked.testBit c.toNat = true
  · rw [if_pos hbit]
    by_cases hci : c.toNat = i
    · subst hci; simp [hbit]
    · simp [hci]
  · rw [if_neg hbit, setBits_testBit, flagOf_testBit c.toNat i hc]
    by_cases hi : i < 8
    · simp [hi]
    · have h1 : s.blocked.testBit i = false := hw i (by omega)
      have h2 : ¬ c.toNat = i := by omega
      simp [hi, h1, h2]

/-- The bit of every position after a `clearBlocked`, for a mask of eight
bits. -/
theorem clearBlocked_bits (s s1 : BaseCache) (c : BlockedCause) (t : Int)
    (hw : ∀ i, 8 ≤ i → s.blocked.testBit i = false)
    (h : s.clearBlocked c t = .ok s1) (i : Nat) :
    s1.blocked.testBit i = (s.blocked.testBit i && !decide (c.toNat = i)) := by
  have hc : c.toNat < 8 := Nat.lt_of_lt_of_le (blockedCause_lt c) (by decide)
  obtain ⟨hb, _⟩ := clearBlocked_spec s s1 c t h
  rw [hb]
  by_cases hbit : s.blocked.testBit c.toNat = true
  · rw [if_pos hbit, clearBits_testBit, flagOf_testBit c.toNat i hc]
    by_cases hi : i < 8
    · simp [hi]
    · have h1 : s.blocked.testBit i = false := hw i (by omega)
      simp [hi, h1]
  · rw [if_neg hbit]
    have hbit2 : s.blocked.testBit c.toNat = false := by simpa using hbit
    by_cases hci : c.toNat = i
    · subst hci; simp [hbit2]
    · simp [hci]

/-- The access-path mask after a sequence of calls on a cache with both ports:
its bits are those of the causes that are set and not cleared since. -/
theorem runCalls_bits (calls : List BlockCall) (s : BaseCache) (a : BlockedCause → Bool)
    (p q : CachePort) (hp : s.cpuSidePort = some p) (hq : s.memSidePort = some q)
    (hinv : ∀ i, s.blocked.testBit i = true ↔ ∃ c : BlockedCause, c.toNat = i ∧ a c = true) :
    ∃ s1, runCalls s calls = .ok s1 ∧
      ∀ i, s1.blocked.testBit i = true ↔
        ∃ c : BlockedCause, c.toNat = i ∧ activeAfter c (a c) calls = true := by
  induction calls generalizing s a with
  | nil => exact ⟨s, rfl, hinv⟩
  | cons call rest ih =>
    have hw : ∀ i, 8 ≤ i → s.blocked.testBit i = false := by
      intro i hi
      by_contra hne
      have htrue : s.blocked.testBit i = true := by simpa using hne
      obtain ⟨c, hci, _⟩ := (hinv i).1 htrue
      have := blockedCause_lt c
      omega
    cases call with
    | set c0 t =>
      obtain ⟨s1, h1⟩ := setBlocked_returns s c0 t p hp
      obtain ⟨_, _, hp1, hq1, _⟩ := setBlocked_spec s s1 c0 t h1
      have hinv1 : ∀ i, s1.blocked.testBit i = true ↔
          ∃ c : BlockedCause, c.toNat = i ∧ (if c0 = c then true else a c) = true := by
        intro i
        rw [setBlocked_bits s s1 c0 t hw h1 i, Bool.or_eq_true, hinv i, decide_eq_true_eq]
        constructor
        · rintro (⟨c, hci, hac⟩ | hci)
          · exact ⟨c, hci, by by_cases hcc : c0 = c <;> simp [hcc, hac]⟩
          · exact ⟨c0, hci, by simp⟩
        · rintro ⟨c, hci, hac⟩
          by_cases hcc : c0 = c
          · exact Or.inr (by rw [hcc, hci])
          · rw [if_neg hcc] at hac
            exact Or.inl ⟨c, hci, hac⟩
      obtain ⟨s2, h2, hfinal⟩ := ih s1 (fun c => if c0 = c then true else a c)
        (by rw [hp1, hp]) (by rw [hq1, hq]) hinv1
      exact ⟨s2, by simp only [runCalls, applyCall, h1, h2], fun i => by
        rw [hfinal i]; simp only [activeAfter]⟩
    | clear c0 t =>
      obtain ⟨s1, h1⟩ := clearBlocked_returns s c0 t p q hp hq
      obtain ⟨_, _, hp1, hq1, _⟩ := clearBlocked_spec s s1 c0 t h1
      have hinv1 : ∀ i, s1.blocked.testBit i = true ↔
          ∃ c : BlockedCause, c.toNat = i ∧ (if c0 = c then false else a c) = true := by
        intro i
        rw [clearBlocked_bits s s1 c0 t hw h1 i, Bool.and_eq_true, hinv i,
          Bool.not_eq_true', decide_eq_false_iff_not]
        constructor
        · rintro ⟨⟨c, hci, hac⟩, hne⟩
          have hcc : ¬ c0 = c := fun hcc => hne (by rw [hcc, hci])
          exact ⟨c, hci, by rw [if_neg hcc]; exact hac⟩
        · rintro ⟨c, hci, hac⟩
          by_cases hcc : c0 = c
          · rw [if_pos hcc] at hac; cases hac
          · rw [if_neg hcc] at hac
            refine ⟨⟨c, hci, hac⟩, fun hne => hcc ?_⟩
            exact blockedCause_inj c0 c (by rw [hne, hci])
      obtain ⟨s2, h2, hfinal⟩ := ih s1 (fun c => if c0 = c then false else a c)
        (by rw [hp1, hp]) (by rw [hq1, hq]) hinv1
      exact ⟨s2, by simp only [runCalls, applyCall, h1, h2], fun i => by
        rw [hfinal i]; simp only [activeAfter]⟩

/-- C16: for every sequence of `setBlocked` / `clearBlocked` calls on a cache
whose access-path mask is zero (a freshly constructed cache with its two
ports), the calls return, the bit of a cause in the access-path mask is 1
exactly when the most recent call naming the cause was `setBlocked`, and
`isBlocked()` is true exactly when at least one cause has been set and not
cleared since. -/
theorem isBlocked_iff_cause_set (s : BaseCache) (cpu mem : CachePort)
    (calls : List BlockCall) (h0 : s.blocked = 0)
    (hp : s.cpuSidePort = some cpu) (hq : s.memSidePort = some mem) :
    ∃ s1, runCalls s calls = .ok s1 ∧
      (∀ c : BlockedCause, s1.blocked.testBit c.toNat = activeAfter c false calls) ∧
      (s1.isBlocked = true ↔ ∃ c : BlockedCause, activeAfter c false calls = true) := by
  have hinv : ∀ i, s.blocked.testBit i = true ↔
      ∃ c : BlockedCause, c.toNat = i ∧ (fun _ : BlockedCause => false) c = true := by
    intro i
    rw [h0, Nat.zero_testBit]
    constructor
    · intro h; cases h
    · rintro ⟨_, _, h⟩; cases h
  obtain ⟨s1, hrun, hbits⟩ := runCalls_bits calls s (fun _ => false) cpu mem hp hq hinv
  refine ⟨s1, hrun, fun c => ?_, ?_⟩
  · cases hact : activeAfter c false calls with
    | true => exact (hbits c.toNat).2 ⟨c, rfl, hact⟩
    | false =>
      cases hb : s1.blocked.testBit c.toNat with
      | false => rfl
      | true =>
        obtain ⟨c2, hc2, hact2⟩ := (hbits c.toNat).1 hb
        rw [blockedCause_inj c2 c hc2, hact] at hact2
        cases hact2
  · simp only [BaseCache.isBlocked, decide_eq_true_eq]
    constructor
    · intro hne
      obtain ⟨i, hi⟩ := Nat.ne_zero_implies_bit_true hne
      obtain ⟨c, _, hact⟩ := (hbits i).1 hi
      exact ⟨c, hact⟩
    · rintro ⟨c, hact⟩ hzero
      have hb := (hbits c.toNat).2 ⟨c, rfl, hact⟩
      rw [hzero, Nat.zero_testBit] at hb
      cases hb

/-- C16, scenario: with the causes NoMSHRs and NoTargets set, clearing NoMSHRs
leaves the cache blocked and clearing NoTargets as well unblocks it. -/
theorem isBlocked_iff_cause_set_witness :
    (runCalls (BaseCache.wired idlePort idlePort)
        [.set .Blocked_NoMSHRs 10, .set .Blocked_NoTargets 12,
         .clear .Blocked_NoMSHRs 20]).map BaseCache.isBlocked = .ok true ∧
      (runCalls (BaseCache.wired idlePort idlePort)
        [.set .Blocked_NoMSHRs 10, .set .Blocked_NoTargets 12,
         .clear .Blocked_NoMSHRs 20, .clear .Blocked_NoTargets 30]).map BaseCache.isBlocked
        = .ok false ∧
      (∃ s1, runCalls (BaseCache.wired idlePort idlePort)
          [.set .Blocked_NoMSHRs 10, .set .Blocked_NoTargets 12,
           .clear .Blocked_NoMSHRs 20] = .ok s1 ∧
        (∀ c : BlockedCause, s1.blocked.testBit c.toNat = activeAfter c false
          [.set .Blocked_NoMSHRs 10, .set .Blocked_NoTargets 12,
           .clear .Blocked_NoMSHRs 20]) ∧
        (s1.isBlocked = true ↔ ∃ c : BlockedCause, activeAfter c false
          [.set .Blocked_NoMSHRs 10, .set .Blocked_NoTargets 12,
           .clear .Blocked_NoMSHRs 20] = true)) :=
  ⟨by rfl, by rfl,
    isBlocked_iff_cause_set (BaseCache.wired idlePort idlePort) idlePort idlePort
      [.set .Blocked_NoMSHRs 10, .set .Blocked_NoTargets 12, .clear .Blocked_NoMSHRs 20]
      rfl rfl rfl⟩

/-- C17: transition-only notification.  `setBlocked(c)` calls
`cpuSidePort->setBlocked()` exactly when the access-path mask was zero before
the call; `clearBlocked(c)` calls `cpuSidePort->clearBlocked()` exactly when the
mask was non-zero before and is zero after the call; `setBlockedForSnoop(c)`
calls `memSidePort->setBlocked()` exactly when the snoop mask was zero before.
Setting a cause while blocked, also one that is already set, records no call,
and clearing a cause that is not set records none either.  With both ports in
place all three calls return. -/
theorem transition_only_notification (s : BaseCache) (c : BlockedCause) (t : Int) :
    (∀ s1, s.setBlocked c t = .ok s1 →
      s1.log = s.log ++ (if s.blocked = 0 then [Effect.setBlocked Side.cpu] else [])) ∧
    (∀ s1, s.clearBlocked c t = .ok s1 →
      s1.log = s.log ++
        (if s.blocked ≠ 0 ∧ s1.blocked = 0 then [Effect.clearBlocked Side.cpu] else []) ++
        (if s.blockedSnoop.testBit c.toNat = true ∧ s1.blockedSnoop = 0
          then [Effect.clearBlocked Side.mem] else [])) ∧
    (∀ s1, s.setBlockedForSnoop c = .ok s1 →
      s1.log = s.log ++ (if s.blockedSnoop = 0 then [Effect.setBlocked Side.mem] else [])) ∧
    (∀ s1, s.setBlocked c t = .ok s1 → s.blocked ≠ 0 → s1.log = s.log) ∧
    (∀ s1, s.clearBlocked c t = .ok s1 → s.blocked.testBit c.toNat = false →
      Effect.clearBlocked Side.cpu ∉ s1.log.drop s.log.length ∧
      (s.blockedSnoop.testBit c.toNat = false → s1.log = s.log)) ∧
    (∀ cpu mem, s.cpuSidePort = some cpu → s.memSidePort = some mem →
      (∃ s1, s.setBlocked c t = .ok s1) ∧ (∃ s1, s.clearBlocked c t = .ok s1) ∧
      (∃ s1, s.setBlockedForSnoop c = .ok s1)) := by
  have hclear : ∀ s1, s.clearBlocked c t = .ok s1 →
      ((s.blocked.testBit c.toNat = true ∧ s1.blocked = 0) ↔
        (s.blocked ≠ 0 ∧ s1.blocked = 0)) := by
    intro s1 h
    obtain ⟨hb, _⟩ := clearBlocked_spec s s1 c t h
    constructor
    · rintro ⟨hbit, hz⟩
      refine ⟨fun h0 => ?_, hz⟩
      rw [h0, Nat.zero_testBit] at hbit
      cases hbit
    · rintro ⟨hne, hz⟩
      refine ⟨?_, hz⟩
      by_contra hbit
      rw [if_neg hbit] at hb
      exact hne (by rw [← hb, hz])
  refine ⟨?_, ?_, ?_, ?_, ?_, ?_⟩
  · intro s1 h
    exact (setBlocked_spec s s1 c t h).2.2.2.2
  · intro s1 h
    have hlog := (clearBlocked_spec s s1 c t h).2.2.2.2
    rw [hlog]
    by_cases hcond : s.blocked.testBit c.toNat = true ∧ s1.blocked = 0
    · rw [if_pos hcond, if_pos ((hclear s1 h).1 hcond)]
    · rw [if_neg hcond, if_neg (fun hc => hcond ((hclear s1 h).2 hc))]
  · intro s1 h
    exact (setBlockedForSnoop_spec s s1 c h).2.2.2.2
  · intro s1 h hne
    rw [(setBlocked_spec s s1 c t h).2.2.2.2, if_neg hne, List.append_nil]
  · intro s1 h hbit
    have hlog := (clearBlocked_spec s s1 c t h).2.2.2.2
    have hno : ¬ (s.blocked.testBit c.toNat = true ∧ s1.blocked = 0) := by
      rintro ⟨hb, _⟩
      rw [hbit] at hb
      cases hb
    rw [if_neg hno, List.append_nil] at hlog
    constructor
    · rw [hlog, List.drop_left]
      split <;> simp
    · intro hsn
      have hno2 : ¬ (s.blockedSnoop.testBit c.toNat = true ∧ s1.blockedSnoop = 0) := by
        rintro ⟨hb, _⟩
        rw [hsn] at hb
        cases hb
      rw [hlog, if_neg hno2, List.append_nil]
  · intro cpu mem hp hq
    exact ⟨setBlocked_returns s c t cpu hp, clearBlocked_returns s c t cpu mem hp hq,
      setBlockedForSnoop_returns s c mem hq⟩

/-- C17, scenario: on a cache with its ports, the first `setBlocked` tells the
cpu-side port, a second one for another cause tells nobody, clearing one of the
two causes tells nobody and clearing the other tells the port once. -/
theorem transition_only_notification_witness :
    (runCalls (BaseCache.wired idlePort idlePort)
        [.set .Blocked_NoMSHRs 10]).map BaseCache.log
        = .ok [Effect.setBlocked Side.cpu] ∧
      (runCalls (BaseCache.wired idlePort idlePort)
        [.set .Blocked_NoMSHRs 10, .set .Blocked_NoTargets 12,
         .set .Blocked_NoMSHRs 13, .clear .Blocked_NoMSHRs 20,
         .clear .Blocked_NoWBBuffers 21]).map BaseCache.log
        = .ok [Effect.setBlocked Side.cpu] ∧
      (runCalls (BaseCache.wired idlePort idlePort)
        [.set .Blocked_NoMSHRs 10, .set .Blocked_NoTargets 12,
         .clear .Blocked_NoMSHRs 20, .clear .Blocked_NoTargets 30]).map BaseCache.log
        = .ok [Effect.setBlocked Side.cpu, Effect.clearBlocked Side.cpu] ∧
      ((∃ s1, (BaseCache.wired idlePort idlePort).setBlocked .Blocked_NoMSHRs 10 = .ok s1) ∧
        (∃ s1, (BaseCache.wired idlePort idlePort).clearBlocked .Blocked_NoMSHRs 10
          = .ok s1) ∧
        (∃ s1, (BaseCache.wired idlePort idlePort).setBlockedForSnoop .Blocked_NoMSHRs
          = .ok s1)) :=
  ⟨by rfl, by rfl, by rfl,
    (transition_only_notification (BaseCache.wired idlePort idlePort) .Blocked_NoMSHRs
      10).2.2.2.2.2 idlePort idlePort rfl rfl⟩

/-! ## Transmit lists -/

theorem update_port (s : BaseCache) (side : Side) (port : CachePort) (event : Option Int)
    (effects : List Effect) :
    (s.update side port event effects).port side = some port ∧
      (s.update side port event effects).event side = event ∧
      (s.update side port event effects).log = s.log ++ effects := by
  cases side <;> exact ⟨rfl, rfl, rfl⟩

/-- Where the search loop puts the entry when some entry of the list is later
than `time`: behind the entries it passed, none of which is later than `time`,
and in front of the first later one. -/
theorem placeLoop_spec (time : Int) (pkt : Packet) (atBegin : Bool) (l : List Entry)
    (hex : ∃ e ∈ l, time < e.1) :
    ∃ l1 l2, l = l1 ++ l2 ∧ (placeLoop time pkt atBegin l).1 = l1 ++ (time, pkt) :: l2 ∧
      (∀ x ∈ l1, x.1 ≤ time) ∧ (∀ y, l2.head? = some y → time < y.1) ∧ l2 ≠ [] ∧
      (placeLoop time pkt atBegin l).2 = (atBegin && decide (l1 = [])) := by
  induction l generalizing atBegin with
  | nil =>
    obtain ⟨e, he, _⟩ := hex
    simp at he
  | cons e rest ih =>
    by_cases hlt : time < e.1
    · refine ⟨[], e :: rest, rfl, by simp [placeLoop, hlt], by simp, ?_, by simp, ?_⟩
      · intro y hy
        simp only [List.head?_cons, Option.some.injEq] at hy
        rw [← hy]; exact hlt
      · simp [placeLoop, hlt]
    · have hex2 : ∃ e2 ∈ rest, time < e2.1 := by
        obtain ⟨e2, he2, hlt2⟩ := hex
        rcases List.mem_cons.1 he2 with h | h
        · rw [h] at hlt2; exact absurd hlt2 hlt
        · exact ⟨e2, h, hlt2⟩
      obtain ⟨l1, l2, hl, hplaced, hle, hhead, hne, hflag⟩ := ih false hex2
      refine ⟨e :: l1, l2, by rw [hl, List.cons_append], ?_, ?_, hhead, hne, ?_⟩
      · simp only [placeLoop, if_neg hlt, hplaced, List.cons_append]
      · intro x hx
        rcases List.mem_cons.1 hx with h | h
        · rw [h]; exact Int.not_lt.1 hlt
        · exact hle x h
      · simp only [placeLoop, if_neg hlt, hflag]
        simp

/-- What a returning `transmit` did: the entry was put in at one place of the
list of the side; the send event was scheduled for `time` when the list was
empty, rescheduled to `time` when the entry went in front of all others, and
left alone otherwise. -/
theorem transmit_spec (s s1 : BaseCache) (side : Side) (pkt : Packet) (time : Int)
    (h : s.transmit side pkt time = .ok s1) :
    ∃ port l1 l2, s.port side = some port ∧ port.transmitList = l1 ++ l2 ∧
      s1.port side = some { port with transmitList := l1 ++ (time, pkt) :: l2 } ∧
      (l2 ≠ [] → ∀ x ∈ l1, x.1 ≤ time) ∧
      (∀ y, l2.head? = some y → time < y.1) ∧
      (l2 = [] → ∀ y, l1.getLast? = some y → y.1 ≤ time) ∧
      s1.event side = (if l1 = [] then some time else s.event side) ∧
      s1.log = s.log ++
        (if port.transmitList = [] then [Effect.schedule side time]
          else if l1 = [] then [Effect.reschedule side time] else []) ∧
      (port.transmitList = [] → s.event side = none) := by
  simp only [BaseCache.transmit] at h
  split at h
  · cases h
  · next port hport =>
    split at h
    · next hnil =>
      split at h
      · cases h
      · next hev =>
        simp only [Except.ok.injEq] at h
        obtain ⟨u1, u2, u3⟩ := update_port s side { port with transmitList := [(time, pkt)] }
          (some time) [Effect.schedule side time]
        rw [h] at u1 u2 u3
        refine ⟨port, [], [], hport, by rw [hnil]; rfl, u1, ?_, ?_, ?_, ?_, ?_, ?_⟩
        · intro hne; exact absurd rfl hne
        · intro y hy; simp at hy
        · intro _ y hy; simp at hy
        · rw [u2]; simp
        · rw [u3, if_pos hnil]
        · intro _
          cases hs : s.event side with
          | none => rfl
          | some v => rw [hs] at hev; simp at hev
    · next first rest hcons =>
      split at h
      · next hge =>
        simp only [Except.ok.injEq] at h
        obtain ⟨u1, u2, u3⟩ := update_port s side
          { port with transmitList := first :: rest ++ [(time, pkt)] } (s.event side) []
        rw [h] at u1 u2 u3
        have hne : port.transmitList ≠ [] := by rw [hcons]; exact List.cons_ne_nil _ _
        refine ⟨port, first :: rest, [], hport, by rw [hcons, List.append_nil], u1, ?_, ?_, ?_,
          ?_, ?_, ?_⟩
        · intro hne2; exact absurd rfl hne2
        · intro y hy; simp at hy
        · intro _ y hy
          rw [List.getLast?_eq_getLast _ (List.cons_ne_nil first rest)] at hy
          simp only [Option.some.injEq] at hy
          rw [← hy]
          exact hge
        · rw [u2, if_neg (List.cons_ne_nil first rest)]
        · rw [u3, if_neg hne, if_neg (List.cons_ne_nil first rest)]
        · intro hnil; exact absurd hnil hne
      · next hlt =>
        simp only [Except.ok.injEq] at h
        have hex : ∃ e ∈ first :: rest, time < e.1 :=
          ⟨(first :: rest).getLast (List.cons_ne_nil first rest), List.getLast_mem _,
            Int.not_le.1 hlt⟩
        obtain ⟨l1, l2, hl, hplaced, hle, hhead, hne2, hflag⟩ :=
          placeLoop_spec time pkt true (first :: rest) hex
        obtain ⟨u1, u2, u3⟩ := update_port s side
          { port with transmitList := (placeLoop time pkt true (first :: rest)).1 }
          (if (placeLoop time pkt true (first :: rest)).2 then some time else s.event side)
          (if (placeLoop time pkt true (first :: rest)).2 then [Effect.reschedule side time]
            else [])
        rw [h] at u1 u2 u3
        have hne : port.transmitList ≠ [] := by rw [hcons]; exact List.cons_ne_nil _ _
        have hflag2 : (placeLoop time pkt true (first :: rest)).2 = decide (l1 = []) := by
          rw [hflag]; simp
        refine ⟨port, l1, l2, hport, by rw [hcons, hl], by rw [u1, hplaced], fun _ => hle,
          hhead, fun hnil => absurd hnil hne2, ?_, ?_, fun hnil => absurd hnil hne⟩
        · rw [u2, hflag2]
          by_cases hl1 : l1 = [] <;> simp [hl1]
        · rw [u3, hflag2, if_neg hne]
          by_cases hl1 : l1 = [] <;> simp [hl1]

/-- When `transmit` returns. -/
theorem transmit_returns (s : BaseCache) (side : Side) (pkt : Packet) (time : Int)
    (port : CachePort) (hport : s.port side = some port)
    (hev : port.transmitList = [] → s.event side = none) :
    ∃ s1, s.transmit side pkt time = .ok s1 := by
  simp only [BaseCache.transmit, hport]
  cases hl : port.transmitList with
  | nil =>
    simp only [hev hl, Option.isSome_none, Bool.false_eq_true, if_false]
    exact ⟨_, rfl⟩
  | cons first rest =>
    simp only
    split
    · exact ⟨_, rfl⟩
    · exact ⟨_, rfl⟩

theorem sorted_le_last (l : List Entry) (hs : TickSorted l) (y : Entry)
    (hy : l.getLast? = some y) : ∀ x ∈ l, x.1 ≤ y.1 := by
  have hsplit : l.dropLast ++ [y] = l := List.dropLast_append_getLast? y (by rw [hy]; rfl)
  intro x hx
  rw [← hsplit] at hx hs
  rcases List.mem_append.1 hx with h | h
  · exact (List.pairwise_append.1 hs).2.2 x h y (List.mem_singleton_self y)
  · rw [List.mem_singleton.1 h]

theorem sorted_head_le (l : List Entry) (hs : TickSorted l) (y : Entry)
    (hy : l.head? = some y) : ∀ x ∈ l, y.1 ≤ x.1 := by
  cases l with
  | nil => simp at hy
  | cons a t =>
    simp only [List.head?_cons, Option.some.injEq] at hy
    subst hy
    intro x hx
    rcases List.mem_cons.1 hx with h | h
    · rw [h]
    · exact List.rel_of_pairwise_cons hs h

/-- A returning `transmit` turns a sorted list into a sorted list with the new
entry put in. -/
theorem transmit_sorted (s s1 : BaseCache) (side : Side) (pkt : Packet) (time : Int)
    (h : s.transmit side pkt time = .ok s1) :
    ∃ l1 l2, s.transmitList side = l1 ++ l2 ∧
      s1.transmitList side = l1 ++ (time, pkt) :: l2 ∧
      (TickSorted (s.transmitList side) → TickSorted (s1.transmitList side)) := by
  obtain ⟨port, l1, l2, hport, hlist, hport1, hle, hhead, hlast, _, _, _⟩ :=
    transmit_spec s s1 side pkt time h
  have e0 : s.transmitList side = l1 ++ l2 := by
    simp only [BaseCache.transmitList, hport, hlist]
  have e1 : s1.transmitList side = l1 ++ (time, pkt) :: l2 := by
    simp only [BaseCache.transmitList, hport1]
  refine ⟨l1, l2, e0, e1, ?_⟩
  rw [e0, e1]
  intro hs
  obtain ⟨hs1, hs2, hs12⟩ := List.pairwise_append.1 hs
  have hbefore : ∀ x ∈ l1, x.1 ≤ time := by
    by_cases hnil : l2 = []
    · intro x hx
      cases hg : l1.getLast? with
      | none =>
        rw [List.getLast?_eq_none_iff] at hg
        rw [hg] at hx
        simp at hx
      | some y => exact Int.le_trans (sorted_le_last l1 hs1 y hg x hx) (hlast hnil y hg)
    · exact hle hnil
  have hafter : ∀ x ∈ l2, time ≤ x.1 := by
    intro x hx
    cases hh : l2.head? with
    | none =>
      rw [List.head?_eq_none_iff] at hh
      rw [hh] at hx
      simp at hx
    | some y =>
      exact Int.le_trans (Int.le_of_lt (hhead y hh)) (sorted_head_le l2 hs2 y hh x hx)
  refine List.pairwise_append.2 ⟨hs1, List.pairwise_cons.2 ⟨hafter, hs2⟩, ?_⟩
  intro x hx y hy
  rcases List.mem_cons.1 hy with h | h
  · rw [h]; exact hbefore x hx
  · exact hs12 x hx y h

theorem respond_transmit (s : BaseCache) (pkt : Packet) (time curTick : Int)
    (hneeds : pkt.needsResponse = true) :
    s.respond pkt time curTick =
      if time < curTick then .error .timeInPast else s.transmit .cpu pkt time := by
  simp only [BaseCache.respond, hneeds, if_true]

/-- The state on which `respondToMiss` queues the response: the cache with the
miss latency accrued. -/
theorem respondToMiss_transmit (s : BaseCache) (pkt : Packet) (time curTick : Int)
    (hneeds : pkt.needsResponse = true) :
    ∃ s0 : BaseCache, s0.cpuSidePort = s.cpuSidePort ∧ s0.memSidePort = s.memSidePort ∧
      s0.sendEvent = s.sendEvent ∧ s0.memSendEvent = s.memSendEvent ∧ s0.log = s.log ∧
      s.respondToMiss pkt time curTick =
        if time < curTick then .error .timeInPast else s0.transmit .cpu pkt time := by
  by_cases hu : pkt.uncacheable = true
  · exact ⟨s, rfl, rfl, rfl, rfl, rfl, by simp [BaseCache.respondToMiss, hneeds, hu]⟩
  · exact ⟨{ s with
        missLatency := Function.update s.missLatency pkt.cmdIndex
          (s.missLatency pkt.cmdIndex + (time - pkt.time)) },
      rfl, rfl, rfl, rfl, rfl, by simp only [BaseCache.respondToMiss, hneeds, hu,
        if_true, Bool.false_eq_true, not_false_eq_true]⟩

theorem respondToSnoop_transmit (s : BaseCache) (pkt : Packet) (time curTick : Int)
    (hneeds : pkt.needsResponse = true) :
    s.respondToSnoop pkt time curTick =
      if time < curTick then .error .timeInPast else s.transmit .mem pkt time := by
  simp only [BaseCache.respondToSnoop, hneeds, not_true_eq_false, if_false]

/-- C18: time-ordered transmit sequence.  Whenever `respond` or `respondToMiss`
(cpu-side list) or `respondToSnoop` (memory-side list) returns for a packet that
needs a response and a tick `time`, the list afterwards consists of exactly the
previous entries, in their previous order, plus the one new entry
(`time`, `pkt`), and it is sorted in non-decreasing tick order when the list
before was.  The calls return when `time` is not before the current tick, the
port exists and the send event is not scheduled while the list is empty. -/
theorem transmit_list_stays_sorted (s : BaseCache) (pkt : Packet) (time curTick : Int)
    (hneeds : pkt.needsResponse = true) :
    (∀ s1, s.respond pkt time curTick = .ok s1 →
      ∃ l1 l2, s.transmitList .cpu = l1 ++ l2 ∧
        s1.transmitList .cpu = l1 ++ (time, pkt) :: l2 ∧
        (TickSorted (s.transmitList .cpu) → TickSorted (s1.transmitList .cpu))) ∧
    (∀ s1, s.respondToMiss pkt time curTick = .ok s1 →
      ∃ l1 l2, s.transmitList .cpu = l1 ++ l2 ∧
        s1.transmitList .cpu = l1 ++ (time, pkt) :: l2 ∧
        (TickSorted (s.transmitList .cpu) → TickSorted (s1.transmitList .cpu))) ∧
    (∀ s1, s.respondToSnoop pkt time curTick = .ok s1 →
      ∃ l1 l2, s.transmitList .mem = l1 ++ l2 ∧
        s1.transmitList .mem = l1 ++ (time, pkt) :: l2 ∧
        (TickSorted (s.transmitList .mem) → TickSorted (s1.transmitList .mem))) ∧
    (curTick ≤ time →
      (∀ port, s.cpuSidePort = some port →
        (port.transmitList = [] → s.sendEvent = none) →
        (∃ s1, s.respond pkt time curTick = .ok s1) ∧
        (∃ s1, s.respondToMiss pkt time curTick = .ok s1)) ∧
      (∀ port, s.memSidePort = some port →
        (port.transmitList = [] → s.memSendEvent = none) →
        ∃ s1, s.respondToSnoop pkt time curTick = .ok s1)) := by
  refine ⟨?_, ?_, ?_, ?_⟩
  · intro s1 h
    rw [respond_transmit s pkt time curTick hneeds] at h
    split at h
    · cases h
    · exact transmit_sorted s s1 .cpu pkt time h
  · intro s1 h
    obtain ⟨s0, hp, _, _, _, _, heq⟩ := respondToMiss_transmit s pkt time curTick hneeds
    rw [heq] at h
    split at h
    · cases h
    · have hlist : s0.transmitList .cpu = s.transmitList .cpu := by
        simp only [BaseCache.transmitList, BaseCache.port, hp]
      rw [← hlist]
      exact transmit_sorted s0 s1 .cpu pkt time h
  · intro s1 h
    rw [respondToSnoop_transmit s pkt time curTick hneeds] at h
    split at h
    · cases h
    · exact transmit_sorted s s1 .mem pkt time h
  · intro htime
    have hnot : ¬ time < curTick := Int.not_lt.2 htime
    refine ⟨fun port hport hev => ⟨?_, ?_⟩, fun port hport hev => ?_⟩
    · rw [respond_transmit s pkt time curTick hneeds, if_neg hnot]
      exact transmit_returns s .cpu pkt time port hport hev
    · obtain ⟨s0, hp, _, he, _, _, heq⟩ := respondToMiss_transmit s pkt time curTick hneeds
      rw [heq, if_neg hnot]
      exact transmit_returns s0 .cpu pkt time port (by simp only [BaseCache.port, hp, hport])
        (fun hl => by simp only [BaseCache.event, he]; exact hev hl)
    · rw [respondToSnoop_transmit s pkt time curTick hneeds, if_neg hnot]
      exact transmit_returns s .mem pkt time port hport hev

/-- C18, scenario: a response for tick 40 goes between the entries for ticks 30
and 50 of the cpu-side list; a snoop response for tick 20 goes in front of the
entry for tick 30 of the memory-side list. -/
theorem transmit_list_stays_sorted_witness :
    (BaseCache.respond
        { BaseCache.fresh with
          cpuSidePort := some { idlePort with
            transmitList := [(30, response 2), (50, response 1)] },
          sendEvent := some 30 }
        (response 3) 40 0).map (fun s => s.transmitList .cpu)
      = .ok [(30, response 2), (40, response 3), (50, response 1)] ∧
    (BaseCache.respondToSnoop
        { BaseCache.fresh with
          memSidePort := some { idlePort with transmitList := [(30, response 2)] },
          memSendEvent := some 30 }
        (response 3) 20 0).map (fun s => s.transmitList .mem)
      = .ok [(20, response 3), (30, response 2)] ∧
    (∃ s1, BaseCache.respond
        { BaseCache.fresh with
          cpuSidePort := some { idlePort with
            transmitList := [(30, response 2), (50, response 1)] },
          sendEvent := some 30 }
        (response 3) 40 0 = .ok s1) :=
  ⟨by rfl, by rfl,
    ((transmit_list_stays_sorted
      { BaseCache.fresh with
        cpuSidePort := some { idlePort with
          transmitList := [(30, response 2), (50, response 1)] },
        sendEvent := some 30 }
      (response 3) 40 0 rfl).2.2.2 (by decide)).1 _ rfl (fun h => by cases h) |>.1⟩

theorem transmit_not_eventScheduled (s : BaseCache) (side : Side) (pkt : Packet)
    (time : Int) (hinv : TracksFront (s.event side) (s.transmitList side)) :
    s.transmit side pkt time ≠ .error .eventScheduled := by
  intro h
  simp only [BaseCache.transmit] at h
  split at h
  · cases h
  · next port hport =>
    simp only [TracksFront, BaseCache.transmitList, hport] at hinv
    split at h
    · next hnil =>
      rw [hnil] at hinv
      simp only [List.head?_nil, Option.map] at hinv
      rw [hinv] at h
      simp at h
    · split at h <;> cases h

/-- C19: the wake-up tracks the front of the transmit list.  If before a call of
`respond` (packet needs a response) the cpu-side list is empty and `sendEvent`
is not scheduled, or the list is not empty and `sendEvent` is scheduled for the
tick of its front entry, then the assertion of the empty case does not fail,
and when the call returns `sendEvent` is scheduled for the tick of the new
front entry; the event is scheduled for the new tick (`schedule` into an empty
list, `reschedule` otherwise) exactly when the new entry becomes the front and
is left alone otherwise.  The call returns when `time` is not before the
current tick and the port exists. -/
theorem wakeup_tracks_front (s : BaseCache) (pkt : Packet) (time curTick : Int)
    (hneeds : pkt.needsResponse = true)
    (hinv : TracksFront s.sendEvent (s.transmitList .cpu)) :
    s.respond pkt time curTick ≠ .error .eventScheduled ∧
    (∀ s1, s.respond pkt time curTick = .ok s1 →
      TracksFront s1.sendEvent (s1.transmitList .cpu) ∧
      ∃ l1 l2, s.transmitList .cpu = l1 ++ l2 ∧
        s1.transmitList .cpu = l1 ++ (time, pkt) :: l2 ∧
        (l1 = [] → s1.sendEvent = some time) ∧
        (l1 ≠ [] → s1.sendEvent = s.sendEvent) ∧
        s1.log = s.log ++
          (if s.transmitList .cpu = [] then [Effect.schedule .cpu time]
            else if l1 = [] then [Effect.reschedule .cpu time] else [])) ∧
    (curTick ≤ time → ∀ port, s.cpuSidePort = some port →
      ∃ s1, s.respond pkt time curTick = .ok s1) := by
  rw [respond_transmit s pkt time curTick hneeds]
  refine ⟨?_, ?_, ?_⟩
  · split
    · simp
    · exact transmit_not_eventScheduled s .cpu pkt time hinv
  · intro s1 h
    split at h
    · cases h
    · obtain ⟨port, l1, l2, hport, hlist, hport1, _, _, _, hev, hlog, _⟩ :=
        transmit_spec s s1 .cpu pkt time h
      have e0 : s.transmitList .cpu = l1 ++ l2 := by
        simp only [BaseCache.transmitList, hport, hlist]
      have e1 : s1.transmitList .cpu = l1 ++ (time, pkt) :: l2 := by
        simp only [BaseCache.transmitList, hport1]
      have hev1 : s1.sendEvent = if l1 = [] then some time else s.sendEvent := hev
      have hinv0 : s.sendEvent = (l1 ++ l2).head?.map Prod.fst := by
        rw [← e0]; exact hinv
      refine ⟨?_, l1, l2, e0, e1, fun h1 => by rw [hev1, if_pos h1],
        fun h1 => by rw [hev1, if_neg h1], ?_⟩
      · simp only [TracksFront, e1, hev1]
        cases l1 with
        | nil => simp
        | cons a t =>
          rw [if_neg (List.cons_ne_nil a t), hinv0]
          simp
      · rw [hlog, e0, hlist]
  · intro htime port hport
    rw [if_neg (Int.not_lt.2 htime)]
    refine transmit_returns s .cpu pkt time port hport (fun hl => ?_)
    have : s.transmitList .cpu = [] := by
      simp only [BaseCache.transmitList, BaseCache.port, hport, hl]
    rw [this] at hinv
    exact hinv

/-- C19, scenario: responses for the ticks 50, 30 and 40 into an empty list give
the list 30, 40, 50, with the wake-up at 50 after the first call and at 30
after the second and after the third. -/
theorem wakeup_tracks_front_witness :
    ((BaseCache.wired idlePort idlePort).respond (response 1) 50 0).map
        (fun s => (s.transmitList .cpu, s.sendEvent))
      = .ok ([(50, response 1)], some 50) ∧
    (((BaseCache.wired idlePort idlePort).respond (response 1) 50 0).bind
        (fun s => s.respond (response 2) 30 0)).map
        (fun s => (s.transmitList .cpu, s.sendEvent))
      = .ok ([(30, response 2), (50, response 1)], some 30) ∧
    ((((BaseCache.wired idlePort idlePort).respond (response 1) 50 0).bind
        (fun s => s.respond (response 2) 30 0)).bind
        (fun s => s.respond (response 3) 40 0)).map
        (fun s => (s.transmitList .cpu, s.sendEvent, s.log))
      = .ok ([(30, response 2), (40, response 3), (50, response 1)], some 30,
          [Effect.schedule .cpu 50, Effect.reschedule .cpu 30]) ∧
    (BaseCache.wired idlePort idlePort).respond (response 1) 50 0
      ≠ .error .eventScheduled :=
  ⟨by rfl, by rfl, by rfl,
    (wakeup_tracks_front (BaseCache.wired idlePort idlePort) (response 1) 50 0 rfl rfl).1⟩

/-! ## Bus requests -/

theorem setBits_flag_ne_zero (m c : Nat) (hc : c < 8) : setBits m (flagOf c) ≠ 0 := by
  intro h
  have hb : (setBits m (flagOf c)).testBit c = true := by
    rw [setBits_testBit, flagOf_testBit c c hc]
    simp [hc]
  rw [h, Nat.zero_testBit] at hb
  cases hb

/-- What a returning `setMasterRequest` did. -/
theorem setMasterRequest_spec (s s1 : BaseCache) (cause : RequestCause) (time : Int)
    (h : s.setMasterRequest cause time = .ok s1) :
    s1.masterRequests = setBits s.masterRequests (flagOf cause.toNat) ∧
    s1.slaveRequests = s.slaveRequests ∧
    s1.cpuSidePort = s.cpuSidePort ∧ s1.memSidePort = s.memSidePort ∧
    s1.log = s.log ++
      (if s.masterRequests = 0 ∧ s.memSidePort.map CachePort.waitingOnRetry = some false
        then [Effect.requestEvent Side.mem time] else []) := by
  by_cases h0 : s.masterRequests = 0
  · simp only [BaseCache.setMasterRequest, BaseCache.doMasterRequest, h0, ne_eq,
      not_true_eq_false, decide_False, Bool.false_eq_true, not_false_eq_true, if_true] at h
    cases hport : s.memSidePort with
    | none => rw [hport] at h; cases h
    | some port =>
      rw [hport] at h
      cases hw : port.waitingOnRetry with
      | true =>
        simp only [hw, not_true_eq_false, if_false, Except.ok.injEq] at h
        rw [← h]
        simp [h0, hport, hw]
      | false =>
        simp only [hw, Bool.false_eq_true, not_false_eq_true, if_true, Except.ok.injEq] at h
        rw [← h]
        simp [h0, hport, hw]
  · simp only [BaseCache.setMasterRequest, BaseCache.doMasterRequest, h0, ne_eq,
      not_false_eq_true, decide_True, not_true_eq_false, if_false, Except.ok.injEq] at h
    rw [← h]
    simp [h0]

/-- What a returning `setSlaveRequest` did. -/
theorem setSlaveRequest_spec (s s1 : BaseCache) (cause : RequestCause) (time : Int)
    (h : s.setSlaveRequest cause time = .ok s1) :
    s1.slaveRequests = setBits s.slaveRequests (flagOf cause.toNat) ∧
    s1.masterRequests = s.masterRequests ∧
    s1.cpuSidePort = s.cpuSidePort ∧ s1.memSidePort = s.memSidePort ∧
    s1.log = s.log ++
      (if s.slaveRequests = 0 ∧ s.cpuSidePort.map CachePort.waitingOnRetry = some false
        then [Effect.requestEvent Side.cpu time] else []) := by
  by_cases h0 : s.slaveRequests = 0
  · simp only [BaseCache.setSlaveRequest, BaseCache.doSlaveRequest, h0, ne_eq,
      not_true_eq_false, decide_False, Bool.false_eq_true, not_false_eq_true, if_true] at h
    cases hport : s.cpuSidePort with
    | none => rw [hport] at h; cases h
    | some port =>
      rw [hport] at h
      cases hw : port.waitingOnRetry with
      | true =>
        simp only [hw, not_true_eq_false, if_false, Except.ok.injEq] at h
        rw [← h]
        simp [h0, hport, hw]
      | false =>
        simp only [hw, Bool.false_eq_true, not_false_eq_true, if_true, Except.ok.injEq] at h
        rw [← h]
        simp [h0, hport, hw]
  · simp only [BaseCache.setSlaveRequest, BaseCache.doSlaveRequest, h0, ne_eq,
      not_false_eq_true, decide_True, not_true_eq_false, if_false, Except.ok.injEq] at h
    rw [← h]
    simp [h0]

theorem setMasterRequest_returns (s : BaseCache) (cause : RequestCause) (time : Int)
    (port : CachePort) (hport : s.memSidePort = some port) :
    ∃ s1, s.setMasterRequest cause time = .ok s1 := by
  simp only [BaseCache.setMasterRequest, hport]
  split
  · split
    · exact ⟨_, rfl⟩
    · exact ⟨_, rfl⟩
  · exact ⟨_, rfl⟩

theorem setSlaveRequest_returns (s : BaseCache) (cause : RequestCause) (time : Int)
    (port : CachePort) (hport : s.cpuSidePort = some port) :
    ∃ s1, s.setSlaveRequest cause time = .ok s1 := by
  simp only [BaseCache.setSlaveRequest, hport]
  split
  · split
    · exact ⟨_, rfl⟩
    · exact ⟨_, rfl⟩
  · exact ⟨_, rfl⟩

/-- A run of `setMasterRequest` calls on a cache with pending master requests
records nothing. -/
theorem runMasterSets_pending (calls : List (RequestCause × Int)) (s s1 : BaseCache)
    (hne : s.masterRequests ≠ 0) (h : runMasterSets s calls = .ok s1) : s1.log = s.log := by
  induction calls generalizing s with
  | nil =>
    simp only [runMasterSets, Except.ok.injEq] at h
    rw [h]
  | cons call rest ih =>
    simp only [runMasterSets] at h
    split at h
    · cases h
    · next s2 h2 =>
      obtain ⟨hm, _, _, _, hlog⟩ := setMasterRequest_spec s s2 call.1 call.2 h2
      have hc : call.1.toNat < 8 := Nat.lt_of_lt_of_le (requestCause_lt call.1) (by decide)
      have hne2 : s2.masterRequests ≠ 0 := by
        rw [hm]; exact setBits_flag_ne_zero _ _ hc
      rw [ih s2 hne2 h, hlog, if_neg (fun hc2 => hne hc2.1), List.append_nil]

/-- A run of `setSlaveRequest` calls on a cache with pending slave requests
records nothing. -/
theorem runSlaveSets_pending (calls : List (RequestCause × Int)) (s s1 : BaseCache)
    (hne : s.slaveRequests ≠ 0) (h : runSlaveSets s calls = .ok s1) : s1.log = s.log := by
  induction calls generalizing s with
  | nil =>
    simp only [runSlaveSets, Except.ok.injEq] at h
    rw [h]
  | cons call rest ih =>
    simp only [runSlaveSets] at h
    split at h
    · cases h
    · next s2 h2 =>
      obtain ⟨hm, _, _, _, hlog⟩ := setSlaveRequest_spec s s2 call.1 call.2 h2
      have hc : call.1.toNat < 8 := Nat.lt_of_lt_of_le (requestCause_lt call.1) (by decide)
      have hne2 : s2.slaveRequests ≠ 0 := by
        rw [hm]; exact setBits_flag_ne_zero _ _ hc
      rw [ih s2 hne2 h, hlog, if_neg (fun hc2 => hne hc2.1), List.append_nil]

/-- A run of `setMasterRequest` calls records at most one effect. -/
theorem runMasterSets_log (calls : List (RequestCause × Int)) (s s1 : BaseCache)
    (h : runMasterSets s calls = .ok s1) :
    ∃ added : List Effect, s1.log = s.log ++ added ∧ added.length ≤ 1 := by
  cases calls with
  | nil =>
    simp only [runMasterSets, Except.ok.injEq] at h
    exact ⟨[], by rw [h, List.append_nil], by simp⟩
  | cons call rest =>
    simp only [runMasterSets] at h
    split at h
    · cases h
    · next s2 h2 =>
      obtain ⟨hm, _, _, _, hlog⟩ := setMasterRequest_spec s s2 call.1 call.2 h2
      have hc : call.1.toNat < 8 := Nat.lt_of_lt_of_le (requestCause_lt call.1) (by decide)
      have hne2 : s2.masterRequests ≠ 0 := by
        rw [hm]; exact setBits_flag_ne_zero _ _ hc
      refine ⟨_, by rw [runMasterSets_pending rest s2 s1 hne2 h, hlog], ?_⟩
      split <;> simp

/-- A run of `setSlaveRequest` calls records at most one effect. -/
theorem runSlaveSets_log (calls : List (RequestCause × Int)) (s s1 : BaseCache)
    (h : runSlaveSets s calls = .ok s1) :
    ∃ added : List Effect, s1.log = s.log ++ added ∧ added.length ≤ 1 := by
  cases calls with
  | nil =>
    simp only [runSlaveSets, Except.ok.injEq] at h
    exact ⟨[], by rw [h, List.append_nil], by simp⟩
  | cons call rest =>
    simp only [runSlaveSets] at h
    split at h
    · cases h
    · next s2 h2 =>
      obtain ⟨hm, _, _, _, hlog⟩ := setSlaveRequest_spec s s2 call.1 call.2 h2
      have hc : call.1.toNat < 8 := Nat.lt_of_lt_of_le (requestCause_lt call.1) (by decide)
      have hne2 : s2.slaveRequests ≠ 0 := by
        rw [hm]; exact setBits_flag_ne_zero _ _ hc
      refine ⟨_, by rw [runSlaveSets_pending rest s2 s1 hne2 h, hlog], ?_⟩
      split <;> simp

theorem requestsOf_length_le (side : Side) (log : List Effect) :
    (requestsOf side log).length ≤ log.length := List.length_filter_le _ _

/-- C20: bus-request pacing.  `setMasterRequest(cause, time)` schedules a new
wake-up event (at tick `time`, for the memory-side port) exactly when
`masterRequests` was zero before the call and `memSidePort` is not waiting on a
retry; in every case the bit of `cause` is set afterwards and the other bits of
the vector are unchanged.  `setSlaveRequest` does the same on `slaveRequests`
and `cpuSidePort`.  Hence a run of set calls with no clear in between schedules
at most one event.  The calls return when the port exists. -/
theorem request_pacing (s : BaseCache) (cause : RequestCause) (time : Int) :
    (∀ s1, s.setMasterRequest cause time = .ok s1 →
      s1.log = s.log ++
        (if s.masterRequests = 0 ∧ s.memSidePort.map CachePort.waitingOnRetry = some false
          then [Effect.requestEvent Side.mem time] else []) ∧
      s1.masterRequests.testBit cause.toNat = true ∧
      (∀ i, i < 8 → i ≠ cause.toNat →
        s1.masterRequests.testBit i = s.masterRequests.testBit i) ∧
      s1.slaveRequests = s.slaveRequests) ∧
    (∀ s1, s.setSlaveRequest cause time = .ok s1 →
      s1.log = s.log ++
        (if s.slaveRequests = 0 ∧ s.cpuSidePort.map CachePort.waitingOnRetry = some false
          then [Effect.requestEvent Side.cpu time] else []) ∧
      s1.slaveRequests.testBit cause.toNat = true ∧
      (∀ i, i < 8 → i ≠ cause.toNat →
        s1.slaveRequests.testBit i = s.slaveRequests.testBit i) ∧
      s1.masterRequests = s.masterRequests) ∧
    (∀ calls s1, runMasterSets s calls = .ok s1 →
      ∃ added, s1.log = s.log ++ added ∧ added.length ≤ 1 ∧
        (requestsOf Side.mem added).length ≤ 1) ∧
    (∀ calls s1, runSlaveSets s calls = .ok s1 →
      ∃ added, s1.log = s.log ++ added ∧ added.length ≤ 1 ∧
        (requestsOf Side.cpu added).length ≤ 1) ∧
    (∀ port, s.memSidePort = some port → ∃ s1, s.setMasterRequest cause time = .ok s1) ∧
    (∀ port, s.cpuSidePort = some port → ∃ s1, s.setSlaveRequest cause time = .ok s1) := by
  have hc : cause.toNat < 8 := Nat.lt_of_lt_of_le (requestCause_lt cause) (by decide)
  have hbits : ∀ m i, i < 8 → i ≠ cause.toNat →
      (setBits m (flagOf cause.toNat)).testBit i = m.testBit i := by
    intro m i hi hne
    rw [setBits_testBit, flagOf_testBit cause.toNat i hc]
    have : ¬ cause.toNat = i := fun h => hne h.symm
    simp [hi, this]
  have hset : ∀ m, (setBits m (flagOf cause.toNat)).testBit cause.toNat = true := by
    intro m
    rw [setBits_testBit, flagOf_testBit cause.toNat cause.toNat hc]
    simp [hc]
  refine ⟨?_, ?_, ?_, ?_, ?_, ?_⟩
  · intro s1 h
    obtain ⟨hm, hs, _, _, hlog⟩ := setMasterRequest_spec s s1 cause time h
    exact ⟨hlog, by rw [hm]; exact hset _, fun i hi hne => by rw [hm]; exact hbits _ i hi hne,
      hs⟩
  · intro s1 h
    obtain ⟨hm, hs, _, _, hlog⟩ := setSlaveRequest_spec s s1 cause time h
    exact ⟨hlog, by rw [hm]; exact hset _, fun i hi hne => by rw [hm]; exact hbits _ i hi hne,
      hs⟩
  · intro calls s1 h
    obtain ⟨added, hlog, hlen⟩ := runMasterSets_log calls s s1 h
    exact ⟨added, hlog, hlen, Nat.le_trans (requestsOf_length_le _ _) hlen⟩
  · intro calls s1 h
    obtain ⟨added, hlog, hlen⟩ := runSlaveSets_log calls s s1 h
    exact ⟨added, hlog, hlen, Nat.le_trans (requestsOf_length_le _ _) hlen⟩
  · intro port hport
    exact setMasterRequest_returns s cause time port hport
  · intro port hport
    exact setSlaveRequest_returns s cause time port hport

/-- C20, scenario: on a cache with idle ports the first `setMasterRequest`
schedules one event, two further ones only set their bits; with the memory-side
port waiting on a retry nothing is scheduled. -/
theorem request_pacing_witness :
    (runMasterSets (BaseCache.wired idlePort idlePort)
        [(.Request_MSHR, 100), (.Request_WB, 120), (.Request_MSHR, 130)]).map
        (fun s => (s.log, s.masterRequests))
      = .ok ([Effect.requestEvent Side.mem 100], 3) ∧
    (runMasterSets (BaseCache.wired idlePort { idlePort with waitingOnRetry := true })
        [(.Request_PF, 100)]).map (fun s => (s.log, s.masterRequests))
      = .ok ([], 8) ∧
    (runSlaveSets (BaseCache.wired idlePort idlePort)
        [(.Request_Coherence, 7), (.Request_WB, 9)]).map
        (fun s => (s.log, s.slaveRequests))
      = .ok ([Effect.requestEvent Side.cpu 7], 6) ∧
    (∃ s1, (BaseCache.wired idlePort idlePort).setMasterRequest .Request_MSHR 100 = .ok s1) :=
  ⟨by rfl, by rfl, by rfl,
    (request_pacing (BaseCache.wired idlePort idlePort) .Request_MSHR 100).2.2.2.2.1
      idlePort rfl⟩

end Cache

namespace Cache

/-! ## Packets that need no response, and the miss latency -/

theorem discard_spec (s : BaseCache) (pkt : Packet) :
    (s.discard pkt).cpuSidePort = s.cpuSidePort ∧
      (s.discard pkt).memSidePort = s.memSidePort ∧
      (s.discard pkt).sendEvent = s.sendEvent ∧
      (s.discard pkt).memSendEvent = s.memSendEvent ∧
      (s.discard pkt).missLatency = s.missLatency ∧
      (s.discard pkt).log =
        s.log ++ (if pkt.isUpgradeReq then [] else [Effect.deletePacket pkt.id]) := by
  cases hu : pkt.isUpgradeReq <;> simp [BaseCache.discard, hu]

theorem accrue_fields (s : BaseCache) (pkt : Packet) (time : Int) :
    (s.accrue pkt time).cpuSidePort = s.cpuSidePort ∧
      (s.accrue pkt time).memSidePort = s.memSidePort ∧
      (s.accrue pkt time).sendEvent = s.sendEvent ∧
      (s.accrue pkt time).memSendEvent = s.memSendEvent ∧
      (s.accrue pkt time).log = s.log := by
  cases hu : pkt.uncacheable <;> simp [BaseCache.accrue, hu]

theorem accrue_transmitList (s : BaseCache) (pkt : Packet) (time : Int) (side : Side) :
    (s.accrue pkt time).transmitList side = s.transmitList side := by
  obtain ⟨h1, h2, _⟩ := accrue_fields s pkt time
  cases side <;> simp only [BaseCache.transmitList, BaseCache.port, h1, h2]

theorem accrue_missLatency (s : BaseCache) (pkt : Packet) (time : Int) :
    (s.accrue pkt time).missLatency =
      if pkt.uncacheable then s.missLatency
      else Function.update s.missLatency pkt.cmdIndex
        (s.missLatency pkt.cmdIndex + (time - pkt.time)) := by
  cases hu : pkt.uncacheable <;> simp [BaseCache.accrue, hu]

/-- Queueing a response and accruing the statistic do not interfere. -/
theorem transmit_accrue (s : BaseCache) (side : Side) (p : Packet) (t : Int)
    (pkt : Packet) (time : Int) :
    (s.accrue pkt time).transmit side p t =
      match s.transmit side p t with
      | .error f => .error f
      | .ok s1 => .ok (s1.accrue pkt time) := by
  cases hu : pkt.uncacheable with
  | true =>
    simp only [BaseCache.accrue, hu, if_true]
    cases s.transmit side p t <;> rfl
  | false =>
    simp only [BaseCache.accrue, hu, Bool.false_eq_true, if_false]
    cases side
    · simp only [BaseCache.transmit, BaseCache.port, BaseCache.event]
      cases s.cpuSidePort with
      | none => rfl
      | some port =>
        simp only
        cases port.transmitList with
        | nil =>
          simp only
          split <;> rfl
        | cons first rest =>
          simp only
          split <;> rfl
    · simp only [BaseCache.transmit, BaseCache.port, BaseCache.event]
      cases s.memSidePort with
      | none => rfl
      | some port =>
        simp only
        cases port.transmitList with
        | nil =>
          simp only
          split <;> rfl
        | cons first rest =>
          simp only
          split <;> rfl

theorem discard_accrue (s : BaseCache) (p pkt : Packet) (time : Int) :
    (s.accrue pkt time).discard p = (s.discard p).accrue pkt time := by
  cases hu : pkt.uncacheable <;> cases hq : p.isUpgradeReq <;>
    simp [BaseCache.accrue, BaseCache.discard, hu, hq]

/-- `respondToMiss` is `respond` followed by the accrual of the statistic. -/
theorem respondToMiss_eq_spec (s : BaseCache) (pkt : Packet) (time curTick : Int) :
    s.respondToMiss pkt time curTick = respondToMissSpec s pkt time curTick := by
  have hs1 : (if ¬ pkt.uncacheable = true then
        ({ s with
          missLatency := Function.update s.missLatency pkt.cmdIndex
            (s.missLatency pkt.cmdIndex + (time - pkt.time)) } : BaseCache)
      else s) = s.accrue pkt time := by
    cases hu : pkt.uncacheable <;> simp [BaseCache.accrue, hu]
  simp only [BaseCache.respondToMiss, respondToMissSpec, BaseCache.respond, hs1]
  by_cases ht : time < curTick
  · simp only [if_pos ht]
  · simp only [if_neg ht]
    cases hn : pkt.needsResponse with
    | true =>
      simp only [if_true]
      rw [transmit_accrue]
    | false =>
      simp only [Bool.false_eq_true, if_false]
      rw [discard_accrue]

/-- C22, as stated, fails: an upgrade request needs no response and is not
destroyed; `respond` returns with nothing deleted. -/
theorem destroysUnneeded_counterexample :
    ¬ DestroysUnneeded (BaseCache.wired idlePort idlePort) (upgradeReq 7) 10 0 := by
  intro h
  have hbad := (h rfl (BaseCache.wired idlePort idlePort) (by rfl)).2.2
  simp [BaseCache.wired, BaseCache.fresh] at hbad

/-- C22, amended: for a packet that needs no response `respond` and
`respondToMiss` do not queue it: the cpu-side port with its transmit list and
the wake-up event are left unchanged, and the packet together with its request
is destroyed immediately unless its command is `UpgradeReq`, in which case
nothing is destroyed.  The calls return when `time` is not before the current
tick. -/
theorem respond_discards (s : BaseCache) (pkt : Packet) (time curTick : Int)
    (hno : pkt.needsResponse = false) :
    (∀ s1, s.respond pkt time curTick = .ok s1 →
      s1.cpuSidePort = s.cpuSidePort ∧ s1.sendEvent = s.sendEvent ∧
      s1.transmitList .cpu = s.transmitList .cpu ∧
      s1.log = s.log ++ (if pkt.isUpgradeReq then [] else [Effect.deletePacket pkt.id])) ∧
    (∀ s1, s.respondToMiss pkt time curTick = .ok s1 →
      s1.cpuSidePort = s.cpuSidePort ∧ s1.sendEvent = s.sendEvent ∧
      s1.transmitList .cpu = s.transmitList .cpu ∧
      s1.log = s.log ++ (if pkt.isUpgradeReq then [] else [Effect.deletePacket pkt.id])) ∧
    (curTick ≤ time →
      (∃ s1, s.respond pkt time curTick = .ok s1) ∧
      (∃ s1, s.respondToMiss pkt time curTick = .ok s1)) := by
  refine ⟨?_, ?_, ?_⟩
  · intro s1 h
    simp only [BaseCache.respond, hno, Bool.false_eq_true, if_false] at h
    split at h
    · cases h
    · simp only [Except.ok.injEq] at h
      obtain ⟨h1, _, h3, _, _, h6⟩ := discard_spec s pkt
      rw [← h]
      exact ⟨h1, h3, by simp only [BaseCache.transmitList, BaseCache.port, h1], h6⟩
  · intro s1 h
    rw [respondToMiss_eq_spec] at h
    simp only [respondToMissSpec, BaseCache.respond, hno, Bool.false_eq_true, if_false] at h
    split at h
    · cases h
    · next s0 h0 =>
      split at h0
      · cases h0
      · simp only [Except.ok.injEq] at h h0
        obtain ⟨h1, _, h3, _, _, h6⟩ := discard_spec s pkt
        obtain ⟨a1, _, a3, _, a5⟩ := accrue_fields s0 pkt time
        rw [← h, ← h0] at *
        exact ⟨by rw [a1, h1], by rw [a3, h3],
          by rw [accrue_transmitList]; simp only [BaseCache.transmitList, BaseCache.port, h1],
          by rw [a5, h6]⟩
  · intro htime
    have hnot : ¬ time < curTick := Int.not_lt.2 htime
    constructor
    · simp only [BaseCache.respond, hno, Bool.false_eq_true, if_false, if_neg hnot]
      exact ⟨_, rfl⟩
    · rw [respondToMiss_eq_spec]
      simp only [respondToMissSpec, BaseCache.respond, hno, Bool.false_eq_true, if_false,
        if_neg hnot]
      exact ⟨_, rfl⟩

/-- C22, amended, scenario: a packet that needs no response and is no upgrade
request is deleted by `respond`; an upgrade request is not; nothing is
queued. -/
theorem respond_discards_witness :
    ((BaseCache.wired idlePort idlePort).respond (writeback 5) 10 0).map
        (fun s => (s.log, s.transmitList .cpu, s.sendEvent))
      = .ok ([Effect.deletePacket 5], [], none) ∧
    ((BaseCache.wired idlePort idlePort).respond (upgradeReq 7) 10 0).map
        (fun s => (s.log, s.transmitList .cpu, s.sendEvent))
      = .ok ([], [], none) ∧
    (∃ s1, (BaseCache.wired idlePort idlePort).respond (writeback 5) 10 0 = .ok s1) :=
  ⟨by rfl, by rfl,
    ((respond_discards (BaseCache.wired idlePort idlePort) (writeback 5) 10 0 rfl).2.2
      (by decide)).1⟩

/-- C23: `respondToMiss` is equivalent to `respond`.  For every cache state,
packet and tick it is `respond` with the statistic accrued in addition: both
abort in the same cases, and when they return they leave the same ports with
the same transmit lists, the same send events and the same effects (schedule,
reschedule, destruction of the packet); the only difference is that
`respondToMiss` has added `time - pkt.time` to `missLatency` for the packet's
command when the request is not uncacheable, and has left `missLatency`
unchanged when it is uncacheable. -/
theorem respondToMiss_refines_respond (s : BaseCache) (pkt : Packet) (time curTick : Int) :
    s.respondToMiss pkt time curTick = respondToMissSpec s pkt time curTick ∧
    (∀ f, s.respondToMiss pkt time curTick = .error f ↔
      s.respond pkt time curTick = .error f) ∧
    (∀ s1, s.respondToMiss pkt time curTick = .ok s1 →
      ∃ s0, s.respond pkt time curTick = .ok s0 ∧
        s1.cpuSidePort = s0.cpuSidePort ∧ s1.memSidePort = s0.memSidePort ∧
        s1.sendEvent = s0.sendEvent ∧ s1.memSendEvent = s0.memSendEvent ∧
        s1.log = s0.log ∧
        s0.missLatency = s.missLatency ∧
        s1.missLatency =
          (if pkt.uncacheable then s.missLatency
            else Function.update s.missLatency pkt.cmdIndex
              (s.missLatency pkt.cmdIndex + (time - pkt.time)))) ∧
    (∀ s0, s.respond pkt time curTick = .ok s0 →
      ∃ s1, s.respondToMiss pkt time curTick = .ok s1) := by
  have heq := respondToMiss_eq_spec s pkt time curTick
  have hlat : ∀ s0, s.respond pkt time curTick = .ok s0 → s0.missLatency = s.missLatency := by
    intro s0 h0
    simp only [BaseCache.respond] at h0
    split at h0
    · cases h0
    · split at h0
      · obtain ⟨port, l1, l2, hport, _, hport1, _⟩ := transmit_spec s s0 .cpu pkt time h0
        simp only [BaseCache.transmit, hport] at h0
        split at h0
        · split at h0
          · cases h0
          · simp only [Except.ok.injEq] at h0
            rw [← h0]; rfl
        · split at h0
          · simp only [Except.ok.injEq] at h0
            rw [← h0]; rfl
          · simp only [Except.ok.injEq] at h0
            rw [← h0]; rfl
      · simp only [Except.ok.injEq] at h0
        rw [← h0]
        exact (discard_spec s pkt).2.2.2.2.1
  refine ⟨heq, ?_, ?_, ?_⟩
  · intro f
    rw [heq]
    simp only [respondToMissSpec]
    cases s.respond pkt time curTick with
    | error g => simp
    | ok s0 => simp
  · intro s1 h
    rw [heq] at h
    simp only [respondToMissSpec] at h
    cases h0 : s.respond pkt time curTick with
    | error g => rw [h0] at h; cases h
    | ok s0 =>
      rw [h0] at h
      simp only [Except.ok.injEq] at h
      obtain ⟨a1, a2, a3, a4, a5⟩ := accrue_fields s0 pkt time
      refine ⟨s0, rfl, ?_, ?_, ?_, ?_, ?_, hlat s0 h0, ?_⟩
      · rw [← h, a1]
      · rw [← h, a2]
      · rw [← h, a3]
      · rw [← h, a4]
      · rw [← h, a5]
      · rw [← h, accrue_missLatency, hlat s0 h0]
  · intro s0 h0
    rw [heq]
    simp only [respondToMissSpec, h0]
    exact ⟨_, rfl⟩

/-- C23, scenario: a response for tick 30 whose request was made at tick 0 goes
in front of the entry for tick 50 with either function; `respondToMiss` has
added 30 to the miss latency of its command, `respond` nothing. -/
theorem respondToMiss_refines_respond_witness :
    (BaseCache.respondToMiss
        { BaseCache.fresh with
          cpuSidePort := some { idlePort with transmitList := [(50, response 1)] },
          sendEvent := some 50 }
        (response 2) 30 0).map
        (fun s => (s.transmitList .cpu, s.sendEvent, s.log, s.missLatency 0))
      = .ok ([(30, response 2), (50, response 1)], some 30,
          [Effect.reschedule Side.cpu 30], 30) ∧
    (BaseCache.respond
        { BaseCache.fresh with
          cpuSidePort := some { idlePort with transmitList := [(50, response 1)] },
          sendEvent := some 50 }
        (response 2) 30 0).map
        (fun s => (s.transmitList .cpu, s.sendEvent, s.log, s.missLatency 0))
      = .ok ([(30, response 2), (50, response 1)], some 30,
          [Effect.reschedule Side.cpu 30], 0) ∧
    BaseCache.respondToMiss (BaseCache.wired idlePort idlePort) (response 2) 30 0 =
      respondToMissSpec (BaseCache.wired idlePort idlePort) (response 2) 30 0 :=
  ⟨by rfl, by rfl,
    (respondToMiss_refines_respond (BaseCache.wired idlePort idlePort) (response 2) 30 0).1⟩

/-! ## Draining -/

theorem canDrain_port (port : CachePort) :
    port.canDrain = true ↔ port.drainList = [] ∧ port.transmitList = [] := by
  simp [CachePort.canDrain, List.isEmpty_iff]

/-- C24: `canDrain` returns true if and only if `masterRequests` and
`slaveRequests` are both zero and each port that exists (`memSidePort`,
`cpuSidePort`) has an empty `drainList` and an empty `transmitList`.  It is a
function of the state and changes none of it. -/
theorem canDrain_iff (s : BaseCache) :
    s.canDrain = true ↔
      s.masterRequests = 0 ∧ s.slaveRequests = 0 ∧
      (∀ port, s.memSidePort = some port → port.drainList = [] ∧ port.transmitList = []) ∧
      (∀ port, s.cpuSidePort = some port → port.drainList = [] ∧ port.transmitList = []) := by
  have hport : ∀ o : Option CachePort,
      (match o with | some port => !port.canDrain | none => false) = false ↔
        ∀ port, o = some port → port.drainList = [] ∧ port.transmitList = [] := by
    intro o
    cases o with
    | none => simp
    | some p =>
      have hp := canDrain_port p
      constructor
      · intro h port hport
        cases hport
        apply hp.1
        cases hc : p.canDrain with
        | true => rfl
        | false => simp [hc] at h
      · intro h
        have := hp.2 (h p rfl)
        simp [this]
  have hreq : (s.doMasterRequest || s.doSlaveRequest) = false ↔
      s.masterRequests = 0 ∧ s.slaveRequests = 0 := by
    simp [BaseCache.doMasterRequest, BaseCache.doSlaveRequest]
  rw [← hport s.memSidePort, ← hport s.cpuSidePort, ← and_assoc, ← hreq]
  simp only [BaseCache.canDrain]
  generalize (s.doMasterRequest || s.doSlaveRequest) = a
  generalize (match s.memSidePort with | some port => !port.canDrain | none => false) = b
  generalize (match s.cpuSidePort with | some port => !port.canDrain | none => false) = c
  cases a <;> cases b <;> cases c <;> simp

/-- C24, scenario: a cache with idle ports and no pending requests can drain;
with a pending master request, or with an entry on the cpu-side transmit list,
it cannot. -/
theorem canDrain_iff_witness :
    (BaseCache.wired idlePort idlePort).canDrain = true ∧
      ({ BaseCache.wired idlePort idlePort with masterRequests := 2 } : BaseCache).canDrain
        = false ∧
      (BaseCache.wired { idlePort with transmitList := [(5, response 1)] } idlePort).canDrain
        = false ∧
      BaseCache.fresh.canDrain = true :=
  ⟨(canDrain_iff (BaseCache.wired idlePort idlePort)).2
      ⟨rfl, rfl, fun port h => by cases h; exact ⟨rfl, rfl⟩,
        fun port h => by cases h; exact ⟨rfl, rfl⟩⟩,
    by rfl, by rfl, by rfl⟩

theorem checkDrain_none (s : BaseCache) (h : s.drainEvent = none) : s.checkDrain = s := by
  simp only [BaseCache.checkDrain, h]

theorem applyDrainCall_none (s : BaseCache) (call : DrainCall) (h : s.drainEvent = none) :
    (applyDrainCall s call).drainEvent = none ∧ (applyDrainCall s call).log = s.log := by
  cases call with
  | check =>
    show s.checkDrain.drainEvent = none ∧ s.checkDrain.log = s.log
    rw [checkDrain_none s h]
    exact ⟨h, rfl⟩
  | clearMaster cause =>
    show (BaseCache.checkDrain
        { s with masterRequests := clearBits s.masterRequests (flagOf cause.toNat) }).drainEvent
          = none ∧
      (BaseCache.checkDrain
        { s with masterRequests := clearBits s.masterRequests (flagOf cause.toNat) }).log = s.log
    rw [checkDrain_none
      { s with masterRequests := clearBits s.masterRequests (flagOf cause.toNat) } h]
    exact ⟨h, rfl⟩
  | clearSlave cause =>
    show (BaseCache.checkDrain
        { s with slaveRequests := clearBits s.slaveRequests (flagOf cause.toNat) }).drainEvent
          = none ∧
      (BaseCache.checkDrain
        { s with slaveRequests := clearBits s.slaveRequests (flagOf cause.toNat) }).log = s.log
    rw [checkDrain_none
      { s with slaveRequests := clearBits s.slaveRequests (flagOf cause.toNat) } h]
    exact ⟨h, rfl⟩

theorem runDrainCalls_none (calls : List DrainCall) :
    ∀ s : BaseCache, s.drainEvent = none →
      (runDrainCalls s calls).drainEvent = none ∧ (runDrainCalls s calls).log = s.log := by
  induction calls with
  | nil => intro s h; exact ⟨h, rfl⟩
  | cons call rest ih =>
    intro s h
    obtain ⟨h1, h2⟩ := applyDrainCall_none s call h
    obtain ⟨h3, h4⟩ := ih (applyDrainCall s call) h1
    simp only [runDrainCalls, List.foldl_cons] at h3 h4 ⊢
    exact ⟨h3, h4.trans h2⟩

/-- C25: `checkDrain` invokes the drain event's `process()` if and only if a
drain event is registered and `canDrain` holds: in that case it records the
invocation and the change to the drained state, clears the registration and
changes nothing else; in every other case it changes no state at all.  Once the
registration is cleared, any further sequence of `checkDrain`,
`clearMasterRequest` and `clearSlaveRequest` calls invokes nothing and leaves
the registration cleared. -/
theorem checkDrain_fires_once (s : BaseCache) :
    (∀ event, s.drainEvent = some event → s.canDrain = true →
      s.checkDrain =
        { s with log := s.log ++ [Effect.drainProcess event, Effect.drained],
                 drainEvent := none }) ∧
    ((s.drainEvent = none ∨ s.canDrain = false) → s.checkDrain = s) ∧
    (drainFirings s.checkDrain.log ≠ drainFirings s.log ↔
      ∃ event, s.drainEvent = some event ∧ s.canDrain = true) ∧
    (∀ calls : List DrainCall,
      (∃ event, s.drainEvent = some event ∧ s.canDrain = true) →
        (runDrainCalls s.checkDrain calls).log = s.checkDrain.log ∧
        (runDrainCalls s.checkDrain calls).drainEvent = none) ∧
    (∀ calls : List DrainCall, s.drainEvent = none →
      (runDrainCalls s calls).log = s.log ∧ (runDrainCalls s calls).drainEvent = none) := by
  have hfire : ∀ event, s.drainEvent = some event → s.canDrain = true →
      s.checkDrain =
        { s with log := s.log ++ [Effect.drainProcess event, Effect.drained],
                 drainEvent := none } := by
    intro event he hc
    simp only [BaseCache.checkDrain, he, hc, if_true]
  have hkeep : (s.drainEvent = none ∨ s.canDrain = false) → s.checkDrain = s := by
    intro h
    cases h with
    | inl h => exact checkDrain_none s h
    | inr h =>
      simp only [BaseCache.checkDrain, h]
      cases s.drainEvent <;> simp
  refine ⟨hfire, hkeep, ?_, ?_, ?_⟩
  · constructor
    · intro hne
      cases he : s.drainEvent with
      | none => exact absurd (by rw [hkeep (Or.inl he)]) hne
      | some event =>
        cases hc : s.canDrain with
        | false => exact absurd (by rw [hkeep (Or.inr hc)]) hne
        | true => exact ⟨event, rfl, rfl⟩
    · rintro ⟨event, he, hc⟩
      rw [hfire event he hc]
      intro h
      have hlen := congrArg List.length h
      simp [drainFirings, List.filter_append] at hlen
  · rintro calls ⟨event, he, hc⟩
    have hnone : s.checkDrain.drainEvent = none := by rw [hfire event he hc]
    have := runDrainCalls_none calls s.checkDrain hnone
    exact ⟨this.2, this.1⟩
  · intro calls h
    have := runDrainCalls_none calls s h
    exact ⟨this.2, this.1⟩

/-- C25, scenario: a cache that can drain and has drain event 4 registered
invokes it once in `checkDrain`; the four calls that follow invoke nothing.
With a pending master request nothing is invoked until `clearMasterRequest`
removes it. -/
theorem checkDrain_fires_once_witness :
    (runDrainCalls
        ({ BaseCache.wired idlePort idlePort with drainEvent := some 4 } : BaseCache)
        [.check, .check, .clearMaster .Request_MSHR, .clearSlave .Request_WB, .check]).log
      = [Effect.drainProcess 4, Effect.drained] ∧
    (runDrainCalls
        ({ BaseCache.wired idlePort idlePort with
            drainEvent := some 4, masterRequests := 1 } : BaseCache)
        [.check]).log = [] ∧
    (runDrainCalls
        ({ BaseCache.wired idlePort idlePort with
            drainEvent := some 4, masterRequests := 1 } : BaseCache)
        [.check, .clearMaster .Request_MSHR, .check]).log
      = [Effect.drainProcess 4, Effect.drained] ∧
    BaseCache.checkDrain (BaseCache.wired idlePort idlePort) =
      BaseCache.wired idlePort idlePort :=
  ⟨by rfl, by rfl, by rfl,
    (checkDrain_fires_once (BaseCache.wired idlePort idlePort)).2.1 (Or.inl rfl)⟩

/-! ## The two masks and the blocking statistics -/

/-- What a returning `setBlocked` did to the statistics. -/
theorem setBlocked_stats (s s1 : BaseCache) (c : BlockedCause) (t : Int)
    (h : s.setBlocked c t = .ok s1) :
    s1.blocked_causes = (if s.blocked = 0
      then Function.update s.blocked_causes c (s.blocked_causes c + 1)
      else s.blocked_causes) ∧
    s1.blockedCycle = (if s.blocked = 0 then t else s.blockedCycle) ∧
    s1.blocked_cycles = s.blocked_cycles := by
  by_cases h0 : s.blocked = 0
  · simp only [BaseCache.setBlocked, h0, if_true, Nat.zero_and] at h
    obtain ⟨_, hs1⟩ := callPort_ok _ _ _ _ h
    rw [hs1]
    simp [h0]
  · by_cases hb : s.blocked &&& flagOf c.toNat = 0
    · simp only [BaseCache.setBlocked, h0, if_false, hb, if_true, Except.ok.injEq] at h
      rw [← h]
      simp [h0]
    · simp only [BaseCache.setBlocked, h0, if_false, hb, Except.ok.injEq] at h
      rw [← h]
      simp [h0]

/-- A returning `setBlockedForSnoop` leaves the statistics as they are. -/
theorem setBlockedForSnoop_stats (s s1 : BaseCache) (c : BlockedCause)
    (h : s.setBlockedForSnoop c = .ok s1) :
    s1.blocked_causes = s.blocked_causes ∧ s1.blockedCycle = s.blockedCycle ∧
    s1.blocked_cycles = s.blocked_cycles := by
  by_cases h0 : s.blockedSnoop = 0
  · simp only [BaseCache.setBlockedForSnoop, h0, if_true, Nat.zero_and] at h
    obtain ⟨_, hs1⟩ := callPort_ok _ _ _ _ h
    rw [hs1]
    exact ⟨rfl, rfl, rfl⟩
  · by_cases hb : s.blockedSnoop &&& flagOf c.toNat = 0
    · simp only [BaseCache.setBlockedForSnoop, hb, if_true, h0, if_false,
        Except.ok.injEq] at h
      rw [← h]
      exact ⟨rfl, rfl, rfl⟩
    · simp only [BaseCache.setBlockedForSnoop, hb, if_false, Except.ok.injEq] at h
      rw [← h]
      exact ⟨rfl, rfl, rfl⟩

/-- What a returning first half of `clearBlocked` did to the statistics. -/
theorem clearAccess_stats (s s1 : BaseCache) (c : BlockedCause) (t : Int)
    (h : s.clearAccess c t = .ok s1) :
    s1.blocked_cycles = (if s.blocked.testBit c.toNat = true ∧ s1.blocked = 0
      then Function.update s.blocked_cycles c (s.blocked_cycles c + (t - s.blockedCycle))
      else s.blocked_cycles) ∧
    s1.blocked_causes = s.blocked_causes ∧ s1.blockedCycle = s.blockedCycle := by
  have hc : c.toNat < 8 := Nat.lt_of_lt_of_le (blockedCause_lt c) (by decide)
  have hflag := land_flag_eq_zero s.blocked c.toNat hc
  by_cases hbit : s.blocked.testBit c.toNat = true
  · have hne : s.blocked &&& flagOf c.toNat ≠ 0 := by
      rw [ne_eq, hflag, hbit]; exact Bool.noConfusion
    by_cases hz : clearBits s.blocked (flagOf c.toNat) = 0
    · simp only [BaseCache.clearAccess, hne, ne_eq, not_false_eq_true, if_true,
        BaseCache.isBlocked, hz, not_true_eq_false, decide_False, Bool.false_eq_true] at h
      obtain ⟨_, hs1⟩ := callPort_ok _ _ _ _ h
      rw [hs1]
      simp [hbit, hz]
    · simp only [BaseCache.clearAccess, hne, ne_eq, not_false_eq_true, if_true,
        BaseCache.isBlocked, hz, decide_True, not_true_eq_false, if_false,
        Except.ok.injEq] at h
      rw [← h]
      simp [hbit, hz]
  · have hbit2 : s.blocked.testBit c.toNat = false := by simpa using hbit
    have heq : s.blocked &&& flagOf c.toNat = 0 := hflag.2 hbit2
    simp only [BaseCache.clearAccess, heq, ne_eq, not_true_eq_false, if_false,
      Except.ok.injEq] at h
    rw [← h]
    simp [hbit2]

/-- A returning second half of `clearBlocked` leaves the statistics as they
are. -/
theorem clearSnoop_stats (s s1 : BaseCache) (c : BlockedCause)
    (h : s.clearSnoop c = .ok s1) :
    s1.blocked_cycles = s.blocked_cycles ∧ s1.blocked_causes = s.blocked_causes ∧
    s1.blockedCycle = s.blockedCycle := by
  by_cases hb : s.blockedSnoop &&& flagOf c.toNat ≠ 0
  · by_cases hz : clearBits s.blockedSnoop (flagOf c.toNat) = 0
    · simp only [BaseCache.clearSnoop, hb, if_true, BaseCache.isBlockedForSnoop, hz, ne_eq,
        not_true_eq_false, decide_False, Bool.false_eq_true, not_false_eq_true] at h
      obtain ⟨_, hs1⟩ := callPort_ok _ _ _ _ h
      rw [hs1]
      exact ⟨rfl, rfl, rfl⟩
    · simp only [BaseCache.clearSnoop, hb, if_true, BaseCache.isBlockedForSnoop, hz, ne_eq,
        not_false_eq_true, decide_True, not_true_eq_false, if_false, Except.ok.injEq] at h
      rw [← h]
      exact ⟨rfl, rfl, rfl⟩
  · simp only [BaseCache.clearSnoop, hb, if_false, Except.ok.injEq] at h
    rw [← h]
    exact ⟨rfl, rfl, rfl⟩

/-- The access-path mask goes from non-zero to zero in a `clearBlocked` exactly
when the bit of the cause was set and the mask is zero afterwards. -/
theorem clearBlocked_unblocks (s s1 : BaseCache) (c : BlockedCause) (t : Int)
    (h : s.clearBlocked c t = .ok s1) :
    (s.blocked.testBit c.toNat = true ∧ s1.blocked = 0) ↔ (s.blocked ≠ 0 ∧ s1.blocked = 0) := by
  obtain ⟨hb, _⟩ := clearBlocked_spec s s1 c t h
  constructor
  · rintro ⟨hbit, hz⟩
    refine ⟨?_, hz⟩
    intro h0
    rw [h0, Nat.zero_testBit] at hbit
    cases hbit
  · rintro ⟨hne, hz⟩
    refine ⟨?_, hz⟩
    cases hbit : s.blocked.testBit c.toNat with
    | true => rfl
    | false =>
      rw [hbit] at hb
      simp only [Bool.false_eq_true, if_false] at hb
      exact absurd (hb.symm.trans hz) hne

/-- What a returning `clearBlocked` did to the statistics. -/
theorem clearBlocked_stats (s s2 : BaseCache) (c : BlockedCause) (t : Int)
    (h : s.clearBlocked c t = .ok s2) :
    s2.blocked_cycles = (if s.blocked ≠ 0 ∧ s2.blocked = 0
      then Function.update s.blocked_cycles c (s.blocked_cycles c + (t - s.blockedCycle))
      else s.blocked_cycles) ∧
    s2.blocked_causes = s.blocked_causes ∧ s2.blockedCycle = s.blockedCycle := by
  have hiff := clearBlocked_unblocks s s2 c t h
  simp only [BaseCache.clearBlocked] at h
  split at h
  · cases h
  · next s1 h1 =>
    obtain ⟨a1, a2, a3⟩ := clearAccess_stats s s1 c t h1
    obtain ⟨b1, b2, b3⟩ := clearSnoop_stats s1 s2 c h
    obtain ⟨_, d2, _⟩ := clearSnoop_spec s1 s2 c h
    refine ⟨?_, by rw [b2, a2], by rw [b3, a3]⟩
    rw [b1, a1, ← d2]
    by_cases hcond : s.blocked.testBit c.toNat = true ∧ s2.blocked = 0
    · rw [if_pos hcond, if_pos (hiff.1 hcond)]
    · rw [if_neg hcond, if_neg (fun hx => hcond (hiff.2 hx))]

/-- C26, as stated, fails: with cause `Blocked_NoMSHRs` set in the snoop-path
mask only, `clearBlocked(Blocked_NoMSHRs)` returns with the snoop-path mask
changed from 1 to 0. -/
theorem masksIndependent_counterexample :
    ¬ MasksIndependent
      ({ BaseCache.wired idlePort idlePort with blockedSnoop := 1 } : BaseCache)
      .Blocked_NoMSHRs 0 := by
  intro h
  have h1 := h.2.1 _ (by rfl)
  exact absurd h1 (by decide)

/-- C26, amended: `setBlocked` changes only the access-path mask and leaves the
snoop-path mask (and `isBlockedForSnoop`) unchanged, and `setBlockedForSnoop`
changes only the snoop-path mask and leaves the access-path mask (and
`isBlocked`) unchanged.  `clearBlocked` acts on both masks: it clears the bit of
the cause in the snoop-path mask as well, so it leaves the snoop-path mask
unchanged exactly when the cause is not set there. -/
theorem masks_independent_except_clear (s : BaseCache) (cause : BlockedCause)
    (curTick : Int) :
    (∀ s1, s.setBlocked cause curTick = .ok s1 →
      s1.blockedSnoop = s.blockedSnoop ∧ s1.isBlockedForSnoop = s.isBlockedForSnoop) ∧
    (∀ s1, s.setBlockedForSnoop cause = .ok s1 →
      s1.blocked = s.blocked ∧ s1.isBlocked = s.isBlocked) ∧
    (∀ s1, s.clearBlocked cause curTick = .ok s1 →
      s1.blockedSnoop.testBit cause.toNat = false ∧
      (s1.blockedSnoop = s.blockedSnoop ↔ s.blockedSnoop.testBit cause.toNat = false)) := by
  have hc : cause.toNat < 8 := Nat.lt_of_lt_of_le (blockedCause_lt cause) (by decide)
  refine ⟨?_, ?_, ?_⟩
  · intro s1 h
    obtain ⟨_, h2, _⟩ := setBlocked_spec s s1 cause curTick h
    exact ⟨h2, by simp only [BaseCache.isBlockedForSnoop, h2]⟩
  · intro s1 h
    obtain ⟨_, h2, _⟩ := setBlockedForSnoop_spec s s1 cause h
    exact ⟨h2, by simp only [BaseCache.isBlocked, h2]⟩
  · intro s1 h
    obtain ⟨_, h2, _⟩ := clearBlocked_spec s s1 cause curTick h
    cases hbit : s.blockedSnoop.testBit cause.toNat with
    | false =>
      rw [hbit] at h2
      simp only [Bool.false_eq_true, if_false] at h2
      rw [h2]
      exact ⟨hbit, by simp⟩
    | true =>
      rw [hbit] at h2
      simp only [if_true] at h2
      have hclr : s1.blockedSnoop.testBit cause.toNat = false := by
        rw [h2, clearBits_testBit, flagOf_testBit _ _ hc]
        simp
      refine ⟨hclr, ?_⟩
      constructor
      · intro heq
        rw [heq, hbit] at hclr
        cases hclr
      · intro hf
        cases hf

/-- C26, amended, scenario: with cause `Blocked_NoTargets` set in both masks,
`setBlocked(Blocked_NoMSHRs)` leaves the snoop-path mask at 2 and
`setBlockedForSnoop(Blocked_NoMSHRs)` leaves the access-path mask at 2, while
`clearBlocked(Blocked_NoTargets)` clears both. -/
theorem masks_independent_except_clear_witness :
    (BaseCache.setBlocked
        ({ BaseCache.wired idlePort idlePort with blocked := 2, blockedSnoop := 2 } : BaseCache)
        .Blocked_NoMSHRs 5).map (fun s => (s.blocked, s.blockedSnoop)) = .ok (3, 2) ∧
    (BaseCache.setBlockedForSnoop
        ({ BaseCache.wired idlePort idlePort with blocked := 2, blockedSnoop := 2 } : BaseCache)
        .Blocked_NoMSHRs).map (fun s => (s.blocked, s.blockedSnoop)) = .ok (2, 3) ∧
    (BaseCache.clearBlocked
        ({ BaseCache.wired idlePort idlePort with blocked := 2, blockedSnoop := 2 } : BaseCache)
        .Blocked_NoTargets 5).map (fun s => (s.blocked, s.blockedSnoop)) = .ok (0, 0) ∧
    (∀ s1,
      BaseCache.setBlocked
        ({ BaseCache.wired idlePort idlePort with blocked := 2, blockedSnoop := 2 } : BaseCache)
        .Blocked_NoMSHRs 5 = .ok s1 →
      s1.blockedSnoop = 2 ∧ s1.isBlockedForSnoop = true) :=
  ⟨by rfl, by rfl, by rfl,
    (masks_independent_except_clear
      ({ BaseCache.wired idlePort idlePort with blocked := 2, blockedSnoop := 2 } : BaseCache)
      .Blocked_NoMSHRs 5).1⟩

/-- C27: a returning `setBlocked(c)` has incremented `blocked_causes[c]` and set
`blockedCycle` to the current tick exactly when the access-path mask was zero at
the call, and has left both as they were otherwise; it never changes
`blocked_cycles`.  A returning `clearBlocked(c)` has added
`curTick - blockedCycle` to `blocked_cycles[c]` exactly when it brought the
access-path mask from non-zero to zero, the entry of no other cause changes, and
it never changes `blocked_causes` or `blockedCycle`.  `setBlockedForSnoop`
changes none of the three.  With both ports present all three calls return. -/
theorem blocking_statistics (s : BaseCache) (c : BlockedCause) (curTick : Int) :
    (∀ s1, s.setBlocked c curTick = .ok s1 →
      s1.blocked_causes = (if s.blocked = 0
        then Function.update s.blocked_causes c (s.blocked_causes c + 1)
        else s.blocked_causes) ∧
      s1.blockedCycle = (if s.blocked = 0 then curTick else s.blockedCycle) ∧
      s1.blocked_cycles = s.blocked_cycles) ∧
    (∀ s1, s.clearBlocked c curTick = .ok s1 →
      s1.blocked_cycles c = (if s.blocked ≠ 0 ∧ s1.blocked = 0
        then s.blocked_cycles c + (curTick - s.blockedCycle)
        else s.blocked_cycles c) ∧
      (∀ d, d ≠ c → s1.blocked_cycles d = s.blocked_cycles d) ∧
      s1.blocked_causes = s.blocked_causes ∧ s1.blockedCycle = s.blockedCycle) ∧
    (∀ s1, s.setBlockedForSnoop c = .ok s1 →
      s1.blocked_causes = s.blocked_causes ∧ s1.blockedCycle = s.blockedCycle ∧
      s1.blocked_cycles = s.blocked_cycles) ∧
    (∀ p q, s.cpuSidePort = some p → s.memSidePort = some q →
      (∃ s1, s.setBlocked c curTick = .ok s1) ∧
      (∃ s1, s.clearBlocked c curTick = .ok s1) ∧
      (∃ s1, s.setBlockedForSnoop c = .ok s1)) := by
  refine ⟨fun s1 h => setBlocked_stats s s1 c curTick h, ?_,
    fun s1 h => setBlockedForSnoop_stats s s1 c h, ?_⟩
  · intro s1 h
    obtain ⟨h1, h2, h3⟩ := clearBlocked_stats s s1 c curTick h
    refine ⟨?_, ?_, h2, h3⟩
    · rw [h1]
      by_cases hcond : s.blocked ≠ 0 ∧ s1.blocked = 0
      · rw [if_pos hcond, if_pos hcond, Function.update_same]
      · rw [if_neg hcond, if_neg hcond]
    · intro d hd
      rw [h1]
      by_cases hcond : s.blocked ≠ 0 ∧ s1.blocked = 0
      · rw [if_pos hcond, Function.update_noteq hd]
      · rw [if_neg hcond]
  · intro p q hp hq
    exact ⟨setBlocked_returns s c curTick p hp, clearBlocked_returns s c curTick p q hp hq,
      setBlockedForSnoop_returns s c q hq⟩

/-- C27, scenario: `Blocked_NoMSHRs` is set at tick 10, `Blocked_NoTargets` at
tick 20, then `Blocked_NoMSHRs` is cleared at tick 30 and `Blocked_NoTargets` at
tick 50.  Only `Blocked_NoMSHRs` is counted as a cause, `blockedCycle` stays at
10, and the 40 ticks are credited to `Blocked_NoTargets` alone. -/
theorem blocking_statistics_witness :
    (runCalls (BaseCache.wired idlePort idlePort)
        [.set .Blocked_NoMSHRs 10, .set .Blocked_NoTargets 20,
         .clear .Blocked_NoMSHRs 30, .clear .Blocked_NoTargets 50]).map
        (fun s => (s.blocked_causes .Blocked_NoMSHRs, s.blocked_causes .Blocked_NoTargets,
          s.blockedCycle, s.blocked_cycles .Blocked_NoMSHRs,
          s.blocked_cycles .Blocked_NoTargets))
      = .ok (1, 0, 10, 0, 40) ∧
    (∃ s1, (BaseCache.wired idlePort idlePort).setBlocked .Blocked_NoMSHRs 10 = .ok s1) :=
  ⟨by rfl,
    ((blocking_statistics (BaseCache.wired idlePort idlePort) .Blocked_NoMSHRs 10).2.2.2
      idlePort idlePort rfl rfl).1⟩

/-- The bits of a mask after the clearing step of `clearBlocked`. -/
theorem cleared_mask_bits (m m1 c : Nat) (hc : c < 8)
    (h : m1 = (if m.testBit c then clearBits m (flagOf c) else m)) :
    m1.testBit c = false ∧ ∀ i, i < 8 → i ≠ c → m1.testBit i = m.testBit i := by
  cases hbit : m.testBit c with
  | false =>
    rw [hbit] at h
    simp only [Bool.false_eq_true, if_false] at h
    rw [h]
    exact ⟨hbit, fun _ _ _ => rfl⟩
  | true =>
    rw [hbit] at h
    simp only [if_true] at h
    rw [h]
    refine ⟨?_, ?_⟩
    · rw [clearBits_testBit, flagOf_testBit _ _ hc]
      simp
    · intro i hi hne
      rw [clearBits_testBit, flagOf_testBit _ _ hc]
      have hci : ¬ c = i := fun hx => hne hx.symm
      simp [hi, hci]

/-- C29: `clearBlocked(c)` acts on both paths.  Whenever it returns, bit `c` is
clear in the access-path mask and in the snoop-path mask and every other bit of
the two eight-bit masks is as before; `memSidePort->clearBlocked()` has been
called during the call if and only if bit `c` was set in the snoop-path mask and
the snoop-path mask is zero afterwards, whatever the access-path mask is: two
caches with the same snoop-path mask agree on it.  With both ports present the
call returns. -/
theorem clearBlocked_both_paths (s : BaseCache) (c : BlockedCause) (curTick : Int) :
    (∀ s1, s.clearBlocked c curTick = .ok s1 →
      s1.blocked.testBit c.toNat = false ∧ s1.blockedSnoop.testBit c.toNat = false ∧
      (∀ i, i < 8 → i ≠ c.toNat →
        s1.blocked.testBit i = s.blocked.testBit i ∧
        s1.blockedSnoop.testBit i = s.blockedSnoop.testBit i) ∧
      (Effect.clearBlocked Side.mem ∈ s1.log.drop s.log.length ↔
        s.blockedSnoop.testBit c.toNat = true ∧ s1.blockedSnoop = 0) ∧
      (∀ (other other1 : BaseCache) (tick : Int),
        other.blockedSnoop = s.blockedSnoop → other.clearBlocked c tick = .ok other1 →
        (Effect.clearBlocked Side.mem ∈ other1.log.drop other.log.length ↔
          Effect.clearBlocked Side.mem ∈ s1.log.drop s.log.length))) ∧
    (∀ p q, s.cpuSidePort = some p → s.memSidePort = some q →
      ∃ s1, s.clearBlocked c curTick = .ok s1) := by
  have hc : c.toNat < 8 := Nat.lt_of_lt_of_le (blockedCause_lt c) (by decide)
  have hmem : ∀ (a a1 : BaseCache) (t : Int), a.clearBlocked c t = .ok a1 →
      (Effect.clearBlocked Side.mem ∈ a1.log.drop a.log.length ↔
        a.blockedSnoop.testBit c.toNat = true ∧ a1.blockedSnoop = 0) := by
    intro a a1 t h
    obtain ⟨_, _, _, _, hlog⟩ := clearBlocked_spec a a1 c t h
    rw [hlog, List.append_assoc, List.drop_left]
    by_cases h1 : a.blocked.testBit c.toNat = true ∧ a1.blocked = 0
    · by_cases h2 : a.blockedSnoop.testBit c.toNat = true ∧ a1.blockedSnoop = 0
      · simp [h1, h2]
      · simp [h1, h2]
    · by_cases h2 : a.blockedSnoop.testBit c.toNat = true ∧ a1.blockedSnoop = 0
      · simp [h1, h2]
      · simp [h1, h2]
  refine ⟨?_, fun p q hp hq => clearBlocked_returns s c curTick p q hp hq⟩
  intro s1 h
  obtain ⟨hb, hsn, _, _, _⟩ := clearBlocked_spec s s1 c curTick h
  obtain ⟨b1, b2⟩ := cleared_mask_bits s.blocked s1.blocked c.toNat hc hb
  obtain ⟨c1, c2⟩ := cleared_mask_bits s.blockedSnoop s1.blockedSnoop c.toNat hc hsn
  refine ⟨b1, c1, fun i hi hne => ⟨b2 i hi hne, c2 i hi hne⟩, hmem s s1 curTick h, ?_⟩
  intro other other1 tick hsame hother
  obtain ⟨_, hsn2, _⟩ := clearBlocked_spec other other1 c tick hother
  have heq : other1.blockedSnoop = s1.blockedSnoop := by rw [hsn2, hsn, hsame]
  rw [hmem other other1 tick hother, hmem s s1 curTick h, hsame, heq]

/-- C29, scenario: with causes 0 and 1 set on the access path and cause 1 alone
on the snoop path, `clearBlocked(Blocked_NoTargets)` leaves the access-path mask
at 1 and the snoop-path mask at 0 and calls `clearBlocked()` on the memory-side
port only. -/
theorem clearBlocked_both_paths_witness :
    (BaseCache.clearBlocked
        ({ BaseCache.wired idlePort idlePort with blocked := 3, blockedSnoop := 2 } : BaseCache)
        .Blocked_NoTargets 5).map (fun s => (s.blocked, s.blockedSnoop, s.log))
      = .ok (1, 0, [Effect.clearBlocked Side.mem]) ∧
    (∃ s1,
      BaseCache.clearBlocked
        ({ BaseCache.wired idlePort idlePort with blocked := 3, blockedSnoop := 2 } : BaseCache)
        .Blocked_NoTargets 5 = .ok s1) :=
  ⟨by rfl,
    (clearBlocked_both_paths
      ({ BaseCache.wired idlePort idlePort with blocked := 3, blockedSnoop := 2 } : BaseCache)
      .Blocked_NoTargets 5).2 idlePort idlePort rfl rfl⟩

/-! ## Request events across set and clear calls -/

theorem requestsOf_append (side : Side) (l1 l2 : List Effect) :
    requestsOf side (l1 ++ l2) = requestsOf side l1 ++ requestsOf side l2 := by
  simp only [requestsOf, List.filter_append]

/-- What `checkDrain` leaves as it is: ports, request vectors and the bus
requests recorded. -/
theorem checkDrain_frame (s : BaseCache) (side : Side) :
    s.checkDrain.masterRequests = s.masterRequests ∧
    s.checkDrain.slaveRequests = s.slaveRequests ∧
    s.checkDrain.cpuSidePort = s.cpuSidePort ∧ s.checkDrain.memSidePort = s.memSidePort ∧
    requestsOf side s.checkDrain.log = requestsOf side s.log := by
  simp only [BaseCache.checkDrain]
  cases s.drainEvent with
  | none => exact ⟨rfl, rfl, rfl, rfl, rfl⟩
  | some event =>
    cases s.canDrain with
    | false => exact ⟨rfl, rfl, rfl, rfl, rfl⟩
    | true =>
      refine ⟨rfl, rfl, rfl, rfl, ?_⟩
      simp only [if_true, requestsOf_append]
      simp [requestsOf]

theorem clearMasterRequest_spec (s : BaseCache) (cause : RequestCause) (side : Side) :
    (s.clearMasterRequest cause).masterRequests =
      clearBits s.masterRequests (flagOf cause.toNat) ∧
    (s.clearMasterRequest cause).slaveRequests = s.slaveRequests ∧
    (s.clearMasterRequest cause).cpuSidePort = s.cpuSidePort ∧
    (s.clearMasterRequest cause).memSidePort = s.memSidePort ∧
    requestsOf side (s.clearMasterRequest cause).log = requestsOf side s.log :=
  checkDrain_frame { s with masterRequests := clearBits s.masterRequests (flagOf cause.toNat) }
    side

theorem clearSlaveRequest_spec (s : BaseCache) (cause : RequestCause) (side : Side) :
    (s.clearSlaveRequest cause).masterRequests = s.masterRequests ∧
    (s.clearSlaveRequest cause).slaveRequests =
      clearBits s.slaveRequests (flagOf cause.toNat) ∧
    (s.clearSlaveRequest cause).cpuSidePort = s.cpuSidePort ∧
    (s.clearSlaveRequest cause).memSidePort = s.memSidePort ∧
    requestsOf side (s.clearSlaveRequest cause).log = requestsOf side s.log :=
  checkDrain_frame { s with slaveRequests := clearBits s.slaveRequests (flagOf cause.toNat) }
    side

/-- The bus requests of the master direction recorded by a sequence of set and
clear calls: one when the vector is zero at the start, and one more for each
clear call at most. -/
theorem runMasterCalls_bound (calls : List RequestCall) :
    ∀ s s1 : BaseCache, runMasterCalls s calls = .ok s1 →
      (requestsOf Side.mem s1.log).length ≤
        (requestsOf Side.mem s.log).length + (if s.masterRequests = 0 then 1 else 0) +
          clearsIn calls := by
  induction calls with
  | nil =>
    intro s s1 h
    simp only [runMasterCalls, Except.ok.injEq] at h
    rw [h]
    omega
  | cons call rest ih =>
    intro s s1 h
    cases call with
    | set cause time =>
      simp only [runMasterCalls] at h
      split at h
      · cases h
      · next s2 h2 =>
        obtain ⟨hm, _, _, _, hlog⟩ := setMasterRequest_spec s s2 cause time h2
        have hc : cause.toNat < 8 := Nat.lt_of_lt_of_le (requestCause_lt cause) (by decide)
        have hne2 : s2.masterRequests ≠ 0 := by
          rw [hm]; exact setBits_flag_ne_zero _ _ hc
        have hih := ih s2 s1 h
        rw [if_neg hne2, hlog, requestsOf_append, List.length_append] at hih
        simp only [clearsIn]
        by_cases h0 : s.masterRequests = 0
        · rw [if_pos h0]
          have hle : (requestsOf Side.mem
              (if s.masterRequests = 0 ∧
                  s.memSidePort.map CachePort.waitingOnRetry = some false
                then [Effect.requestEvent Side.mem time] else [])).length ≤ 1 := by
            split
            · simp [requestsOf]
            · simp [requestsOf]
          omega
        · rw [if_neg h0]
          rw [if_neg (fun hx => h0 hx.1)] at hih
          simp only [requestsOf, List.filter_nil, List.length_nil] at hih ⊢
          omega
    | clear cause =>
      simp only [runMasterCalls] at h
      obtain ⟨_, _, _, _, hreq⟩ := clearMasterRequest_spec s cause Side.mem
      have hih := ih (s.clearMasterRequest cause) s1 h
      rw [hreq] at hih
      simp only [clearsIn]
      have hle : (if (s.clearMasterRequest cause).masterRequests = 0 then 1 else 0) ≤ 1 := by
        split <;> omega
      omega

/-- The bus requests of the slave direction recorded by a sequence of set and
clear calls. -/
theorem runSlaveCalls_bound (calls : List RequestCall) :
    ∀ s s1 : BaseCache, runSlaveCalls s calls = .ok s1 →
      (requestsOf Side.cpu s1.log).length ≤
        (requestsOf Side.cpu s.log).length + (if s.slaveRequests = 0 then 1 else 0) +
          clearsIn calls := by
  induction calls with
  | nil =>
    intro s s1 h
    simp only [runSlaveCalls, Except.ok.injEq] at h
    rw [h]
    omega
  | cons call rest ih =>
    intro s s1 h
    cases call with
    | set cause time =>
      simp only [runSlaveCalls] at h
      split at h
      · cases h
      · next s2 h2 =>
        obtain ⟨hm, _, _, _, hlog⟩ := setSlaveRequest_spec s s2 cause time h2
        have hc : cause.toNat < 8 := Nat.lt_of_lt_of_le (requestCause_lt cause) (by decide)
        have hne2 : s2.slaveRequests ≠ 0 := by
          rw [hm]; exact setBits_flag_ne_zero _ _ hc
        have hih := ih s2 s1 h
        rw [if_neg hne2, hlog, requestsOf_append, List.length_append] at hih
        simp only [clearsIn]
        by_cases h0 : s.slaveRequests = 0
        · rw [if_pos h0]
          have hle : (requestsOf Side.cpu
              (if s.slaveRequests = 0 ∧
                  s.cpuSidePort.map CachePort.waitingOnRetry = some false
                then [Effect.requestEvent Side.cpu time] else [])).length ≤ 1 := by
            split
            · simp [requestsOf]
            · simp [requestsOf]
          omega
        · rw [if_neg h0]
          rw [if_neg (fun hx => h0 hx.1)] at hih
          simp only [requestsOf, List.filter_nil, List.length_nil] at hih ⊢
          omega
    | clear cause =>
      simp only [runSlaveCalls] at h
      obtain ⟨_, _, _, _, hreq⟩ := clearSlaveRequest_spec s cause Side.cpu
      have hih := ih (s.clearSlaveRequest cause) s1 h
      rw [hreq] at hih
      simp only [clearsIn]
      have hle : (if (s.clearSlaveRequest cause).slaveRequests = 0 then 1 else 0) ≤ 1 := by
        split <;> omega
      omega

theorem runMasterCalls_returns (calls : List RequestCall) :
    ∀ (s : BaseCache) (q : CachePort), s.memSidePort = some q →
      ∃ s1, runMasterCalls s calls = .ok s1 := by
  induction calls with
  | nil => intro s q _; exact ⟨s, rfl⟩
  | cons call rest ih =>
    intro s q hq
    cases call with
    | set cause time =>
      obtain ⟨s2, h2⟩ := setMasterRequest_returns s cause time q hq
      obtain ⟨_, _, _, hmem, _⟩ := setMasterRequest_spec s s2 cause time h2
      obtain ⟨s1, h1⟩ := ih s2 q (by rw [hmem, hq])
      exact ⟨s1, by simp only [runMasterCalls, h2, h1]⟩
    | clear cause =>
      obtain ⟨_, _, _, hmem, _⟩ := clearMasterRequest_spec s cause Side.mem
      obtain ⟨s1, h1⟩ := ih (s.clearMasterRequest cause) q (by rw [hmem, hq])
      exact ⟨s1, by simp only [runMasterCalls, h1]⟩

theorem runSlaveCalls_returns (calls : List RequestCall) :
    ∀ (s : BaseCache) (p : CachePort), s.cpuSidePort = some p →
      ∃ s1, runSlaveCalls s calls = .ok s1 := by
  induction calls with
  | nil => intro s p _; exact ⟨s, rfl⟩
  | cons call rest ih =>
    intro s p hp
    cases call with
    | set cause time =>
      obtain ⟨s2, h2⟩ := setSlaveRequest_returns s cause time p hp
      obtain ⟨_, _, hcpu, _, _⟩ := setSlaveRequest_spec s s2 cause time h2
      obtain ⟨s1, h1⟩ := ih s2 p (by rw [hcpu, hp])
      exact ⟨s1, by simp only [runSlaveCalls, h2, h1]⟩
    | clear cause =>
      obtain ⟨_, _, hcpu, _, _⟩ := clearSlaveRequest_spec s cause Side.cpu
      obtain ⟨s1, h1⟩ := ih (s.clearSlaveRequest cause) p (by rw [hcpu, hp])
      exact ⟨s1, by simp only [runSlaveCalls, h1]⟩

/-- C21, as stated, fails: on a fresh cache with both ports,
`setMasterRequest(Request_MSHR, 100)`, `clearMasterRequest(Request_MSHR)`,
`setMasterRequest(Request_MSHR, 120)` leaves two bus-request events scheduled
for the master direction, neither of which has fired. -/
theorem atMostOneRequest_counterexample :
    ¬ AtMostOneRequest (BaseCache.wired idlePort idlePort)
      [.set .Request_MSHR 100, .clear .Request_MSHR, .set .Request_MSHR 120] := by
  intro h
  have h1 := h _ (by rfl)
  exact absurd h1 (by decide)

/-- C21, amended: a set call schedules a bus-request event only when the request
vector of its direction is zero, and a clear call schedules none.  So in every
state reached from a fresh cache with its ports by a sequence of
`setMasterRequest` / `clearMasterRequest` calls, with no scheduled event fired,
the number of bus-request events scheduled for the master direction is at most
one more than the number of clear calls in the sequence, and at most one when
the sequence has no clear call; likewise for `setSlaveRequest` /
`clearSlaveRequest` and the slave direction.  From any state the calls add at
most one event when the vector is zero at the start, and one per clear call.
With the port of the direction present the sequence returns. -/
theorem request_events_per_clear (s : BaseCache) (calls : List RequestCall) :
    (∀ s1, runMasterCalls s calls = .ok s1 →
      (requestsOf Side.mem s1.log).length ≤
        (requestsOf Side.mem s.log).length + (if s.masterRequests = 0 then 1 else 0) +
          clearsIn calls) ∧
    (∀ s1, runSlaveCalls s calls = .ok s1 →
      (requestsOf Side.cpu s1.log).length ≤
        (requestsOf Side.cpu s.log).length + (if s.slaveRequests = 0 then 1 else 0) +
          clearsIn calls) ∧
    (∀ p q s1, runMasterCalls (BaseCache.wired p q) calls = .ok s1 →
      (requestsOf Side.mem s1.log).length ≤ 1 + clearsIn calls ∧
      (clearsIn calls = 0 → (requestsOf Side.mem s1.log).length ≤ 1)) ∧
    (∀ p q s1, runSlaveCalls (BaseCache.wired p q) calls = .ok s1 →
      (requestsOf Side.cpu s1.log).length ≤ 1 + clearsIn calls ∧
      (clearsIn calls = 0 → (requestsOf Side.cpu s1.log).length ≤ 1)) ∧
    (∀ q, s.memSidePort = some q → ∃ s1, runMasterCalls s calls = .ok s1) ∧
    (∀ p, s.cpuSidePort = some p → ∃ s1, runSlaveCalls s calls = .ok s1) ∧
    (∀ cause side,
      requestsOf side (s.clearMasterRequest cause).log = requestsOf side s.log ∧
      requestsOf side (s.clearSlaveRequest cause).log = requestsOf side s.log) := by
  refine ⟨runMasterCalls_bound calls s, runSlaveCalls_bound calls s, ?_, ?_,
    fun q hq => runMasterCalls_returns calls s q hq,
    fun p hp => runSlaveCalls_returns calls s p hp,
    fun cause side => ⟨(clearMasterRequest_spec s cause side).2.2.2.2,
      (clearSlaveRequest_spec s cause side).2.2.2.2⟩⟩
  · intro p q s1 h
    have hb := runMasterCalls_bound calls (BaseCache.wired p q) s1 h
    have h0 : (BaseCache.wired p q).masterRequests = 0 := rfl
    have hl : (BaseCache.wired p q).log = [] := rfl
    rw [if_pos h0, hl] at hb
    simp only [requestsOf, List.filter_nil, List.length_nil] at hb ⊢
    exact ⟨by omega, fun hz => by omega⟩
  · intro p q s1 h
    have hb := runSlaveCalls_bound calls (BaseCache.wired p q) s1 h
    have h0 : (BaseCache.wired p q).slaveRequests = 0 := rfl
    have hl : (BaseCache.wired p q).log = [] := rfl
    rw [if_pos h0, hl] at hb
    simp only [requestsOf, List.filter_nil, List.length_nil] at hb ⊢
    exact ⟨by omega, fun hz => by omega⟩

/-- C21, amended, scenario: three set calls with different causes schedule one
event; a set, a clear and a set schedule two, which is one more than the number
of clear calls. -/
theorem request_events_per_clear_witness :
    (runMasterCalls (BaseCache.wired idlePort idlePort)
        [.set .Request_MSHR 100, .set .Request_WB 105, .set .Request_PF 110]).map
        (fun s => requestsOf Side.mem s.log)
      = .ok [Effect.requestEvent Side.mem 100] ∧
    (runMasterCalls (BaseCache.wired idlePort idlePort)
        [.set .Request_MSHR 100, .clear .Request_MSHR, .set .Request_MSHR 120]).map
        (fun s => requestsOf Side.mem s.log)
      = .ok [Effect.requestEvent Side.mem 100, Effect.requestEvent Side.mem 120] ∧
    (∃ s1, runMasterCalls (BaseCache.wired idlePort idlePort)
        [.set .Request_MSHR 100, .clear .Request_MSHR, .set .Request_MSHR 120] = .ok s1) :=
  ⟨by rfl, by rfl,
    (request_events_per_clear (BaseCache.wired idlePort idlePort)
      [.set .Request_MSHR 100, .clear .Request_MSHR, .set .Request_MSHR 120]).2.2.2.2.1
      idlePort rfl⟩

/-! ## Stable order among equal ticks -/

theorem placeBehindEqual_cons (x b : Entry) (l : List Entry) :
    placeBehindEqual x (b :: l) =
      if x.1 < b.1 then x :: b :: l else b :: placeBehindEqual x l := rfl

theorem tickInsert_cons (a b : Entry) (l : List Entry) :
    List.orderedInsert (fun p q : Entry => p.1 ≤ q.1) a (b :: l) =
      if a.1 ≤ b.1 then a :: b :: l
      else b :: List.orderedInsert (fun p q : Entry => p.1 ≤ q.1) a l := rfl

/-- Putting an earlier-queued entry in front of its equals and a later-queued
entry behind its equals can be done in either order. -/
theorem tickInsert_placeBehindEqual (a x : Entry) (l : List Entry) :
    List.orderedInsert (fun p q : Entry => p.1 ≤ q.1) a (placeBehindEqual x l) =
      placeBehindEqual x (List.orderedInsert (fun p q : Entry => p.1 ≤ q.1) a l) := by
  induction l with
  | nil =>
    show List.orderedInsert (fun p q : Entry => p.1 ≤ q.1) a [x] = placeBehindEqual x [a]
    rw [tickInsert_cons, placeBehindEqual_cons]
    by_cases h : a.1 ≤ x.1
    · rw [if_pos h, if_neg (by omega)]
      rfl
    · rw [if_neg h, if_pos (by omega)]
      rfl
  | cons b l ih =>
    rw [placeBehindEqual_cons x b l, tickInsert_cons a b l]
    by_cases hx : x.1 < b.1
    · by_cases ha : a.1 ≤ b.1
      · rw [if_pos hx, if_pos ha, tickInsert_cons a x (b :: l),
          placeBehindEqual_cons x a (b :: l)]
        by_cases hax : a.1 ≤ x.1
        · rw [if_pos hax, if_neg (by omega), placeBehindEqual_cons, if_pos hx]
        · rw [if_neg hax, if_pos (by omega), tickInsert_cons, if_pos ha]
      · rw [if_pos hx, if_neg ha, tickInsert_cons a x (b :: l), if_neg (by omega),
          tickInsert_cons, if_neg ha, placeBehindEqual_cons, if_pos hx]
    · by_cases ha : a.1 ≤ b.1
      · rw [if_neg hx, if_pos ha, tickInsert_cons, if_pos ha,
          placeBehindEqual_cons x a (b :: l), if_neg (by omega), placeBehindEqual_cons,
          if_neg hx]
      · rw [if_neg hx, if_neg ha, tickInsert_cons, if_neg ha, placeBehindEqual_cons,
          if_neg hx, ih]

/-- The stable sort of a sequence with one more entry at its end. -/
theorem stableSortByTick_append (entries : List Entry) (x : Entry) :
    stableSortByTick (entries ++ [x]) = placeBehindEqual x (stableSortByTick entries) := by
  induction entries with
  | nil => rfl
  | cons a rest ih =>
    show List.orderedInsert (fun p q : Entry => p.1 ≤ q.1) a (stableSortByTick (rest ++ [x])) =
      placeBehindEqual x
        (List.orderedInsert (fun p q : Entry => p.1 ≤ q.1) a (stableSortByTick rest))
    rw [ih, tickInsert_placeBehindEqual]

theorem placeBehindEqual_split (x : Entry) (l1 l2 : List Entry)
    (h1 : ∀ a ∈ l1, a.1 ≤ x.1) (h2 : ∀ y, l2.head? = some y → x.1 < y.1) :
    placeBehindEqual x (l1 ++ l2) = l1 ++ x :: l2 := by
  induction l1 with
  | nil =>
    cases l2 with
    | nil => rfl
    | cons y t =>
      rw [List.nil_append, placeBehindEqual_cons, if_pos (h2 y rfl)]
      rfl
  | cons a t ih =>
    have ha : ¬ x.1 < a.1 := by
      have := h1 a (List.mem_cons_self _ _)
      omega
    rw [List.cons_append, placeBehindEqual_cons, if_neg ha,
      ih (fun b hb => h1 b (List.mem_cons_of_mem _ hb)), List.cons_append]

/-- Where a returning `transmit` puts the entry in a sorted list: behind all
entries that are not later, in front of all later ones; and what it does to the
send event and the log. -/
theorem transmit_stable (s s1 : BaseCache) (side : Side) (pkt : Packet) (time : Int)
    (h : s.transmit side pkt time = .ok s1) (hs : TickSorted (s.transmitList side)) :
    ∃ l1 l2, s.transmitList side = l1 ++ l2 ∧
      s1.transmitList side = l1 ++ (time, pkt) :: l2 ∧
      (∀ x ∈ l1, x.1 ≤ time) ∧ (∀ y ∈ l2, time < y.1) ∧
      s1.event side = (if l1 = [] then some time else s.event side) ∧
      s1.log = s.log ++
        (if s.transmitList side = [] then [Effect.schedule side time]
          else if l1 = [] then [Effect.reschedule side time] else []) := by
  obtain ⟨port, l1, l2, hport, hlist, hport1, hle, hhead, hlast, hev, hlog, _⟩ :=
    transmit_spec s s1 side pkt time h
  have e0 : s.transmitList side = l1 ++ l2 := by
    simp only [BaseCache.transmitList, hport, hlist]
  have e1 : s1.transmitList side = l1 ++ (time, pkt) :: l2 := by
    simp only [BaseCache.transmitList, hport1]
  have e2 : s.transmitList side = port.transmitList := by
    simp only [BaseCache.transmitList, hport]
  rw [e0] at hs
  obtain ⟨hs1, hs2, _⟩ := List.pairwise_append.1 hs
  have hbefore : ∀ x ∈ l1, x.1 ≤ time := by
    by_cases hnil : l2 = []
    · intro x hx
      cases hg : l1.getLast? with
      | none =>
        rw [List.getLast?_eq_none_iff] at hg
        rw [hg] at hx
        simp at hx
      | some y => exact Int.le_trans (sorted_le_last l1 hs1 y hg x hx) (hlast hnil y hg)
    · exact hle hnil
  have hafter : ∀ x ∈ l2, time < x.1 := by
    intro x hx
    cases hh : l2.head? with
    | none =>
      rw [List.head?_eq_none_iff] at hh
      rw [hh] at hx
      simp at hx
    | some y =>
      exact Int.lt_of_lt_of_le (hhead y hh) (sorted_head_le l2 hs2 y hh x hx)
  refine ⟨l1, l2, e0, e1, hbefore, hafter, hev, ?_⟩
  rw [hlog, e2]

theorem update_other (s : BaseCache) (side other : Side) (port : CachePort)
    (event : Option Int) (effects : List Effect) (hne : other ≠ side) :
    (s.update other port event effects).port side = s.port side := by
  cases side <;> cases other <;> first | rfl | exact absurd rfl hne

/-- A returning `transmit` leaves the list of the other side as it is. -/
theorem transmit_other (s s1 : BaseCache) (side other : Side) (pkt : Packet) (time : Int)
    (hne : other ≠ side) (h : s.transmit other pkt time = .ok s1) :
    s1.transmitList side = s.transmitList side := by
  have hport : s1.port side = s.port side := by
    simp only [BaseCache.transmit] at h
    split at h
    · cases h
    · split at h
      · split at h
        · cases h
        · simp only [Except.ok.injEq] at h
          rw [← h]
          exact update_other s side other _ _ _ hne
      · split at h
        · simp only [Except.ok.injEq] at h
          rw [← h]
          exact update_other s side other _ _ _ hne
        · simp only [Except.ok.injEq] at h
          rw [← h]
          exact update_other s side other _ _ _ hne
  simp only [BaseCache.transmitList, hport]

/-- What a returning call of one of the three functions is: for a packet that
needs a response, the queueing on the side of the function, from a state with
the same ports, send events and log; for a packet that needs no response, a call
that leaves ports and send events as they are. -/
theorem applyResponse_step (s s1 : BaseCache) (call : ResponseCall)
    (h : applyResponse s call = .ok s1) :
    (call.pkt.needsResponse = true →
      ∃ s0 : BaseCache, s0.cpuSidePort = s.cpuSidePort ∧ s0.memSidePort = s.memSidePort ∧
        s0.sendEvent = s.sendEvent ∧ s0.memSendEvent = s.memSendEvent ∧ s0.log = s.log ∧
        s0.transmit call.kind.side call.pkt call.time = .ok s1) ∧
    (call.pkt.needsResponse = false →
      s1.cpuSidePort = s.cpuSidePort ∧ s1.memSidePort = s.memSidePort) := by
  obtain ⟨kind, pkt, time, curTick⟩ := call
  cases kind with
  | respond =>
    simp only [applyResponse] at h
    constructor
    · intro hn
      rw [respond_transmit s pkt time curTick hn] at h
      split at h
      · cases h
      · exact ⟨s, rfl, rfl, rfl, rfl, rfl, h⟩
    · intro hn0
      have hn : pkt.needsResponse = false := hn0
      simp only [BaseCache.respond, hn, Bool.false_eq_true, if_false] at h
      by_cases ht : time < curTick
      · rw [if_pos ht] at h
        cases h
      · rw [if_neg ht] at h
        cases h
        exact ⟨(discard_spec s pkt).1, (discard_spec s pkt).2.1⟩
  | respondToMiss =>
    simp only [applyResponse] at h
    constructor
    · intro hn
      obtain ⟨s0, a1, a2, a3, a4, a5, heq⟩ := respondToMiss_transmit s pkt time curTick hn
      rw [heq] at h
      split at h
      · cases h
      · exact ⟨s0, a1, a2, a3, a4, a5, h⟩
    · intro hn0
      have hn : pkt.needsResponse = false := hn0
      rw [respondToMiss_eq_spec] at h
      simp only [respondToMissSpec, BaseCache.respond, hn, Bool.false_eq_true, if_false] at h
      by_cases ht : time < curTick
      · rw [if_pos ht] at h
        cases h
      · rw [if_neg ht] at h
        cases h
        obtain ⟨b1, b2, _⟩ := accrue_fields (s.discard pkt) pkt time
        rw [b1, b2]
        exact ⟨(discard_spec s pkt).1, (discard_spec s pkt).2.1⟩
  | respondToSnoop =>
    simp only [applyResponse] at h
    constructor
    · intro hn
      rw [respondToSnoop_transmit s pkt time curTick hn] at h
      split at h
      · cases h
      · exact ⟨s, rfl, rfl, rfl, rfl, rfl, h⟩
    · intro hn0
      have hn : pkt.needsResponse = false := hn0
      simp only [BaseCache.respondToSnoop, hn, Bool.false_eq_true, not_false_eq_true,
        if_true] at h
      by_cases ht : time < curTick
      · rw [if_pos ht] at h
        cases h
      · rw [if_neg ht] at h
        cases h

theorem transmitList_congr (s0 s : BaseCache) (side : Side)
    (h1 : s0.cpuSidePort = s.cpuSidePort) (h2 : s0.memSidePort = s.memSidePort) :
    s0.transmitList side = s.transmitList side := by
  cases side <;> simp only [BaseCache.transmitList, BaseCache.port, h1, h2]

theorem event_congr (s0 s : BaseCache) (side : Side)
    (h1 : s0.sendEvent = s.sendEvent) (h2 : s0.memSendEvent = s.memSendEvent) :
    s0.event side = s.event side := by
  cases side <;> simp only [BaseCache.event, h1, h2]

/-- The list of a side after a returning call of one of the three functions. -/
theorem applyResponse_list (s s1 : BaseCache) (call : ResponseCall) (side : Side)
    (h : applyResponse s call = .ok s1) (hs : TickSorted (s.transmitList side)) :
    s1.transmitList side =
      (if call.kind.side = side ∧ call.pkt.needsResponse = true
        then placeBehindEqual (call.time, call.pkt) (s.transmitList side)
        else s.transmitList side) ∧
    TickSorted (s1.transmitList side) := by
  obtain ⟨hyes, hno⟩ := applyResponse_step s s1 call h
  cases hn : call.pkt.needsResponse with
  | false =>
    obtain ⟨h1, h2⟩ := hno hn
    have hl := transmitList_congr s1 s side h1 h2
    rw [if_neg (fun hx => Bool.noConfusion hx.2), hl]
    exact ⟨rfl, hs⟩
  | true =>
    obtain ⟨s0, a1, a2, _, _, _, ht⟩ := hyes hn
    have hl := transmitList_congr s0 s side a1 a2
    by_cases hside : call.kind.side = side
    · rw [if_pos ⟨hside, rfl⟩]
      rw [hside] at ht
      rw [← hl] at hs ⊢
      obtain ⟨l1, l2, e0, e1, hbefore, hafter, _⟩ :=
        transmit_stable s0 s1 side call.pkt call.time ht hs
      obtain ⟨_, _, e0b, e1b, hsorted⟩ := transmit_sorted s0 s1 side call.pkt call.time ht
      refine ⟨?_, hsorted hs⟩
      rw [e1, e0]
      refine (placeBehindEqual_split (call.time, call.pkt) l1 l2 hbefore ?_).symm
      intro y hy
      cases l2 with
      | nil => simp at hy
      | cons z t =>
        simp only [List.head?_cons, Option.some.injEq] at hy
        rw [← hy]
        exact hafter z (List.mem_cons_self _ _)
    · rw [if_neg (fun hx => hside hx.1)]
      have := transmit_other s0 s1 side call.kind.side call.pkt call.time hside ht
      rw [this, hl]
      exact ⟨rfl, hs⟩

theorem entriesFor_append (side : Side) (a b : List ResponseCall) :
    entriesFor side (a ++ b) = entriesFor side a ++ entriesFor side b := by
  simp only [entriesFor, List.filter_append, List.map_append]

theorem entriesFor_single (side : Side) (call : ResponseCall) :
    entriesFor side [call] =
      (if call.kind.side = side ∧ call.pkt.needsResponse = true
        then [(call.time, call.pkt)] else []) := by
  by_cases h1 : call.kind.side = side
  · cases h2 : call.pkt.needsResponse <;> simp [entriesFor, List.filter, h1, h2]
  · simp [entriesFor, List.filter, h1]

/-- The list of a side after a sequence of calls, when it was the stable sort of
what was queued before. -/
theorem runResponses_stable (side : Side) (calls : List ResponseCall) :
    ∀ (s s1 : BaseCache) (before : List ResponseCall),
      s.transmitList side = stableSortByTick (entriesFor side before) →
      TickSorted (s.transmitList side) →
      runResponses s calls = .ok s1 →
      s1.transmitList side = stableSortByTick (entriesFor side (before ++ calls)) ∧
      TickSorted (s1.transmitList side) := by
  induction calls with
  | nil =>
    intro s s1 before hinv hs h
    simp only [runResponses, Except.ok.injEq] at h
    rw [← h, List.append_nil]
    exact ⟨hinv, hs⟩
  | cons call rest ih =>
    intro s s1 before hinv hs h
    simp only [runResponses] at h
    split at h
    · cases h
    · next s2 h2 =>
      obtain ⟨hl, hs2⟩ := applyResponse_list s s2 call side h2 hs
      have hinv2 : s2.transmitList side =
          stableSortByTick (entriesFor side (before ++ [call])) := by
        rw [hl, entriesFor_append, entriesFor_single]
        by_cases hc : call.kind.side = side ∧ call.pkt.needsResponse = true
        · rw [if_pos hc, if_pos hc, stableSortByTick_append, hinv]
        · rw [if_neg hc, if_neg hc, List.append_nil, hinv]
      have := ih s2 s1 (before ++ [call]) hinv2 hs2 h
      rw [List.append_assoc, List.singleton_append] at this
      exact this

/-- C28: stable order among equal ticks.  When `respond`, `respondToMiss` or
`respondToSnoop` returns after queueing a response on the sorted list of its
side, the new entry stands behind all entries whose tick is not later than its
own, so behind all existing entries with the same tick, and in front of all
later ones; when an entry with the same tick was on the list, the send event
and the log are as before, so the wake-up is not rescheduled.  After any
sequence of the three calls that starts with an empty list on a side, the list
of that side is the stable sort by tick of the entries queued on it, in the
order of the calls.  A call returns when `time` is not before the current tick,
the port exists and the send event is not scheduled while the list is empty. -/
theorem stable_order_among_equal_ticks (s : BaseCache) (side : Side) :
    (∀ call s1, call.kind.side = side → call.pkt.needsResponse = true →
      TickSorted (s.transmitList side) → applyResponse s call = .ok s1 →
      ∃ l1 l2, s.transmitList side = l1 ++ l2 ∧
        s1.transmitList side = l1 ++ (call.time, call.pkt) :: l2 ∧
        (∀ x ∈ l1, x.1 ≤ call.time) ∧ (∀ y ∈ l2, call.time < y.1) ∧
        ((∃ x ∈ s.transmitList side, x.1 = call.time) →
          s1.event side = s.event side ∧ s1.log = s.log)) ∧
    (∀ calls s1, s.transmitList side = [] → runResponses s calls = .ok s1 →
      s1.transmitList side = stableSortByTick (entriesFor side calls) ∧
      TickSorted (s1.transmitList side) ∧
      (s1.transmitList side).Perm (entriesFor side calls)) ∧
    (∀ call port, call.kind.side = side → call.pkt.needsResponse = true →
      call.curTick ≤ call.time → s.port side = some port →
      (port.transmitList = [] → s.event side = none) →
      ∃ s1, applyResponse s call = .ok s1) := by
  refine ⟨?_, ?_, ?_⟩
  · intro call s1 hside hn hs h
    obtain ⟨s0, a1, a2, a3, a4, a5, ht⟩ := (applyResponse_step s s1 call h).1 hn
    have hl := transmitList_congr s0 s side a1 a2
    have he := event_congr s0 s side a3 a4
    rw [hside] at ht
    rw [← hl] at hs
    obtain ⟨l1, l2, e0, e1, hbefore, hafter, hev, hlog⟩ :=
      transmit_stable s0 s1 side call.pkt call.time ht hs
    refine ⟨l1, l2, by rw [← hl, e0], e1, hbefore, hafter, ?_⟩
    rintro ⟨x, hx, hxt⟩
    rw [← hl, e0] at hx
    have hx1 : x ∈ l1 := by
      rcases List.mem_append.1 hx with hm | hm
      · exact hm
      · have := hafter x hm
        omega
    have hne1 : l1 ≠ [] := List.ne_nil_of_mem hx1
    have hne0 : s0.transmitList side ≠ [] := by
      rw [e0]
      intro hnil
      exact hne1 (List.append_eq_nil.1 hnil).1
    rw [hev, hlog, if_neg hne1, if_neg hne0, if_neg hne1, List.append_nil, he, a5]
    exact ⟨rfl, rfl⟩
  · intro calls s1 hnil h
    have hinv : s.transmitList side = stableSortByTick (entriesFor side []) := by
      rw [hnil]; rfl
    have hs : TickSorted (s.transmitList side) := by
      rw [hnil]; exact List.Pairwise.nil
    obtain ⟨h1, h2⟩ := runResponses_stable side calls s s1 [] hinv hs h
    rw [List.nil_append] at h1
    refine ⟨h1, h2, ?_⟩
    rw [h1]
    exact List.perm_insertionSort _ _
  · intro call port hside hn htime hport hev
    obtain ⟨kind, pkt, time, curTick⟩ := call
    have hn2 : pkt.needsResponse = true := hn
    have hnot : ¬ time < curTick := Int.not_lt.2 htime
    cases kind with
    | respond =>
      have hside2 : Side.cpu = side := hside
      subst hside2
      show ∃ s1, s.respond pkt time curTick = .ok s1
      rw [respond_transmit s pkt time curTick hn2, if_neg hnot]
      exact transmit_returns s .cpu pkt time port hport hev
    | respondToMiss =>
      have hside2 : Side.cpu = side := hside
      subst hside2
      show ∃ s1, s.respondToMiss pkt time curTick = .ok s1
      obtain ⟨s0, hp, _, he, _, _, heq⟩ := respondToMiss_transmit s pkt time curTick hn2
      rw [heq, if_neg hnot]
      have hport2 : s.cpuSidePort = some port := hport
      exact transmit_returns s0 .cpu pkt time port (by simp only [BaseCache.port, hp, hport2])
        (fun hl => by simp only [BaseCache.event, he]; exact hev hl)
    | respondToSnoop =>
      have hside2 : Side.mem = side := hside
      subst hside2
      show ∃ s1, s.respondToSnoop pkt time curTick = .ok s1
      rw [respondToSnoop_transmit s pkt time curTick hn2, if_neg hnot]
      exact transmit_returns s .mem pkt time port hport hev

/-- C28, scenario: responses 1 and 2 are queued for tick 10, response 3 for tick
5, a snoop response for tick 10, response 4 for tick 10 and a write-back that
needs no response.  The cpu-side list holds response 3 and then responses 1, 2
and 4 in the order of their calls; the wake-up was scheduled for tick 10 and
rescheduled once, to tick 5. -/
theorem stable_order_among_equal_ticks_witness :
    (runResponses (BaseCache.wired idlePort idlePort)
        [⟨.respond, response 1, 10, 0⟩, ⟨.respond, response 2, 10, 0⟩,
         ⟨.respondToMiss, response 3, 5, 0⟩, ⟨.respondToSnoop, response 5, 10, 0⟩,
         ⟨.respond, response 4, 10, 0⟩, ⟨.respond, writeback 9, 7, 0⟩]).map
        (fun s => (s.transmitList .cpu, s.transmitList .mem, s.log))
      = .ok ([(5, response 3), (10, response 1), (10, response 2), (10, response 4)],
          [(10, response 5)],
          [Effect.schedule Side.cpu 10, Effect.reschedule Side.cpu 5,
           Effect.schedule Side.mem 10, Effect.deletePacket 9]) ∧
    stableSortByTick (entriesFor .cpu
        [⟨.respond, response 1, 10, 0⟩, ⟨.respond, response 2, 10, 0⟩,
         ⟨.respondToMiss, response 3, 5, 0⟩, ⟨.respondToSnoop, response 5, 10, 0⟩,
         ⟨.respond, response 4, 10, 0⟩, ⟨.respond, writeback 9, 7, 0⟩])
      = [(5, response 3), (10, response 1), (10, response 2), (10, response 4)] ∧
    (∀ s1,
      runResponses (BaseCache.wired idlePort idlePort)
        [⟨.respond, response 1, 10, 0⟩, ⟨.respond, response 2, 10, 0⟩,
         ⟨.respondToMiss, response 3, 5, 0⟩, ⟨.respondToSnoop, response 5, 10, 0⟩,
         ⟨.respond, response 4, 10, 0⟩, ⟨.respond, writeback 9, 7, 0⟩] = .ok s1 →
      s1.transmitList .cpu = stableSortByTick (entriesFor .cpu
        [⟨.respond, response 1, 10, 0⟩, ⟨.respond, response 2, 10, 0⟩,
         ⟨.respondToMiss, response 3, 5, 0⟩, ⟨.respondToSnoop, response 5, 10, 0⟩,
         ⟨.respond, response 4, 10, 0⟩, ⟨.respond, writeback 9, 7, 0⟩])) :=
  ⟨by rfl, by rfl, fun s1 h =>
    ((stable_order_among_equal_ticks (BaseCache.wired idlePort idlePort) .cpu).2.1
      _ s1 rfl h).1⟩

end Cache

namespace Mem

/-! ## A retry pass whose callbacks send again -/

/-- The retry loop with callbacks that only append: `n` rounds on a list of at
least `n` entries return, having called the first `n` entries in order; what is
left is the rest of the list and, behind it, what the callbacks appended. -/
theorem recvRetryLoop_appending (peers : Peers) (happ : peers.Appending) (n : Nat) :
    ∀ bus : Bus, n ≤ bus.retryList.length →
      ∃ final, recvRetryLoop peers n bus = .ok (final, bus.retryList.take n) ∧
        final.retryList = bus.retryList.drop n ++ retryPassExtras peers n bus := by
  induction n with
  | zero =>
    intro bus _
    refine ⟨bus, rfl, ?_⟩
    simp only [List.drop_zero, retryPassExtras, List.append_nil]
  | succ n ih =>
    intro bus hlen
    cases hlist : bus.retryList with
    | nil =>
      rw [hlist] at hlen
      simp at hlen
    | cons p rest =>
      rw [hlist] at hlen
      have hn : n ≤ rest.length := by
        simp only [List.length_cons] at hlen
        omega
      obtain ⟨extra, hextra⟩ := happ p { bus with retryList := rest }
      have hextra2 : (peers.sendRetry p { bus with retryList := rest }).retryList =
          rest ++ extra := hextra
      have hlen1 : n ≤ (peers.sendRetry p { bus with retryList := rest }).retryList.length := by
        rw [hextra2, List.length_append]
        omega
      obtain ⟨final, hloop, hfinal⟩ := ih (peers.sendRetry p { bus with retryList := rest }) hlen1
      refine ⟨final, ?_, ?_⟩
      · simp only [recvRetryLoop, hlist, hloop, List.take_succ_cons]
        rw [hextra2, List.take_append_of_le_length hn]
      · rw [hfinal]
        simp only [retryPassExtras, hlist, List.drop_succ_cons]
        rw [hextra2, List.drop_append_of_le_length hn, List.drop_left, List.append_assoc]

/-- Peers that send again on a retry only append to the retry list. -/
theorem resendingPeers_appending (addr : Nat) : (resendingPeers addr).Appending := by
  intro p b
  show ∃ extra,
    (match b.recvTiming (quietPeers false 0) { addr := addr, src := p.id, dest := -1 } with
      | .ok r => r.bus
      | .error _ => b).retryList = b.retryList ++ extra
  cases h : b.recvTiming (quietPeers false 0) { addr := addr, src := p.id, dest := -1 } with
  | error f => exact ⟨[], (List.append_nil _).symm⟩
  | ok r =>
    have hq : (quietPeers false 0).Quiet := ⟨fun _ _ _ => rfl, fun _ _ => rfl⟩
    obtain ⟨_, hcase⟩ := recvTiming_quiet (quietPeers false 0) hq b _ r h
    rcases hcase with ⟨_, hl⟩ | ⟨_, origin, _, hl⟩
    · exact ⟨[], by rw [List.append_nil]; exact hl⟩
    · exact ⟨[origin], hl⟩

/-- C30: one pass of `Bus::recvRetry` is bounded by the list length at entry.
With callbacks that leave the retry list as it is or append to it (as a
`recvTiming` that is rejected again does), a pass on a list of `n` entries
returns, so the assertion in the loop does not fail; it has called `sendRetry`
exactly `n` times, on the `n` entries of the list at entry, in their order; and
the list afterwards consists of exactly the entries that the callbacks appended
during the pass, in the order in which they were appended, none of which was
retried in the pass. -/
theorem recvRetry_bounded_pass (peers : Peers) (bus : Bus) (id : Int)
    (happ : peers.Appending) :
    ∃ final called, bus.recvRetry peers id = .ok (final, called) ∧
      called = bus.retryList ∧ called.length = bus.retryList.length ∧
      final.retryList = retryPassExtras peers bus.retryList.length bus := by
  obtain ⟨final, hloop, hfinal⟩ :=
    recvRetryLoop_appending peers happ bus.retryList.length bus (le_refl _)
  rw [List.take_length] at hloop
  rw [List.drop_length, List.nil_append] at hfinal
  exact ⟨final, bus.retryList, hloop, rfl, rfl, hfinal⟩

/-- C30, scenario: ports 0 and 1 wait for a retry and each answers its retry with
a send that is rejected again.  The pass calls port 0 and port 1 once each and
returns with the two ports on the list again, in the order of their new
rejections. -/
theorem recvRetry_bounded_pass_witness :
    (resendingPeers 0x1500).Appending ∧
    (∃ final called,
      Bus.recvRetry (resendingPeers 0x1500)
        { scenarioBus with retryList := [⟨0⟩, ⟨1⟩] } 0 = .ok (final, called) ∧
      called = [⟨0⟩, ⟨1⟩] ∧ called.length = 2 ∧
      final.retryList = retryPassExtras (resendingPeers 0x1500) 2
        { scenarioBus with retryList := [⟨0⟩, ⟨1⟩] }) ∧
    retryPassExtras (resendingPeers 0x1500) 2 { scenarioBus with retryList := [⟨0⟩, ⟨1⟩] }
      = [⟨0⟩, ⟨1⟩] ∧
    (Bus.recvRetry (resendingPeers 0x1500)
        { scenarioBus with retryList := [⟨0⟩, ⟨1⟩] } 0).map
        (fun r => (r.1.retryList, r.2)) = .ok ([⟨0⟩, ⟨1⟩], [⟨0⟩, ⟨1⟩]) :=
  ⟨resendingPeers_appending 0x1500,
    recvRetry_bounded_pass (resendingPeers 0x1500)
      { scenarioBus with retryList := [⟨0⟩, ⟨1⟩] } 0 (resendingPeers_appending 0x1500),
    by rfl, by rfl⟩

/-! ## The retry pass after rejected sends -/

theorem recvTiming_quietSends (peers : Peers) (hq : peers.QuietSends) (bus : Bus)
    (pkt : Packet) (r : TimingResult) (h : bus.recvTiming peers pkt = .ok r) :
    r.bus.interfaces = bus.interfaces ∧
      ((r.accepted = true ∧ r.bus.retryList = bus.retryList) ∨
        (r.accepted = false ∧ ∃ origin, bus.interfaceAt pkt.src = .ok origin ∧
          r.bus.retryList = bus.retryList ++ [origin])) :=
  recvTiming_quiet { peers with sendRetry := fun _ b => b } ⟨hq, fun _ _ => rfl⟩ bus pkt r h

/-- After a run of timing sends that do not call back into the bus, the retry
list holds, behind what it held before, the interface of the source of every
rejected send, in the order of the rejections. -/
theorem recvTimingSeq_quietSends (peers : Peers) (hq : peers.QuietSends)
    (pkts : List Packet) (bus bus1 : Bus) (rejected : List Packet)
    (h : recvTimingSeq peers bus pkts = .ok (bus1, rejected)) :
    bus1.interfaces = bus.interfaces ∧
      bus1.retryList.map Except.ok =
        bus.retryList.map Except.ok ++ rejected.map (fun k => bus.interfaceAt k.src) := by
  induction pkts generalizing bus bus1 rejected with
  | nil =>
    simp only [recvTimingSeq] at h
    cases h
    simp
  | cons pkt rest ih =>
    simp only [recvTimingSeq] at h
    split at h
    · cases h
    · next r hr =>
      split at h
      · cases h
      · next final rej hrest =>
        obtain ⟨hif, hcase⟩ := recvTiming_quietSends peers hq bus pkt r hr
        obtain ⟨hif2, hlist⟩ := ih r.bus final rej hrest
        have hcongr : (fun k : Packet => r.bus.interfaceAt k.src) =
            (fun k : Packet => bus.interfaceAt k.src) :=
          funext (fun k => interfaceAt_congr r.bus bus hif k.src)
        rw [hcongr] at hlist
        simp only [Except.ok.injEq, Prod.mk.injEq] at h
        obtain ⟨hb, hrj⟩ := h
        subst hb
        rcases hcase with ⟨hacc, hsame⟩ | ⟨hacc, origin, horigin, happ⟩
        · rw [hacc] at hrj
          simp only [if_true] at hrj
          subst hrj
          exact ⟨hif2.trans hif, by rw [hlist, hsame]⟩
        · rw [hacc] at hrj
          simp only [Bool.false_eq_true, if_false] at hrj
          subst hrj
          refine ⟨hif2.trans hif, ?_⟩
          rw [hlist, happ, List.map_append, List.map_cons, List.map_cons, horigin,
            List.map_nil, List.append_assoc, List.singleton_append]

theorem busyPeers_appending (busy : Int) (addr : Nat) : (busyPeers busy addr).Appending :=
  resendingPeers_appending addr

/-- C10: the retry pass of `Bus::recvRetry`.  Timing sends (which do not call
back into the bus) are made into a bus with an empty retry list, and no port
sends again after a rejection, as the protocol requires of an initiator: the
rejected sends have pairwise different sources.  Then one `recvRetry` returns,
having called `sendRetry` exactly once on the port of every rejected send, on no
other port, in the order in which the rejections occurred.  The retry callbacks
may send again (they leave the retry list alone or append to it); the bus comes
back with what they appended, and with an empty retry list when they do
nothing. -/
theorem recvRetry_once_each (peers : Peers) (bus bus1 : Bus) (pkts rejected : List Packet)
    (id : Int) (hsends : peers.QuietSends) (happ : peers.Appending) (hnum : bus.Numbered)
    (hempty : bus.retryList = [])
    (hrun : recvTimingSeq peers bus pkts = .ok (bus1, rejected))
    (hproto : (rejected.map Packet.src).Nodup) :
    ∃ final called, bus1.recvRetry peers id = .ok (final, called) ∧
      called.map Except.ok = rejected.map (fun k => bus.interfaceAt k.src) ∧
      called.map BusPort.id = rejected.map Packet.src ∧
      (∀ k ∈ rejected, ∀ p, bus.interfaceAt k.src = .ok p → called.count p = 1) ∧
      (∀ p ∈ called, ∃ k ∈ rejected, bus.interfaceAt k.src = .ok p) ∧
      (∀ p, called.count p ≤ 1) ∧
      final.retryList = retryPassExtras peers bus1.retryList.length bus1 ∧
      (peers.Quiet → final.retryList = []) := by
  obtain ⟨_, hlist⟩ := recvTimingSeq_quietSends peers hsends pkts bus bus1 rejected hrun
  rw [hempty, List.map_nil, List.nil_append] at hlist
  have hids : bus1.retryList.map BusPort.id = rejected.map Packet.src := by
    apply List.ext_getElem?
    intro i
    have hi := congrArg (fun l => l[i]?) hlist
    simp only [List.getElem?_map] at hi ⊢
    cases hc : bus1.retryList[i]? with
    | none =>
      rw [hc] at hi
      cases hr : rejected[i]? with
      | none => rfl
      | some k => rw [hr] at hi; cases hi
    | some p =>
      rw [hc] at hi
      cases hr : rejected[i]? with
      | none => rw [hr] at hi; cases hi
      | some k =>
        rw [hr] at hi
        simp only [Option.map, Option.some.injEq] at hi ⊢
        exact interfaceAt_id bus hnum k.src p hi.symm
  have hnodup : bus1.retryList.Nodup := by
    have hnd := hproto
    rw [← hids] at hnd
    exact List.Nodup.of_map _ hnd
  have hmem : ∀ p, p ∈ bus1.retryList ↔ ∃ k ∈ rejected, bus.interfaceAt k.src = .ok p := by
    intro p
    constructor
    · intro hp
      have h1 : (Except.ok p : Except Fault BusPort) ∈ bus1.retryList.map Except.ok :=
        List.mem_map.2 ⟨p, hp, rfl⟩
      rw [hlist] at h1
      obtain ⟨k, hk, hkp⟩ := List.mem_map.1 h1
      exact ⟨k, hk, hkp⟩
    · rintro ⟨k, hk, hkp⟩
      have h1 : (Except.ok p : Except Fault BusPort) ∈
          rejected.map (fun k => bus.interfaceAt k.src) := List.mem_map.2 ⟨k, hk, hkp⟩
      rw [← hlist] at h1
      obtain ⟨q, hq, hqp⟩ := List.mem_map.1 h1
      cases hqp
      exact hq
  obtain ⟨final, hloop, hfinal⟩ :=
    recvRetryLoop_appending peers happ bus1.retryList.length bus1 (le_refl _)
  rw [List.take_length] at hloop
  rw [List.drop_length, List.nil_append] at hfinal
  refine ⟨final, bus1.retryList, hloop, hlist, hids, ?_, ?_, ?_, hfinal, ?_⟩
  · intro k hk p hp
    exact List.count_eq_one_of_mem hnodup ((hmem p).2 ⟨k, hk, hp⟩)
  · intro p hp
    exact (hmem p).1 hp
  · intro p
    exact List.nodup_iff_count_le_one.1 hnodup p
  · intro hq
    have hquiet := recvRetryLoop_quiet peers hq bus1.retryList.length bus1 (le_refl _)
    rw [hquiet] at hloop
    simp only [Except.ok.injEq, Prod.mk.injEq] at hloop
    rw [← hloop.1]
    exact List.drop_length _

/-- C10, scenario: port 0 sends to the busy port 2 and is rejected, port 2 sends
to port 1 and is accepted, port 1 sends to port 2 and is rejected.  The retry
pass calls port 0 and then port 1, once each, and not port 2; each of the two
sends again and is rejected again, so both are on the retry list afterwards. -/
theorem recvRetry_once_each_witness :
    recvTimingSeq (busyPeers 2 0x1500) scenarioBus
        [⟨0x1500, 0, -1⟩, ⟨0x100, 2, -1⟩, ⟨0x1500, 1, -1⟩] =
      .ok ({ scenarioBus with retryList := [⟨0⟩, ⟨1⟩] },
        [⟨0x1500, 0, -1⟩, ⟨0x1500, 1, -1⟩]) ∧
    (Bus.recvRetry (busyPeers 2 0x1500) { scenarioBus with retryList := [⟨0⟩, ⟨1⟩] } 0).map
        (fun r => (r.2, r.1.retryList)) = .ok ([⟨0⟩, ⟨1⟩], [⟨0⟩, ⟨1⟩]) ∧
    (∃ final called,
      Bus.recvRetry (busyPeers 2 0x1500) { scenarioBus with retryList := [⟨0⟩, ⟨1⟩] } 0
        = .ok (final, called) ∧
      called.map Except.ok =
        [(⟨0x1500, 0, -1⟩ : Packet), ⟨0x1500, 1, -1⟩].map
          (fun k => scenarioBus.interfaceAt k.src) ∧
      called.map BusPort.id = [(⟨0x1500, 0, -1⟩ : Packet), ⟨0x1500, 1, -1⟩].map Packet.src ∧
      (∀ k ∈ [(⟨0x1500, 0, -1⟩ : Packet), ⟨0x1500, 1, -1⟩], ∀ p,
        scenarioBus.interfaceAt k.src = .ok p → called.count p = 1) ∧
      (∀ p ∈ called, ∃ k ∈ [(⟨0x1500, 0, -1⟩ : Packet), ⟨0x1500, 1, -1⟩],
        scenarioBus.interfaceAt k.src = .ok p) ∧
      (∀ p, called.count p ≤ 1) ∧
      final.retryList = retryPassExtras (busyPeers 2 0x1500)
        ({ scenarioBus with retryList := [⟨0⟩, ⟨1⟩] } : Bus).retryList.length
        { scenarioBus with retryList := [⟨0⟩, ⟨1⟩] } ∧
      ((busyPeers 2 0x1500).Quiet → final.retryList = [])) :=
  ⟨by rfl, by rfl,
    recvRetry_once_each (busyPeers 2 0x1500) scenarioBus
      { scenarioBus with retryList := [⟨0⟩, ⟨1⟩] }
      [⟨0x1500, 0, -1⟩, ⟨0x100, 2, -1⟩, ⟨0x1500, 1, -1⟩]
      [⟨0x1500, 0, -1⟩, ⟨0x1500, 1, -1⟩] 0
      (fun _ _ _ => rfl) (busyPeers_appending 2 0x1500) scenarioBus_numbered rfl (by rfl)
      (by decide)⟩

end Mem
